import Mathlib

/-!
# Perceptron: a shallow embedding of `network.go` and `neuron.go`

The Go program trains a network of linear-threshold units with the delta rule.
Its arithmetic is `float32`; the embedding carries an exact model of IEEE-754
binary32 (round to nearest, ties to even, one rounding per operation, as the
Go compiler emits on amd64) so that training runs can be evaluated bit for bit.

Conventions of the embedding
* `uint` and `int` are 64 bit wide; `uint` values are `Nat`s below `2^64`,
  and every subtraction or increment that can wrap carries its modulus.
* a slice is a `List`; the pointers `*layer` and `*neuron` are the values they
  point to (the constructor `New` never shares a unit between two slots).
* the activation function is a pure function `F32 → Nat`.
* console output of the verbose mode is not part of the state.
* a run-time panic is an explicit way for a call to end (`Exit.panic`).
* the unbounded `for` loop of `Train` runs on fuel: `Train fuel` is `none` when
  the loop is still running after `fuel` passes.
-/

namespace perceptron

/-! ## binary32 arithmetic -/

/-- A binary32 value. A finite value is `± k · 2^(-149)`: `k` counts units of the
smallest subnormal. The zeros are `fin false 0` and `fin true 0`. -/
inductive F32 where
  | fin (neg : Bool) (k : Nat)
  | inf (neg : Bool)
  | nan
deriving DecidableEq, Repr

namespace F32

/-- Halves `n` until it vanishes, counting the steps (at most `fuel` of them). -/
def bitLenAux : Nat → Nat → Nat
  | 0, _ => 0
  | fuel + 1, n => if n = 0 then 0 else bitLenAux fuel (n / 2) + 1

/-- Number of binary digits of `n`. -/
def bitLen (n : Nat) : Nat := bitLenAux n n

/-- Magnitude `2^277 = 2^128 · 2^149`: the first magnitude (in units) that no longer
is finite in binary32. -/
def overflowUnits : Nat := 2 ^ 128 * 2 ^ 149

/-- Rounds the non-negative rational `N / D` (in units of `2^(-149)`) to the
nearest binary32 magnitude, ties to even. The spacing of the binary32 grid at
a magnitude with `L > 24` binary digits is `2^(L-24)` units, and one unit below. -/
def roundUnits (N D : Nat) : Nat :=
  let j := bitLen (N / D) - 24
  let D' := D * 2 ^ j
  let t := N / D'
  let rem := N % D'
  let up := if 2 * rem > D' ∨ (2 * rem = D' ∧ t % 2 = 1) then 1 else 0
  (t + up) * 2 ^ j

/-- The binary32 value of sign `neg` nearest to `N / D` units. -/
def ofUnits (neg : Bool) (N D : Nat) : F32 :=
  let k := roundUnits N D
  if k ≥ overflowUnits then inf neg else fin neg k

/-- A value is a binary32 number when its magnitude lies on the binary32 grid. -/
def representable : F32 → Bool
  | fin _ k => decide (roundUnits k 1 = k ∧ k < overflowUnits)
  | _ => true

/-- Positive zero, the zero value of a Go `float32` variable. -/
def zero : F32 := fin false 0

/-- Conversion `float32(x)` of a `uint`, a value below `2^64`. -/
def ofUint (x : Nat) : F32 := ofUnits false (x % 2 ^ 64 * 2 ^ 149) 1

/-- Conversion `float32(e)` of an `int`. -/
def ofInt (e : Int) : F32 := ofUnits (decide (e < 0)) (e.natAbs * 2 ^ 149) 1

/-- The `float32` nearest to the decimal constant `p / q` of the source text. -/
def ofRat (p q : Nat) : F32 := ofUnits false (p * 2 ^ 149) q

/-- Sign change. -/
def neg : F32 → F32
  | fin s k => fin (!s) k
  | inf s => inf (!s)
  | nan => nan

/-- Signed number of units of a finite value. -/
def toUnits (s : Bool) (k : Nat) : Int := if s then -(k : Int) else (k : Int)

/-- The sum `a + b`, rounded once. An exact zero sum is `+0` unless both
operands are negative (that is, both are `-0`); adding a zero to a non-zero
number returns that number. -/
def add : F32 → F32 → F32
  | nan, _ => nan
  | _, nan => nan
  | inf s, inf t => if s = t then inf s else nan
  | inf s, fin _ _ => inf s
  | fin _ _, inf t => inf t
  | fin s k, fin t l =>
    if l = 0 then (if k = 0 then fin (s && t) 0 else fin s k)
    else if k = 0 then fin t l
    else
      let e := toUnits s k + toUnits t l
      if e = 0 then fin false 0 else ofUnits (decide (e < 0)) e.natAbs 1

/-- The difference `a - b`. -/
def sub (a b : F32) : F32 := add a (neg b)

/-- The product `a * b`, rounded once. -/
def mul : F32 → F32 → F32
  | nan, _ => nan
  | _, nan => nan
  | inf s, inf t => inf (xor s t)
  | inf s, fin t l => if l = 0 then nan else inf (xor s t)
  | fin s k, inf t => if k = 0 then nan else inf (xor s t)
  | fin s k, fin t l => ofUnits (xor s t) (k * l) (2 ^ 149)

/-- Go comparison `a > b`. -/
def gt : F32 → F32 → Bool
  | nan, _ => false
  | _, nan => false
  | inf s, inf t => !s && t
  | inf s, fin _ _ => !s
  | fin _ _, inf t => t
  | fin s k, fin t l => decide (toUnits s k > toUnits t l)

/-- Go comparison `a != b`: a NaN differs from everything, the two zeros are equal. -/
def ne : F32 → F32 → Bool
  | nan, _ => true
  | _, nan => true
  | inf s, inf t => s != t
  | inf _, fin _ _ => true
  | fin _ _, inf _ => true
  | fin s k, fin t l => decide (toUnits s k ≠ toUnits t l)

end F32


/-! ## `neuron.go` -/

/-- The error values of the package: the three `Error` constants and the value
built by `errors.New("Could not process")` in `Process`. -/
inductive Error where
  | errNoSamples
  | errNoIterationData
  | errOutOfBounds
  | errCouldNotProcess
deriving DecidableEq, Repr

/-- How a call ends: it returns an `error` value (`none` is Go `nil`), or it
panics at run time. -/
inductive Exit where
  | ret (err : Option Error)
  | panic
deriving DecidableEq, Repr

/-- Go `type WeightInitStrategy uint`. -/
abbrev WeightInitStrategy := Nat

/-- Constant `ZeroWeightInit` (`iota = 0`). -/
def ZeroWeightInit : WeightInitStrategy := 0

/-- Constant `RandomWeightInit` (`iota = 1`). -/
def RandomWeightInit : WeightInitStrategy := 1

/-- Go `type ActivationFunc = func(float32) uint`. -/
abbrev ActivationFunc := F32 → Nat

/-- The state of the global generator behind `rand.Float32()`: the stream of
its future draws. -/
abbrev RandSource := Nat → F32

/-- Go `type neuron struct` (without the mutex, which no caller contends for). -/
structure neuron where
  x : List Nat
  b : Nat
  z : Nat
  w : List F32
  fn : ActivationFunc
  r : F32
  d : F32
  y : Nat
  verbose : Bool

/-- Go `newNeuron`: all fields but `fn` and `r` have their zero value. -/
def newNeuron (fn : ActivationFunc) (learningRate : F32) : neuron :=
  { x := [], b := 0, z := 0, w := [], fn := fn, r := learningRate,
    d := F32.zero, y := 0, verbose := false }

/-- Go `neuron.initWeights`: a fresh weight vector as long as `x`, filled by the
strategy. A strategy other than the two constants leaves the filling function
`nil`, and calling it panics as soon as there is a weight to fill. -/
def neuron.initWeights (n : neuron) (st : WeightInitStrategy) (rnd : RandSource) :
    neuron × RandSource × Exit :=
  let xlen := n.x.length
  if st = ZeroWeightInit then
    ({ n with w := List.replicate xlen F32.zero }, rnd, Exit.ret none)
  else if st = RandomWeightInit then
    ({ n with w := (List.range xlen).map rnd }, fun k => rnd (k + xlen), Exit.ret none)
  else if xlen = 0 then
    ({ n with w := [] }, rnd, Exit.ret none)
  else
    ({ n with w := List.replicate xlen F32.zero }, rnd, Exit.panic)

/-- Go `neuron.sensor`: the weighted input at index `i`, guarded on both vectors. -/
def neuron.sensor (n : neuron) (i : Nat) : F32 × Option Error :=
  if n.x.length ≤ i then (F32.zero, some Error.errOutOfBounds)
  else if n.w.length ≤ i then (F32.zero, some Error.errOutOfBounds)
  else (F32.mul (F32.ofUint (n.x.getD i 0)) (n.w.getD i F32.zero), none)

/-- The loop of `neuron.process` from index `i` on, with `todo` indices of
`range n.x` left and the running sum `output`. -/
def neuron.processFrom (n : neuron) : Nat → Nat → F32 → Nat × Option Error
  | 0, _, output => (n.fn output, none)
  | todo + 1, i, output =>
    match n.sensor i with
    | (_, some err) => (0, some err)
    | (ci, none) => neuron.processFrom n todo (i + 1) (F32.add output ci)

/-- Go `neuron.process`. -/
def neuron.process (n : neuron) : Nat × Option Error :=
  n.processFrom n.x.length 0 F32.zero

/-- Go `neuron.train`: `n.y` receives the first result of `process` before the
error is looked at. -/
def neuron.train (n : neuron) : neuron × Option Error :=
  ({ n with y := n.process.1 }, n.process.2)

/-- Go `a - b` on `uint`: subtraction modulo `2^64`. -/
def uintSub (a b : Nat) : Nat := (a % 2 ^ 64 + (2 ^ 64 - b % 2 ^ 64)) % 2 ^ 64

/-- Go conversion `int(u)` of a `uint`: the same 64 bits read in two's complement. -/
def toInt (u : Nat) : Int :=
  if u % 2 ^ 64 < 2 ^ 63 then ((u % 2 ^ 64 : Nat) : Int) else ((u % 2 ^ 64 : Nat) : Int) - 2 ^ 64

/-- Go `neuron.error`: `int(n.z - n.y)`. -/
def neuron.error (n : neuron) : Int := toInt (uintSub n.z n.y)

/-- Go `neuron.correction`. -/
def neuron.correction (n : neuron) : F32 := F32.mul n.r (F32.ofInt n.error)

/-- Go `neuron.newWeight`; `none` is the index-out-of-range panic of `n.w[i]`. -/
def neuron.newWeight (n : neuron) (i : Nat) : Option (F32 × Option Error) :=
  if n.x.length ≤ i then some (F32.ofInt (-1), some Error.errOutOfBounds)
  else
    match n.w[i]? with
    | none => none
    | some wi => some (F32.add wi (F32.mul n.d (F32.ofUint (n.x.getD i 0))), none)

/-- The loop of `neuron.updateWeights` from index `i` on, with `todo` indices of
`range n.x` left. -/
def neuron.updateFrom : Nat → Nat → neuron → neuron × Exit
  | 0, _, n => (n, Exit.ret none)
  | todo + 1, i, n =>
    match n.newWeight i with
    | none => (n, Exit.panic)
    | some (_, some err) => (n, Exit.ret (some err))
    | some (w, none) =>
      neuron.updateFrom todo (i + 1)
        (if F32.ne (n.w.getD i F32.zero) w then { n with w := n.w.set i w } else n)

/-- Go `neuron.updateWeights`. -/
def neuron.updateWeights (n : neuron) : neuron × Exit :=
  neuron.updateFrom n.x.length 0 { n with d := n.correction }

/-! ## `network.go` -/

/-- Go `type Sample struct`. -/
structure Sample where
  X : List Nat
  Z : Nat

/-- Go `type layer struct`. -/
structure layer where
  neurons : List neuron

/-- Go `type Perceptron struct`. -/
structure Perceptron where
  layers : List layer
  verbose : Bool
  bias : Nat

/-- Go `New`. -/
def New (nLayers neuronsPerLayer : Nat) (fn : ActivationFunc) (learningRate : F32)
    (bias : Nat) : Perceptron :=
  { layers := List.replicate nLayers
      { neurons := List.replicate neuronsPerLayer (newNeuron fn learningRate) },
    verbose := false, bias := bias }

/-- Go `Perceptron.SetVerbose`. -/
def Perceptron.SetVerbose (p : Perceptron) (v : Bool) : Perceptron := { p with verbose := v }

/-- All units of the network in layer-then-unit order. -/
def Perceptron.units (p : Perceptron) : List neuron :=
  (p.layers.map layer.neurons).flatten

/-- The body of the first loop of `Train` over the units of one layer: every
unit gets an input vector of `m + 1` zeros, fresh weights and the verbose flag. -/
def initNeurons (m : Nat) (ws : WeightInitStrategy) (verbose : Bool) :
    List neuron → RandSource → List neuron × RandSource × Exit
  | [], rnd => ([], rnd, Exit.ret none)
  | n :: ns, rnd =>
    match neuron.initWeights { n with x := List.replicate (m + 1) 0 } ws rnd with
    | (n1, rnd1, Exit.ret none) =>
      match initNeurons m ws verbose ns rnd1 with
      | (ns1, rnd2, ex) => ({ n1 with verbose := verbose } :: ns1, rnd2, ex)
    | (n1, rnd1, ex) => (n1 :: ns, rnd1, ex)

/-- The first loop of `Train` over the layers. -/
def initLayers (m : Nat) (ws : WeightInitStrategy) (verbose : Bool) :
    List layer → RandSource → List layer × RandSource × Exit
  | [], rnd => ([], rnd, Exit.ret none)
  | ly :: ls, rnd =>
    match initNeurons m ws verbose ly.neurons rnd with
    | (ns1, rnd1, Exit.ret none) =>
      match initLayers m ws verbose ls rnd1 with
      | (ls1, rnd2, ex) => ({ neurons := ns1 } :: ls1, rnd2, ex)
    | (ns1, rnd1, ex) => ({ neurons := ns1 } :: ls, rnd1, ex)

/-- The body of the inner training loop of `Train` for one unit: the unit
receives the sample, runs `train` and, when that gave no error, `updateWeights`. -/
def trainUnit (x : List Nat) (z : Nat) (n : neuron) : neuron × Exit :=
  match neuron.train { n with x := x, z := z } with
  | (n1, some err) => (n1, Exit.ret (some err))
  | (n1, none) => n1.updateWeights

/-- The inner training loop of `Train` over the units of one layer: the first
error (or panic) ends the whole call and leaves the later units untouched. -/
def trainNeurons (x : List Nat) (z : Nat) : List neuron → List neuron × Exit
  | [] => ([], Exit.ret none)
  | n :: ns =>
    match trainUnit x z n with
    | (n2, Exit.ret none) =>
      match trainNeurons x z ns with
      | (ns1, ex) => (n2 :: ns1, ex)
    | (n2, ex) => (n2 :: ns, ex)

/-- The training loop body of `Train` over the layers. -/
def trainLayers (x : List Nat) (z : Nat) : List layer → List layer × Exit
  | [] => ([], Exit.ret none)
  | ly :: ls =>
    match trainNeurons x z ly.neurons with
    | (ns1, Exit.ret none) =>
      match trainLayers x z ls with
      | (ls1, ex) => ({ neurons := ns1 } :: ls1, ex)
    | (ns1, ex) => ({ neurons := ns1 } :: ls, ex)

/-- The inner loop of `Perceptron.stable`: `false` at the first unit with `n.d > 0`. -/
def stableNeurons : List neuron → Bool
  | [] => true
  | n :: ns => if F32.gt n.d F32.zero then false else stableNeurons ns

/-- The outer loop of `Perceptron.stable`. -/
def stableLayers : List layer → Bool
  | [] => true
  | ly :: ls => if stableNeurons ly.neurons then stableLayers ls else false

/-- Go `Perceptron.stable`. -/
def Perceptron.stable (p : Perceptron) : Bool := stableLayers p.layers

/-- Go `int` arithmetic: the value of `v` wrapped into 64-bit two's complement. -/
def wrapInt (v : Int) : Int := (v + 2 ^ 63) % 2 ^ 64 - 2 ^ 63

/-- The variables of the training loop of `Train`. -/
structure LoopState where
  p : Perceptron
  i : Int
  howMuchStablesInARow : Int

/-- What one pass of the training loop does: go round again, or leave `Train`. -/
inductive Pass where
  | again (s : LoopState)
  | leave (p : Perceptron) (ex : Exit)

/-- Lines 97-117 of `Train`: one sample application. The bias is put in front
of the features and every unit of every layer is trained on the result. -/
def Perceptron.applySample (p : Perceptron) (sample : Sample) : Perceptron × Exit :=
  match trainLayers (p.bias :: sample.X) sample.Z p.layers with
  | (ls, ex) => ({ p with layers := ls }, ex)

/-- One pass of the `for` loop of `Train`: one sample application and the
stability bookkeeping. Go `%` truncates towards zero, and a negative index
panics. -/
def loopPass (trainingData : List Sample) (s : LoopState) : Pass :=
  let n : Int := trainingData.length
  let idx := Int.tmod s.i n
  if idx < 0 then Pass.leave s.p Exit.panic
  else
    match trainingData[idx.toNat]? with
    | none => Pass.leave s.p Exit.panic
    | some sample =>
      let i := wrapInt (s.i + 1)
      match s.p.applySample sample with
      | (p, Exit.ret none) =>
        if p.stable then
          if s.howMuchStablesInARow + 1 > n then Pass.leave p (Exit.ret none)
          else Pass.again { p := p, i := i, howMuchStablesInARow := s.howMuchStablesInARow + 1 }
        else Pass.again { p := p, i := i, howMuchStablesInARow := 0 }
      | (p, ex) => Pass.leave p ex

/-- The `for` loop of `Train`, run for at most `fuel` passes; `none` when the
loop is still running after them. -/
def trainLoop (trainingData : List Sample) : Nat → LoopState → Option (Perceptron × Exit)
  | 0, _ => none
  | fuel + 1, s =>
    match loopPass trainingData s with
    | Pass.leave p ex => some (p, ex)
    | Pass.again s1 => trainLoop trainingData fuel s1

/-- Go `Perceptron.Train`, with at most `fuel` passes of its loop: the network
after the call and the way the call ended, or `none` when the loop is still
running. -/
def Perceptron.Train (fuel : Nat) (p : Perceptron) (trainingData : List Sample)
    (ws : WeightInitStrategy) (rnd : RandSource) : Option (Perceptron × Exit) :=
  match trainingData with
  | [] => some (p, Exit.ret (some Error.errNoSamples))
  | first :: _ =>
    let m := first.X.length
    if m = 0 then some (p, Exit.ret (some Error.errNoIterationData))
    else
      match initLayers m ws p.verbose p.layers rnd with
      | (ls, _, Exit.ret none) =>
        trainLoop trainingData fuel
          { p := { p with layers := ls }, i := 0, howMuchStablesInARow := 0 }
      | (ls, _, ex) => some ({ p with layers := ls }, ex)

/-- The loops of `Process`: the first unit met receives the input and answers;
`none` when the loops end without meeting a unit. -/
def processLayers (input : List Nat) : List layer → Option (List layer × (Nat × Option Error))
  | [] => none
  | ly :: ls =>
    match ly.neurons with
    | [] =>
      match processLayers input ls with
      | none => none
      | some (ls1, out) => some (ly :: ls1, out)
    | n :: ns =>
      some ({ neurons := { n with x := input } :: ns } :: ls,
        neuron.process { n with x := input })

/-- Go `Perceptron.Process`: the network after the call and the pair returned. -/
def Perceptron.Process (p : Perceptron) (input : List Nat) :
    Perceptron × (Nat × Option Error) :=
  match processLayers input p.layers with
  | some (ls, out) => ({ p with layers := ls }, out)
  | none => (p, (0, some Error.errCouldNotProcess))

/-! ## `network_test.go` -/

/-- The threshold `0.5` of the test. -/
def thresshold : F32 := F32.ofRat 1 2

/-- The activation function of the test. -/
def testFn (output : F32) : Nat :=
  if F32.gt (F32.sub output thresshold) F32.zero then 1 else 0

/-- The NAND samples of the test. -/
def train_data : List Sample :=
  [{ X := [0, 0], Z := 1 }, { X := [0, 1], Z := 1 }, { X := [1, 0], Z := 1 },
   { X := [1, 1], Z := 0 }]

/-- The learning rate `0.1` of the test. -/
def learningRate : F32 := F32.ofRat 1 10

/-- The calls `p.Process(input)` of the test, one after the other on the same
network: the pairs they return. -/
def processAll (p : Perceptron) : List (List Nat) → List (Nat × Option Error)
  | [] => []
  | input :: rest => (p.Process input).2 :: processAll (p.Process input).1 rest

/-! ## Notions used to state the properties -/

/-- The weighted sum as the specification words it: the products
`float(input[i]) * weights[i]`, added from left to right to a sum that starts at zero. -/
def weightedSum (input : List Nat) (weights : List F32) : F32 :=
  (List.zip input weights).foldl (fun acc xw => F32.add acc (F32.mul (F32.ofUint xw.1) xw.2))
    F32.zero

/-- Two `float32` values are the same number: they are identical, or Go `==`
holds between them (the two zeros). -/
def F32.same (a b : F32) : Bool := decide (a = b) || !F32.ne a b

/-- A unit whose input vector is shorter than its weight vector. -/
def shortInputUnit : neuron :=
  { x := [1], b := 0, z := 1, w := [F32.ofUint 1, F32.ofUint 1], fn := testFn, r := learningRate,
    d := F32.zero, y := 0, verbose := false }


/-- A zero of either sign. -/
def F32.isZero : F32 → Bool
  | F32.fin _ k => decide (k = 0)
  | _ => false


/-- The last `k` entries of a list. -/
def lastN {α : Type} (k : Nat) (l : List α) : List α := l.drop (l.length - k)

/-- Every unit of the network holds a zero correction `d`. -/
def Perceptron.zeroCorrections (p : Perceptron) : Bool := p.units.all (fun u => u.d.isZero)

/-- The passes a run of the training loop makes within `fuel` passes: for each
pass the counter `i` it starts with and the network it ends with. -/
def trainPasses (trainingData : List Sample) : Nat → LoopState → List (Int × Perceptron)
  | 0, _ => []
  | fuel + 1, s =>
    match loopPass trainingData s with
    | Pass.leave p _ => [(s.i, p)]
    | Pass.again s1 => (s.i, s1.p) :: trainPasses trainingData fuel s1

/-- The variables of the training loop when `Train` enters it (line 91); `none`
when `Train` ends before. -/
def Perceptron.loopStart (p : Perceptron) (trainingData : List Sample)
    (ws : WeightInitStrategy) (rnd : RandSource) : Option LoopState :=
  match trainingData with
  | [] => none
  | first :: _ =>
    if first.X.length = 0 then none
    else
      match initLayers first.X.length ws p.verbose p.layers rnd with
      | (ls, _, Exit.ret none) =>
        some { p := { p with layers := ls }, i := 0, howMuchStablesInARow := 0 }
      | _ => none

/-- The networks a call of `Train` goes through within `fuel` passes of its
loop: the network at the end of each pass (after its sample application), in
order. -/
def Perceptron.TrainTrace (fuel : Nat) (p : Perceptron) (trainingData : List Sample)
    (ws : WeightInitStrategy) (rnd : RandSource) : List Perceptron :=
  match p.loopStart trainingData ws rnd with
  | none => []
  | some s => (trainPasses trainingData fuel s).map Prod.snd

/-- A unit without the fields every sample application overwrites: input,
expected output, last output and last correction. -/
def forgetN (n : neuron) : neuron := { n with x := [], z := 0, y := 0, d := F32.zero }

/-- A layer of units without the fields a sample application overwrites. -/
def forgetL (ly : layer) : layer := { neurons := ly.neurons.map forgetN }

/-- A network without the fields a sample application overwrites. -/
def forget (p : Perceptron) : Perceptron := { p with layers := p.layers.map forgetL }

/-- A run of consecutive passes of the training loop on `trainingData`: from the
network `p0` and the counter `c0`, every pass applies the sample its counter
selects without error, is judged stable and hands the next counter on, up to
the network `p1` and the counter `c1`. The entries are those of `trainPasses`. -/
def Chain (trainingData : List Sample) :
    Perceptron → Int → List (Int × Perceptron) → Perceptron → Int → Prop
  | p0, c0, [], p1, c1 => p0 = p1 ∧ c0 = c1
  | p0, c0, e :: rest, p1, c1 =>
    e.1 = c0 ∧
    (∃ smp, 0 ≤ Int.tmod c0 trainingData.length ∧
      trainingData[(Int.tmod c0 trainingData.length).toNat]? = some smp ∧
      p0.applySample smp = (e.2, Exit.ret none)) ∧
    e.2.stable = true ∧ Chain trainingData e.2 (wrapInt (c0 + 1)) rest p1 c1

/-- The counter after `t` increments of the training loop. -/
def wrapIter : Nat → Int → Int
  | 0, c => c
  | t + 1, c => wrapIter t (wrapInt (c + 1))


/-- The unit `Train` leaves behind in the NAND run of the test. -/
def nandTrainedUnit : neuron :=
  { x := [1, 1, 1], b := 0, z := 0,
    w := [F32.fin false (13421774 * 2 ^ 125), F32.fin true (13421774 * 2 ^ 123),
      F32.fin true (13421773 * 2 ^ 122)],
    fn := testFn, r := learningRate, d := F32.zero, y := 0, verbose := false }

/-- The network `Train` leaves behind in the NAND run of the test. -/
def nandTrained : Perceptron :=
  { layers := [{ neurons := [nandTrainedUnit] }], verbose := false, bias := 1 }

/-- A one-sample training set: input `[1]`, expected output `1`. -/
def oneSample : List Sample := [{ X := [1], Z := 1 }]


/-- The variables of the training loop after `k` passes that all went round
again; `none` when the loop left `Train` within these passes. -/
def loopAfter (trainingData : List Sample) : Nat → LoopState → Option LoopState
  | 0, s => some s
  | k + 1, s =>
    match loopPass trainingData s with
    | Pass.again s1 => loopAfter trainingData k s1
    | Pass.leave _ _ => none

/-- The network a pass of the training loop ends with. -/
def Pass.net : Pass → Perceptron
  | Pass.again s => s.p
  | Pass.leave p _ => p

/-- The number of networks at the end of the list that `stable` accepts, one
after the other: the run of stable passes the list ends with. -/
def trailingStable (l : List Perceptron) : Nat :=
  (l.reverse.takeWhile (fun q => q.stable)).length


/-- What the allocation loop of `Train` with `ZeroWeightInit` makes of a unit,
for a first sample of `m` features. -/
def zeroInitN (m : Nat) (v : Bool) (n : neuron) : neuron :=
  { n with x := List.replicate (m + 1) 0, w := List.replicate (m + 1) F32.zero, verbose := v }

/-- What the allocation loop of `Train` with `ZeroWeightInit` makes of a layer. -/
def zeroInitL (m : Nat) (v : Bool) (ly : layer) : layer :=
  { neurons := ly.neurons.map (zeroInitN m v) }


/-- The loop variables with which `Train` with `ZeroWeightInit` enters its
loop, for a first sample of `m` features. -/
def zeroStart (p : Perceptron) (m : Nat) : LoopState :=
  { p := { p with layers := p.layers.map (zeroInitL m p.verbose) }, i := 0,
    howMuchStablesInARow := 0 }


/-- Every unit of the list has the weight vector `w`, the activation function
`f` and the learning rate `r`. -/
def Uniform (w : List F32) (f : ActivationFunc) (r : F32) (l : List neuron) : Prop :=
  ∀ u ∈ l, u.w = w ∧ u.fn = f ∧ u.r = r

/-- A unit with the weight vector `w`, the activation function `f` and the
learning rate `r`, and nothing else. -/
def probe (w : List F32) (f : ActivationFunc) (r : F32) : neuron :=
  { x := [], b := 0, z := 0, w := w, fn := f, r := r, d := F32.zero, y := 0, verbose := false }

/-- Two networks in step: they have the same bias, both have units or both
have none, and all the units of both have one weight vector, the activation
function `f` and the learning rate `r`. -/
def InStep (f : ActivationFunc) (r : F32) (p q : Perceptron) : Prop :=
  p.bias = q.bias ∧ (p.units = [] ↔ q.units = []) ∧
  ∃ w, Uniform w f r p.units ∧ Uniform w f r q.units

/-- All the units of the two networks hold one last output and one last
correction. -/
def SameOut (p q : Perceptron) : Prop :=
  ∃ y d, (∀ u ∈ p.units, u.y = y ∧ u.d = d) ∧ (∀ u ∈ q.units, u.y = y ∧ u.d = d)



/-- The XOR truth table as a sample list. -/
def xor_data : List Sample :=
  [{ X := [0, 0], Z := 0 }, { X := [0, 1], Z := 1 }, { X := [1, 0], Z := 1 },
   { X := [1, 1], Z := 0 }]

/-- A unit with the activation function and the learning rate of the test. -/
def testUnit (x : List Nat) (z y : Nat) (d : F32) (w : List F32) : neuron :=
  { x := x, b := 0, z := z, w := w, fn := testFn, r := learningRate, d := d, y := y,
    verbose := false }

/-- A network of one layer and one unit with the configuration of the test. -/
def testNet (x : List Nat) (z y : Nat) (d : F32) (w : List F32) : Perceptron :=
  { layers := [{ neurons := [testUnit x z y d w] }], verbose := false, bias := 1 }

/-- The `float32` nearest to `0.1`, in units of `2^-149`. -/
def tenthUnits : Nat := 13421773 * 2 ^ 122

/-- The four networks, each with the streak of stable passes it is reached
with, that the XOR run goes through again and again from its 30th pass on. -/
def xorCycle : Nat → Perceptron × Int
  | 0 => (testNet [1, 0, 1] 1 0 (F32.fin false tenthUnits)
      [F32.fin false (10066330 * 2 ^ 125), F32.fin true tenthUnits, F32.fin false tenthUnits], 0)
  | 1 => (testNet [1, 1, 0] 1 0 (F32.fin false tenthUnits)
      [F32.fin false (11744052 * 2 ^ 125), F32.fin false 0, F32.fin false tenthUnits], 0)
  | 2 => (testNet [1, 1, 1] 0 1 (F32.fin true tenthUnits)
      [F32.fin false (10066330 * 2 ^ 125), F32.fin true tenthUnits, F32.fin false 0], 1)
  | _ => (testNet [1, 0, 0] 0 1 (F32.fin true tenthUnits)
      [F32.fin false (2 ^ 148), F32.fin true tenthUnits, F32.fin false 0], 2)

/-- An activation function that never fires. -/
def neverFires : ActivationFunc := fun _ => 0



/-! ## Termination bookkeeping -/

theorem trainLoop_mono (trainingData : List Sample) (fuel k : Nat) (s : LoopState)
    (r : Perceptron × Exit) (h : trainLoop trainingData fuel s = some r) :
    trainLoop trainingData (fuel + k) s = some r := by
  induction fuel generalizing s with
  | zero => simp [trainLoop] at h
  | succ f ih =>
    rw [Nat.add_right_comm]
    unfold trainLoop at h ⊢
    cases hp : loopPass trainingData s with
    | leave p ex => rw [hp] at h; exact h
    | again s1 => rw [hp] at h; exact ih s1 h

theorem Train_mono (fuel k : Nat) (p : Perceptron) (trainingData : List Sample)
    (ws : WeightInitStrategy) (rnd : RandSource) (r : Perceptron × Exit)
    (h : p.Train fuel trainingData ws rnd = some r) :
    p.Train (fuel + k) trainingData ws rnd = some r := by
  unfold Perceptron.Train at h ⊢
  cases trainingData with
  | nil => exact h
  | cons first rest =>
    simp only at h ⊢
    split at h
    · rename_i hm; rw [if_pos hm]; exact h
    · rename_i hm
      rw [if_neg hm]
      split at h
      · exact trainLoop_mono _ _ _ _ _ h
      · exact h

/-! ## C1: the NAND run of the test -/

set_option maxRecDepth 1000000 in
/-- The NAND run of the test, evaluated: 36 passes of the loop and the network
they leave. -/
theorem nand_trained (rnd : RandSource) :
    (New 1 1 testFn learningRate 1).Train 36 train_data ZeroWeightInit rnd
      = some (nandTrained, Exit.ret none) := by
  rfl

set_option maxRecDepth 100000 in
/-- C1: the network `New(1, 1, fn, 0.1, 1)` of the test, trained on the four
NAND samples with `ZeroWeightInit`, leaves `Train` after 36 sample applications
with a `nil` error (for every amount of fuel from 36 on); the four `Process`
calls of the test then return `1, 1, 1, 0`, each with a `nil` error. -/
theorem nand_convergence (rnd : RandSource) (k : Nat) :
    ∃ p1 : Perceptron,
      (New 1 1 testFn learningRate 1).Train (36 + k) train_data ZeroWeightInit rnd
        = some (p1, Exit.ret none) ∧
      processAll p1 [[1, 0, 0], [1, 0, 1], [1, 1, 0], [1, 1, 1]]
        = [(1, none), (1, none), (1, none), (0, none)] :=
  ⟨nandTrained, Train_mono _ _ _ _ _ _ _ (nand_trained rnd), rfl⟩

/-! ## C3, C4: the two guards of `Train` -/

/-- C3: `Train` on an empty sample list returns `errNoSamples`, whatever the
network, the strategy and the fuel, and the network after the call is the
network before it: no field of any unit has changed. -/
theorem train_empty_samples (fuel : Nat) (p : Perceptron) (ws : WeightInitStrategy)
    (rnd : RandSource) :
    p.Train fuel [] ws rnd = some (p, Exit.ret (some Error.errNoSamples)) := by
  rfl

/-- C4: `Train` on a sample list whose first sample has no feature returns
`errNoIterationData`, whatever the rest of the list, the network, the strategy
and the fuel, and the network after the call is the network before it. -/
theorem train_empty_features (fuel : Nat) (p : Perceptron) (z : Nat) (rest : List Sample)
    (ws : WeightInitStrategy) (rnd : RandSource) :
    p.Train fuel ({ X := [], Z := z } :: rest) ws rnd
      = some (p, Exit.ret (some Error.errNoIterationData)) := by
  rfl

/-! ## The forward pass -/

theorem sensor_inside (n : neuron) (i : Nat) (hx : i < n.x.length) (hw : i < n.w.length) :
    n.sensor i = (F32.mul (F32.ofUint n.x[i]) n.w[i], none) := by
  unfold neuron.sensor
  rw [if_neg (by omega), if_neg (by omega), List.getD_eq_getElem _ _ hx,
    List.getD_eq_getElem _ _ hw]

theorem sensor_outside (n : neuron) (i : Nat) (hw : n.w.length ≤ i) :
    n.sensor i = (F32.zero, some Error.errOutOfBounds) := by
  unfold neuron.sensor
  by_cases hx : n.x.length ≤ i
  · rw [if_pos hx]
  · rw [if_neg hx, if_pos hw]

theorem processFrom_inside (n : neuron) (todo i : Nat) (output : F32)
    (hx : i + todo = n.x.length) (hw : n.x.length ≤ n.w.length) :
    n.processFrom todo i output
      = (n.fn ((List.zip (n.x.drop i) (n.w.drop i)).foldl
          (fun acc xw => F32.add acc (F32.mul (F32.ofUint xw.1) xw.2)) output), none) := by
  induction todo generalizing i output with
  | zero =>
    have h0 : n.x.drop i = [] := List.drop_eq_nil_of_le (by omega)
    simp [neuron.processFrom, h0]
  | succ t ih =>
    have hxi : i < n.x.length := by omega
    have hwi : i < n.w.length := by omega
    unfold neuron.processFrom
    rw [sensor_inside n i hxi hwi]
    simp only
    rw [ih (i + 1) _ (by omega), List.drop_eq_getElem_cons hxi, List.drop_eq_getElem_cons hwi,
      List.zip_cons_cons, List.foldl_cons]

theorem processFrom_outside (n : neuron) (todo i : Nat) (output : F32)
    (hi : i ≤ n.w.length) (hw : n.w.length < i + todo) (hx : i + todo = n.x.length) :
    n.processFrom todo i output = (0, some Error.errOutOfBounds) := by
  induction todo generalizing i output with
  | zero => omega
  | succ t ih =>
    unfold neuron.processFrom
    by_cases hwi : i < n.w.length
    · rw [sensor_inside n i (by omega) hwi]
      simp only
      exact ih (i + 1) _ (by omega) (by omega) (by omega)
    · rw [sensor_outside n i (by omega)]

theorem process_short_or_equal (n : neuron) (hw : n.x.length ≤ n.w.length) :
    n.process = (n.fn (weightedSum n.x n.w), none) := by
  unfold neuron.process weightedSum
  rw [processFrom_inside n n.x.length 0 F32.zero (by omega) hw]
  simp

theorem process_long (n : neuron) (hw : n.w.length < n.x.length) :
    n.process = (0, some Error.errOutOfBounds) := by
  unfold neuron.process
  exact processFrom_outside n n.x.length 0 F32.zero (by omega) (by omega) (by omega)

theorem process_error_cases (n : neuron) :
    n.process.2 = none ∨ n.process = (0, some Error.errOutOfBounds) := by
  by_cases hw : n.x.length ≤ n.w.length
  · left; rw [process_short_or_equal n hw]
  · right; exact process_long n (by omega)

theorem processLayers_none (input : List Nat) (ls : List layer)
    (h : (ls.map layer.neurons).flatten = []) : processLayers input ls = none := by
  induction ls with
  | nil => rfl
  | cons ly rest ih =>
    simp only [List.map_cons, List.flatten_cons, List.append_eq_nil] at h
    unfold processLayers
    rw [h.1]
    simp only
    rw [ih h.2]

theorem processLayers_first (input : List Nat) (ls : List layer) (u : neuron)
    (others : List neuron) (h : (ls.map layer.neurons).flatten = u :: others) :
    ∃ ls1, processLayers input ls = some (ls1, neuron.process { u with x := input }) ∧
      (ls1.map layer.neurons).flatten = { u with x := input } :: others := by
  induction ls with
  | nil => simp at h
  | cons ly rest ih =>
    simp only [List.map_cons, List.flatten_cons] at h
    unfold processLayers
    cases hn : ly.neurons with
    | nil =>
      rw [hn, List.nil_append] at h
      obtain ⟨ls1, h1, h2⟩ := ih h
      refine ⟨ly :: ls1, ?_, ?_⟩
      · simp only [h1]
      · simp only [List.map_cons, List.flatten_cons, hn, List.nil_append, h2]
    | cons n ns =>
      rw [hn, List.cons_append] at h
      injection h with h1 h2
      subst h1
      exact ⟨_, rfl, by simp only [List.map_cons, List.flatten_cons, List.cons_append, h2]⟩

/-- C5: when the network has a unit and the input is as long as the weight
vector of its first unit (in layer-then-unit order, i.e. the first unit of the
first layer that has one), `Process` returns, with a `nil` error, the
activation of the weighted sum of the raw input and the weights of that unit.
The other units do not occur in the result. -/
theorem process_first_unit (p : Perceptron) (u : neuron) (others : List neuron)
    (input : List Nat) (hu : p.units = u :: others) (hlen : input.length = u.w.length) :
    (p.Process input).2 = (u.fn (weightedSum input u.w), none) := by
  obtain ⟨ls1, h1, _⟩ := processLayers_first input p.layers u others hu
  unfold Perceptron.Process
  rw [h1]
  simp only
  rw [process_short_or_equal _ (by simp only; omega)]

set_option maxRecDepth 100000 in
/-- Witness of C5: a one-unit network with weights `[1, 1]` and the input `[1, 1]`. -/
theorem process_first_unit_witness :
    (Perceptron.Process { layers := [{ neurons := [shortInputUnit] }], verbose := false, bias := 1 }
      [1, 1]).2 = (shortInputUnit.fn (weightedSum [1, 1] shortInputUnit.w), none) :=
  process_first_unit _ shortInputUnit [] [1, 1] rfl rfl

/-- C6: `Process` returns the error "Could not process" exactly when the
network has no unit, and the output is then `0`; for a network built by `New`
that is exactly when the layer count or the unit count per layer is zero. -/
theorem process_no_unit (p : Perceptron) (input : List Nat) :
    ((p.Process input).2.2 = some Error.errCouldNotProcess ↔ p.units = []) ∧
    (p.units = [] → (p.Process input).2 = (0, some Error.errCouldNotProcess)) ∧
    (∀ (nLayers neuronsPerLayer : Nat) (fn : ActivationFunc) (r : F32) (bias : Nat),
      (New nLayers neuronsPerLayer fn r bias).units = [] ↔ nLayers = 0 ∨ neuronsPerLayer = 0) := by
  have hempty : p.units = [] → (p.Process input).2 = (0, some Error.errCouldNotProcess) := by
    intro h
    unfold Perceptron.Process
    rw [processLayers_none input p.layers h]
  refine ⟨⟨?_, fun h => by rw [hempty h]⟩, hempty, ?_⟩
  · intro h
    cases hu : p.units with
    | nil => rfl
    | cons u others =>
      obtain ⟨ls1, h1, _⟩ := processLayers_first input p.layers u others hu
      unfold Perceptron.Process at h
      rw [h1] at h
      simp only at h
      rcases process_error_cases { u with x := input } with h2 | h2
      · rw [h2] at h; cases h
      · rw [h2] at h; cases h
  · intro nLayers neuronsPerLayer fn r bias
    unfold New Perceptron.units
    simp only [List.map_replicate]
    cases nLayers with
    | zero => simp
    | succ k =>
      cases neuronsPerLayer with
      | zero => simp
      | succ m => simp [List.replicate_succ]

/-! ## C7: the sign of the error -/

theorem toInt_uintSub (z y : Nat) (hz : z < 2 ^ 63) (hy : y < 2 ^ 63) :
    toInt (uintSub z y) = (z : Int) - (y : Int) := by
  unfold toInt uintSub
  split <;> omega

/-- C7: for expected and produced outputs below `2^63`, `error()` is the signed
difference `z - y`. -/
theorem error_signed (n : neuron) (hz : n.z < 2 ^ 63) (hy : n.y < 2 ^ 63) :
    n.error = (n.z : Int) - (n.y : Int) :=
  toInt_uintSub n.z n.y hz hy

/-- Witness of C7: expected output 0 and produced output 1 give `-1`. -/
theorem error_signed_witness :
    neuron.error { shortInputUnit with z := 0, y := 1 } = -1 :=
  error_signed { shortInputUnit with z := 0, y := 1 } (by decide) (by decide)


/-! ## The weight update -/

theorem same_refl (a : F32) : F32.same a a = true := by
  simp [F32.same]

theorem newWeight_inside (n : neuron) (i : Nat) (hx : i < n.x.length) (hw : i < n.w.length) :
    n.newWeight i
      = some (F32.add (n.w.getD i F32.zero) (F32.mul n.d (F32.ofUint (n.x.getD i 0))), none) := by
  unfold neuron.newWeight
  rw [if_neg (by omega), List.getElem?_eq_getElem hw, List.getD_eq_getElem _ _ hw]

/-- What the loop of `updateWeights` does from index `i` on when the indices
left all lie inside the weight vector: it ends normally, touches nothing but
the weights at the indices left, and puts there the delta-rule value. -/
theorem updateFrom_inside (todo i : Nat) (n : neuron) (hx : i + todo = n.x.length)
    (hw : n.x.length ≤ n.w.length) :
    ∃ n1, neuron.updateFrom todo i n = (n1, Exit.ret none) ∧
      n1.x = n.x ∧ n1.b = n.b ∧ n1.z = n.z ∧ n1.fn = n.fn ∧ n1.r = n.r ∧ n1.d = n.d ∧
      n1.y = n.y ∧ n1.verbose = n.verbose ∧ n1.w.length = n.w.length ∧
      (∀ j, (j < i ∨ i + todo ≤ j) → n1.w.getD j F32.zero = n.w.getD j F32.zero) ∧
      (∀ j, i ≤ j → j < i + todo →
        F32.same (n1.w.getD j F32.zero)
          (F32.add (n.w.getD j F32.zero) (F32.mul n.d (F32.ofUint (n.x.getD j 0)))) = true) := by
  induction todo generalizing i n with
  | zero =>
    refine ⟨n, rfl, rfl, rfl, rfl, rfl, rfl, rfl, rfl, rfl, rfl, fun _ _ => rfl, ?_⟩
    intro j h1 h2
    omega
  | succ t ih =>
    have hxi : i < n.x.length := by omega
    have hwi : i < n.w.length := by omega
    unfold neuron.updateFrom
    rw [newWeight_inside n i hxi hwi]
    simp only
    generalize hwv : F32.add (n.w.getD i F32.zero) (F32.mul n.d (F32.ofUint (n.x.getD i 0))) = wv
    generalize hm : (if F32.ne (n.w.getD i F32.zero) wv = true then { n with w := n.w.set i wv }
      else n) = m
    have mx : m.x = n.x := by subst hm; split <;> rfl
    have mb : m.b = n.b := by subst hm; split <;> rfl
    have mz : m.z = n.z := by subst hm; split <;> rfl
    have mfn : m.fn = n.fn := by subst hm; split <;> rfl
    have mr : m.r = n.r := by subst hm; split <;> rfl
    have md : m.d = n.d := by subst hm; split <;> rfl
    have my : m.y = n.y := by subst hm; split <;> rfl
    have mv : m.verbose = n.verbose := by subst hm; split <;> rfl
    have mlen : m.w.length = n.w.length := by
      subst hm; split
      · simp only [List.length_set]
      · rfl
    have mother : ∀ j, j ≠ i → m.w.getD j F32.zero = n.w.getD j F32.zero := by
      intro j hj
      subst hm; split
      · simp only [List.getD_eq_getElem?_getD, List.getElem?_set_ne (Ne.symm hj)]
      · rfl
    have mself : F32.same (m.w.getD i F32.zero) wv = true := by
      subst hm; split
      · simp only [List.getD_eq_getElem?_getD, List.getElem?_set_self hwi, Option.getD_some]
        exact same_refl _
      · rename_i hne
        simp only [F32.same, Bool.or_eq_true, Bool.not_eq_true', decide_eq_true_eq]
        right
        simpa using hne
    obtain ⟨n1, h1, hx1, hb1, hz1, hfn1, hr1, hd1, hy1, hv1, hlen1, hout, hin⟩ :=
      ih (i + 1) m (by rw [mx]; omega) (by rw [mx, mlen]; exact hw)
    refine ⟨n1, h1, hx1.trans mx, hb1.trans mb, hz1.trans mz, hfn1.trans mfn, hr1.trans mr,
      hd1.trans md, hy1.trans my, hv1.trans mv, hlen1.trans mlen, ?_, ?_⟩
    · intro j hj
      rw [hout j (by omega), mother j (by omega)]
    · intro j hj1 hj2
      by_cases hji : j = i
      · subst hji
        rw [hout j (by omega), hwv]
        exact mself
      · have := hin j (by omega) (by omega)
        rw [mother j hji, md, mx] at this
        exact this

theorem updateFrom_not_error (todo i : Nat) (n : neuron) (hx : i + todo = n.x.length)
    (e : Error) : (neuron.updateFrom todo i n).2 ≠ Exit.ret (some e) := by
  induction todo generalizing i n with
  | zero => simp [neuron.updateFrom]
  | succ t ih =>
    unfold neuron.updateFrom
    unfold neuron.newWeight
    rw [if_neg (by omega)]
    cases hwi : n.w[i]? with
    | none => simp
    | some wi =>
      simp only
      apply ih
      split
      · simp only; omega
      · omega

/-- C8: for a unit whose input and weight vectors have the same length,
`updateWeights` ends with a `nil` error, sets `d` to `r * float32(error())`
(that is `r * float32(z - y)` for outputs below `2^63`), gives every weight the
value `w[i] + d * float32(x[i])` computed from the old weight (as a number: a
weight that already equals the new value is not written), and leaves the
inputs, the expected and last output, the learning rate, the activation
function, the bias field and the verbose flag as they were. -/
theorem updateWeights_delta_rule (n : neuron) (hlen : n.x.length = n.w.length) :
    n.updateWeights.2 = Exit.ret none ∧
    n.updateWeights.1.d = F32.mul n.r (F32.ofInt n.error) ∧
    (n.z < 2 ^ 63 → n.y < 2 ^ 63 →
      n.updateWeights.1.d = F32.mul n.r (F32.ofInt ((n.z : Int) - (n.y : Int)))) ∧
    n.updateWeights.1.w.length = n.w.length ∧
    (∀ i, i < n.w.length →
      F32.same (n.updateWeights.1.w.getD i F32.zero)
        (F32.add (n.w.getD i F32.zero)
          (F32.mul n.updateWeights.1.d (F32.ofUint (n.x.getD i 0)))) = true) ∧
    n.updateWeights.1.x = n.x ∧ n.updateWeights.1.z = n.z ∧ n.updateWeights.1.y = n.y ∧
    n.updateWeights.1.r = n.r ∧ n.updateWeights.1.fn = n.fn ∧ n.updateWeights.1.b = n.b ∧
    n.updateWeights.1.verbose = n.verbose := by
  obtain ⟨n1, h1, hx1, hb1, hz1, hfn1, hr1, hd1, hy1, hv1, hlen1, _, hin⟩ :=
    updateFrom_inside n.x.length 0 { n with d := n.correction } (by simp)
      (by show n.x.length ≤ n.w.length; omega)
  have hu : n.updateWeights = (n1, Exit.ret none) := h1
  rw [hu]
  have hd : n1.d = F32.mul n.r (F32.ofInt n.error) := hd1
  refine ⟨rfl, hd, ?_, hlen1, ?_, hx1, hz1, hy1, hr1, hfn1, hb1, hv1⟩
  · intro hz hy
    rw [hd]
    unfold neuron.error
    rw [toInt_uintSub n.z n.y hz hy]
  · intro i hi
    have := hin i (by omega) (by show i < 0 + n.x.length; omega)
    rw [hd1]
    exact this

/-- Witness of C8: a unit with one input and one weight. -/
theorem updateWeights_delta_rule_witness :
    (neuron.updateWeights { shortInputUnit with w := [F32.zero] }).2 = Exit.ret none :=
  (updateWeights_delta_rule { shortInputUnit with w := [F32.zero] } rfl).1

/-! ## C9, C10: vectors of different lengths -/

/-- Counterexample to C9: the input vector `[1]` is shorter than the weight
vector `[1, 1]`, and `process` returns the output `1` with a `nil` error: the
activation of the product of the first entries alone. -/
theorem process_short_input_no_error :
    shortInputUnit.x.length < shortInputUnit.w.length ∧
    shortInputUnit.process = (1, none) := by
  constructor
  · decide
  · set_option maxRecDepth 100000 in rfl

/-- C9 as amended: `process` fails with `errOutOfBounds` (and output 0) when
the input vector is longer than the weight vector; when the input vector is
shorter, or as long, it returns with a `nil` error the activation of the
weighted sum over the indices of the input (the weights beyond them are not
read). -/
theorem process_length_mismatch (n : neuron) :
    (n.w.length < n.x.length → n.process = (0, some Error.errOutOfBounds)) ∧
    (n.x.length ≤ n.w.length → n.process = (n.fn (weightedSum n.x n.w), none)) :=
  ⟨process_long n, process_short_or_equal n⟩

/-- Counterexample to C10: the input vector `[1]` is shorter than the weight
vector `[1, 1]`, and `updateWeights` ends with a `nil` error. -/
theorem updateWeights_short_input_no_error :
    shortInputUnit.x.length < shortInputUnit.w.length ∧
    shortInputUnit.updateWeights.2 = Exit.ret none := by
  constructor
  · decide
  · set_option maxRecDepth 100000 in rfl

/-- C10 as amended: `updateWeights` never returns an error value; for a unit
whose input vector is shorter than its weight vector it ends with a `nil`
error, gives the weights at the indices of the input their delta-rule value
and leaves the weights beyond them as they were. -/
theorem updateWeights_short_input (n : neuron) :
    (∀ e, n.updateWeights.2 ≠ Exit.ret (some e)) ∧
    (n.x.length < n.w.length →
      n.updateWeights.2 = Exit.ret none ∧
      n.updateWeights.1.w.length = n.w.length ∧
      (∀ i, i < n.x.length →
        F32.same (n.updateWeights.1.w.getD i F32.zero)
          (F32.add (n.w.getD i F32.zero)
            (F32.mul (F32.mul n.r (F32.ofInt n.error)) (F32.ofUint (n.x.getD i 0)))) = true) ∧
      (∀ i, n.x.length ≤ i → n.updateWeights.1.w.getD i F32.zero = n.w.getD i F32.zero)) := by
  constructor
  · intro e
    exact updateFrom_not_error n.x.length 0 { n with d := n.correction } (by simp) e
  · intro hlt
    obtain ⟨n1, h1, _, _, _, _, _, _, _, _, hlen1, hout, hin⟩ :=
      updateFrom_inside n.x.length 0 { n with d := n.correction } (by simp)
        (by show n.x.length ≤ n.w.length; omega)
    have hu : n.updateWeights = (n1, Exit.ret none) := h1
    rw [hu]
    refine ⟨rfl, hlen1, ?_, ?_⟩
    · intro i hi
      exact hin i (by omega) (by omega)
    · intro i hi
      exact hout i (Or.inr (by show 0 + n.x.length ≤ i; omega))


/-! ## Facts of the binary32 model -/

theorem bitLenAux_zero (fuel : Nat) : F32.bitLenAux fuel 0 = 0 := by
  cases fuel <;> simp [F32.bitLenAux]

theorem bitLenAux_lower (fuel n : Nat) (hf : n ≤ fuel) (hn : 1 ≤ n) :
    1 ≤ F32.bitLenAux fuel n ∧ 2 ^ (F32.bitLenAux fuel n - 1) ≤ n := by
  induction fuel generalizing n with
  | zero => omega
  | succ f ih =>
    unfold F32.bitLenAux
    rw [if_neg (by omega)]
    by_cases h2 : n / 2 = 0
    · rw [h2, bitLenAux_zero]
      exact ⟨by omega, by simpa using hn⟩
    · obtain ⟨h1, hle⟩ := ih (n / 2) (by omega) (by omega)
      refine ⟨by omega, ?_⟩
      have he : F32.bitLenAux f (n / 2) + 1 - 1 = (F32.bitLenAux f (n / 2) - 1) + 1 := by omega
      rw [he, pow_succ]
      omega

theorem bitLenAux_upper (fuel n : Nat) (hf : n ≤ fuel) : n < 2 ^ F32.bitLenAux fuel n := by
  induction fuel generalizing n with
  | zero =>
    have : n = 0 := by omega
    subst this
    simp [F32.bitLenAux]
  | succ f ih =>
    unfold F32.bitLenAux
    by_cases hn : n = 0
    · rw [if_pos hn, hn]
      simp
    · rw [if_neg hn, pow_succ]
      have := ih (n / 2) (by omega)
      omega

theorem bitLen_upper (n : Nat) : n < 2 ^ F32.bitLen n :=
  bitLenAux_upper n n (le_refl n)

theorem bitLen_lower (n : Nat) (hn : 1 ≤ n) :
    1 ≤ F32.bitLen n ∧ 2 ^ (F32.bitLen n - 1) ≤ n :=
  bitLenAux_lower n n (le_refl n) hn

theorem roundUnits_zero (D : Nat) : F32.roundUnits 0 D = 0 := by
  unfold F32.roundUnits
  simp [F32.bitLen, bitLenAux_zero]

theorem mul_fin_fin (s t : Bool) (k l : Nat) :
    F32.mul (F32.fin s k) (F32.fin t l) = F32.ofUnits (xor s t) (k * l) (2 ^ 149) := rfl

theorem mul_fin_inf (s t : Bool) (k : Nat) :
    F32.mul (F32.fin s k) (F32.inf t) = if k = 0 then F32.nan else F32.inf (xor s t) := rfl

theorem mul_inf_fin (s t : Bool) (l : Nat) :
    F32.mul (F32.inf s) (F32.fin t l) = if l = 0 then F32.nan else F32.inf (xor s t) := rfl

theorem roundUnits_lower (N D : Nat) (h : 1 ≤ N / D) :
    2 ^ (F32.bitLen (N / D) - 1) ≤ F32.roundUnits N D := by
  obtain ⟨h1, hle⟩ := bitLen_lower (N / D) h
  unfold F32.roundUnits
  simp only
  generalize hL : F32.bitLen (N / D) = L at h1 hle ⊢
  have hsplit : 2 ^ (L - 1) = 2 ^ (L - 1 - (L - 24)) * 2 ^ (L - 24) := by
    rw [← pow_add]
    congr 1
    omega
  have hpos : 0 < 2 ^ (L - 24) := Nat.two_pow_pos _
  have hdiv : 2 ^ (L - 1 - (L - 24)) ≤ N / (D * 2 ^ (L - 24)) := by
    rw [← Nat.div_div_eq_div_mul, Nat.le_div_iff_mul_le hpos, ← hsplit]
    exact hle
  calc 2 ^ (L - 1) = 2 ^ (L - 1 - (L - 24)) * 2 ^ (L - 24) := hsplit
    _ ≤ N / (D * 2 ^ (L - 24)) * 2 ^ (L - 24) := Nat.mul_le_mul_right _ hdiv
    _ ≤ _ := Nat.mul_le_mul_right _ (Nat.le_add_right _ _)

theorem roundUnits_upper (N : Nat) : F32.roundUnits N 1 ≤ 2 * N := by
  by_cases hN : N = 0
  · subst hN
    rw [roundUnits_zero 1]
  · obtain ⟨h1, hle⟩ := bitLen_lower N (by omega)
    unfold F32.roundUnits
    simp only [Nat.div_one, Nat.one_mul]
    generalize hL : F32.bitLen N = L at h1 hle ⊢
    have hj : 2 ^ (L - 24) ≤ 2 ^ (L - 1) := Nat.pow_le_pow_right (by decide) (by omega)
    have hmul : N / 2 ^ (L - 24) * 2 ^ (L - 24) ≤ N := Nat.div_mul_le_self N _
    have hup : (if 2 * (N % 2 ^ (L - 24)) > 2 ^ (L - 24) ∨
        2 * (N % 2 ^ (L - 24)) = 2 ^ (L - 24) ∧ N / 2 ^ (L - 24) % 2 = 1 then 1 else 0) ≤ 1 := by
      split <;> omega
    calc (N / 2 ^ (L - 24) + _) * 2 ^ (L - 24)
        ≤ (N / 2 ^ (L - 24) + 1) * 2 ^ (L - 24) :=
          Nat.mul_le_mul_right _ (Nat.add_le_add_left hup _)
      _ = N / 2 ^ (L - 24) * 2 ^ (L - 24) + 2 ^ (L - 24) := by rw [Nat.add_mul, Nat.one_mul]
      _ ≤ 2 * N := by omega

theorem ofUint_fin (x : Nat) : ∃ k, F32.ofUint x = F32.fin false k := by
  unfold F32.ofUint F32.ofUnits
  simp only
  have hx : x % 2 ^ 64 < 2 ^ 64 := Nat.mod_lt _ (by decide)
  have hup := roundUnits_upper (x % 2 ^ 64 * 2 ^ 149)
  have hlt : F32.roundUnits (x % 2 ^ 64 * 2 ^ 149) 1 < F32.overflowUnits := by
    unfold F32.overflowUnits
    omega
  rw [if_neg (by omega)]
  exact ⟨_, rfl⟩

theorem isZero_iff (a : F32) : a.isZero = true ↔ ∃ s, a = F32.fin s 0 := by
  cases a with
  | fin s k =>
    cases k with
    | zero => simp [F32.isZero]
    | succ k => simp [F32.isZero]
  | inf s => simp [F32.isZero]
  | nan => simp [F32.isZero]

theorem mul_zero_ofUint (d : F32) (x : Nat) (hd : d.isZero = true) :
    (F32.mul d (F32.ofUint x)).isZero = true := by
  obtain ⟨s, rfl⟩ := (isZero_iff d).1 hd
  obtain ⟨k, hk⟩ := ofUint_fin x
  rw [hk]
  rw [mul_fin_fin]
  unfold F32.ofUnits
  simp only [Nat.zero_mul]
  rw [roundUnits_zero _]
  simp [F32.overflowUnits, F32.isZero]

theorem add_zero_keeps (w e : F32) (he : e.isZero = true) :
    (if F32.ne w (F32.add w e) = true then F32.add w e else w) = w := by
  obtain ⟨s, rfl⟩ := (isZero_iff e).1 he
  cases w with
  | nan => simp [F32.add]
  | inf t => simp [F32.add]
  | fin t l =>
    by_cases hl : l = 0
    · subst hl
      simp [F32.add, F32.ne, F32.toUnits]
    · simp [F32.add, hl]

theorem ofInt_cases (e : Int) (he : e ≠ 0) :
    (∃ s, F32.ofInt e = F32.inf s) ∨ ∃ s l, F32.ofInt e = F32.fin s l ∧ 2 ^ 149 ≤ l := by
  unfold F32.ofInt F32.ofUnits
  simp only
  split
  · exact Or.inl ⟨_, rfl⟩
  · refine Or.inr ⟨_, _, rfl, ?_⟩
    have hn : 1 ≤ e.natAbs := by omega
    have h1 : 1 ≤ e.natAbs * 2 ^ 149 / 1 := by
      rw [Nat.div_one]
      exact Nat.mul_pos hn (Nat.two_pow_pos _)
    have hlow := roundUnits_lower (e.natAbs * 2 ^ 149) 1 h1
    obtain ⟨_, hle⟩ := bitLen_lower (e.natAbs * 2 ^ 149 / 1) h1
    rw [Nat.div_one] at hlow hle
    have hup := bitLen_upper (e.natAbs * 2 ^ 149)
    have hge : 2 ^ 149 ≤ e.natAbs * 2 ^ 149 := Nat.le_mul_of_pos_left _ hn
    have h3 : 2 ^ 149 < 2 ^ F32.bitLen (e.natAbs * 2 ^ 149) := lt_of_le_of_lt hge hup
    have h4 : 149 < F32.bitLen (e.natAbs * 2 ^ 149) :=
      (Nat.pow_lt_pow_iff_right (by decide)).1 h3
    have h5 : 2 ^ 149 ≤ 2 ^ (F32.bitLen (e.natAbs * 2 ^ 149) - 1) :=
      Nat.pow_le_pow_right (by decide) (by omega)
    exact le_trans h5 hlow

theorem mul_ofInt_zero (r : F32) (e : Int) (hr : r.isZero = false)
    (hz : (F32.mul r (F32.ofInt e)).isZero = true) : e = 0 := by
  by_contra he
  rcases ofInt_cases e he with ⟨s, hs⟩ | ⟨s, l, hs, hl⟩
  · rw [hs] at hz
    cases r with
    | nan => simp [F32.mul, F32.isZero] at hz
    | inf t => simp [F32.mul, F32.isZero] at hz
    | fin t k =>
      rw [mul_fin_inf] at hz
      split at hz <;> simp [F32.isZero] at hz
  · rw [hs] at hz
    cases r with
    | nan => simp [F32.mul, F32.isZero] at hz
    | inf t =>
      rw [mul_inf_fin] at hz
      split at hz <;> simp [F32.isZero] at hz
    | fin t k =>
      have hk : 1 ≤ k := by
        cases k with
        | zero => simp [F32.isZero] at hr
        | succ k => omega
      have hdiv : 1 ≤ k * l / 2 ^ 149 := by
        rw [Nat.le_div_iff_mul_le (Nat.two_pow_pos _), Nat.one_mul]
        calc 2 ^ 149 ≤ l := hl
          _ ≤ k * l := Nat.le_mul_of_pos_left _ hk
      have hlow := roundUnits_lower (k * l) (2 ^ 149) hdiv
      have hpos : 0 < 2 ^ (F32.bitLen (k * l / 2 ^ 149) - 1) := Nat.two_pow_pos _
      rw [mul_fin_fin] at hz
      unfold F32.ofUnits at hz
      simp only at hz
      split at hz
      · simp [F32.isZero] at hz
      · simp only [F32.isZero, decide_eq_true_eq] at hz
        omega


/-! ## One sample application on one unit -/

theorem sensor_congr (n m : neuron) (i : Nat) (hx : n.x = m.x) (hw : n.w = m.w) :
    n.sensor i = m.sensor i := by
  unfold neuron.sensor
  rw [hx, hw]

theorem processFrom_congr (n m : neuron) (todo i : Nat) (output : F32) (hx : n.x = m.x)
    (hw : n.w = m.w) (hfn : n.fn = m.fn) :
    n.processFrom todo i output = m.processFrom todo i output := by
  induction todo generalizing i output with
  | zero => simp [neuron.processFrom, hfn]
  | succ t ih =>
    unfold neuron.processFrom
    rw [sensor_congr n m i hx hw]
    cases hs : m.sensor i with
    | mk ci err =>
      cases err with
      | some e => rfl
      | none => exact ih (i + 1) _

theorem process_congr (n m : neuron) (hx : n.x = m.x) (hw : n.w = m.w) (hfn : n.fn = m.fn) :
    n.process = m.process := by
  unfold neuron.process
  rw [processFrom_congr n m _ _ _ hx hw hfn, hx]

theorem set_getElem_same {α : Type} (l : List α) (i : Nat) (h : i < l.length) :
    l.set i l[i] = l := by
  induction l generalizing i with
  | nil => simp at h
  | cons a t ih =>
    cases i with
    | zero => rfl
    | succ j =>
      simp only [List.set, List.getElem_cons_succ]
      rw [ih j (by simpa using h)]

/-- With a zero correction the loop of `updateWeights` changes nothing. -/
theorem updateFrom_zero (todo i : Nat) (n : neuron) (hx : i + todo = n.x.length)
    (hw : n.x.length ≤ n.w.length) (hd : n.d.isZero = true) :
    neuron.updateFrom todo i n = (n, Exit.ret none) := by
  induction todo generalizing i with
  | zero => rfl
  | succ t ih =>
    have hxi : i < n.x.length := by omega
    have hwi : i < n.w.length := by omega
    unfold neuron.updateFrom
    rw [newWeight_inside n i hxi hwi]
    simp only
    have hkeep := add_zero_keeps (n.w.getD i F32.zero) (F32.mul n.d (F32.ofUint (n.x.getD i 0)))
      (mul_zero_ofUint n.d _ hd)
    generalize F32.add (n.w.getD i F32.zero) (F32.mul n.d (F32.ofUint (n.x.getD i 0))) = wv
      at hkeep ⊢
    have hsame : (if F32.ne (n.w.getD i F32.zero) wv = true then { n with w := n.w.set i wv }
        else n) = n := by
      split
      · rename_i hne
        rw [if_pos hne] at hkeep
        rw [hkeep, List.getD_eq_getElem _ _ hwi, set_getElem_same _ _ hwi]
      · rfl
    rw [hsame]
    exact ih (i + 1) (by omega)

/-- What `updateWeights` does when the input vector is not longer than the
weight vector. -/
theorem updateWeights_ok (n : neuron) (hlen : n.x.length ≤ n.w.length) :
    ∃ n3, n.updateWeights = (n3, Exit.ret none) ∧ n3.x = n.x ∧ n3.z = n.z ∧ n3.b = n.b ∧
      n3.fn = n.fn ∧ n3.r = n.r ∧ n3.y = n.y ∧ n3.verbose = n.verbose ∧
      n3.w.length = n.w.length ∧ n3.d = n.correction ∧ (n3.d.isZero = true → n3.w = n.w) := by
  obtain ⟨n3, h3, hx3, hb3, hz3, hfn3, hr3, hd3, hy3, hv3, hlen3, _, _⟩ :=
    updateFrom_inside n.x.length 0 { n with d := n.correction } (by simp)
      (by show n.x.length ≤ n.w.length; exact hlen)
  refine ⟨n3, h3, hx3, hz3, hb3, hfn3, hr3, hy3, hv3, hlen3, hd3, ?_⟩
  intro hz
  have hz1 : ({ n with d := n.correction } : neuron).d.isZero = true := by
    rw [← hd3]; exact hz
  have h0 := updateFrom_zero n.x.length 0 { n with d := n.correction } (by simp)
    (by show n.x.length ≤ n.w.length; exact hlen) hz1
  rw [h0] at h3
  injection h3 with h3 _
  rw [← h3]

/-- The fields of a unit after a sample application that gave no error. -/
theorem trainUnit_ok (x : List Nat) (z : Nat) (n n2 : neuron)
    (h : trainUnit x z n = (n2, Exit.ret none)) :
    x.length ≤ n.w.length ∧ n2.x = x ∧ n2.z = z ∧ n2.b = n.b ∧ n2.fn = n.fn ∧ n2.r = n.r ∧
    n2.verbose = n.verbose ∧ n2.w.length = n.w.length ∧
    n2.d = F32.mul n2.r (F32.ofInt n2.error) ∧
    (n2.d.isZero = true → n2.w = n.w) := by
  unfold trainUnit neuron.train at h
  by_cases hlen : x.length ≤ n.w.length
  · have hp := process_short_or_equal { n with x := x, z := z } hlen
    rw [hp] at h
    simp only at h
    obtain ⟨n3, h3, hx3, hz3, hb3, hfn3, hr3, hy3, hv3, hlen3, hd3, hzero⟩ :=
      updateWeights_ok { n with x := x, z := z, y := n.fn (weightedSum x n.w) } hlen
    have h4 : (n3, Exit.ret none) = (n2, Exit.ret none) := h3.symm.trans h
    injection h4 with h4 _
    subst h4
    refine ⟨hlen, hx3, hz3, hb3, hfn3, hr3, hv3, hlen3, ?_, hzero⟩
    rw [hd3]
    show F32.mul n.r (F32.ofInt (toInt (uintSub z (n.fn (weightedSum x n.w)))))
      = F32.mul n3.r (F32.ofInt (toInt (uintSub n3.z n3.y)))
    rw [hr3, hz3, hy3]
  · have hp := process_long { n with x := x, z := z } (by show n.w.length < x.length; omega)
    rw [hp] at h
    simp at h

/-- Two units that differ only in the fields a sample application overwrites
behave alike under it. -/
theorem trainUnit_forget (x : List Nat) (z : Nat) (n m : neuron) (h : forgetN n = forgetN m) :
    (trainUnit x z n).2 = (trainUnit x z m).2 ∧
    ((trainUnit x z n).2 = Exit.ret none → trainUnit x z n = trainUnit x z m) := by
  have hb : n.b = m.b := by have := congrArg neuron.b h; exact this
  have hw : n.w = m.w := by have := congrArg neuron.w h; exact this
  have hfn : n.fn = m.fn := by have := congrArg neuron.fn h; exact this
  have hr : n.r = m.r := by have := congrArg neuron.r h; exact this
  have hv : n.verbose = m.verbose := by have := congrArg neuron.verbose h; exact this
  have hp : neuron.process { n with x := x, z := z } = neuron.process { m with x := x, z := z } :=
    process_congr _ _ rfl hw hfn
  unfold trainUnit neuron.train
  rw [hp]
  cases hpm : neuron.process { m with x := x, z := z } with
  | mk out err =>
    cases err with
    | some e => simp
    | none =>
      simp only
      have hupd : neuron.updateWeights { n with x := x, z := z, y := out }
          = neuron.updateWeights { m with x := x, z := z, y := out } := by
        unfold neuron.updateWeights neuron.correction neuron.error
        simp only [hb, hw, hfn, hr, hv]
      exact ⟨congrArg Prod.snd hupd, fun _ => hupd⟩


/-! ## One sample application on the whole network -/

theorem trainNeurons_ok (x : List Nat) (z : Nat) (ns ns1 : List neuron) :
    trainNeurons x z ns = (ns1, Exit.ret none) ↔
      List.Forall₂ (fun n n2 => trainUnit x z n = (n2, Exit.ret none)) ns ns1 := by
  induction ns generalizing ns1 with
  | nil =>
    constructor
    · intro h
      simp only [trainNeurons, Prod.mk.injEq] at h
      rw [← h.1]
      exact List.Forall₂.nil
    · intro h
      cases h
      rfl
  | cons n ns ih =>
    constructor
    · intro h
      unfold trainNeurons at h
      split at h
      · rename_i n2 hu
        cases hrest : trainNeurons x z ns with
        | mk ns2 ex =>
          rw [hrest] at h
          simp only [Prod.mk.injEq] at h
          obtain ⟨h1, h2⟩ := h
          subst h1 h2
          exact List.Forall₂.cons hu ((ih ns2).1 hrest)
      · rename_i n2 ex hne hu
        simp only [Prod.mk.injEq] at h
        exact absurd h.2 hne
    · intro h
      cases h with
      | cons hu hrest =>
        unfold trainNeurons
        rw [hu]
        simp only
        rw [(ih _).2 hrest]

theorem trainLayers_ok (x : List Nat) (z : Nat) (ls ls1 : List layer) :
    trainLayers x z ls = (ls1, Exit.ret none) ↔
      List.Forall₂ (fun ly ly1 => trainNeurons x z ly.neurons = (ly1.neurons, Exit.ret none))
        ls ls1 := by
  induction ls generalizing ls1 with
  | nil =>
    constructor
    · intro h
      simp only [trainLayers, Prod.mk.injEq] at h
      rw [← h.1]
      exact List.Forall₂.nil
    · intro h
      cases h
      rfl
  | cons ly ls ih =>
    constructor
    · intro h
      unfold trainLayers at h
      split at h
      · rename_i ns1 hu
        cases hrest : trainLayers x z ls with
        | mk ls2 ex =>
          rw [hrest] at h
          simp only [Prod.mk.injEq] at h
          obtain ⟨h1, h2⟩ := h
          subst h1 h2
          exact List.Forall₂.cons hu ((ih ls2).1 hrest)
      · rename_i ns1 ex hne hu
        simp only [Prod.mk.injEq] at h
        exact absurd h.2 hne
    · intro h
      cases h with
      | cons hu hrest =>
        rename_i ly1 ls2
        unfold trainLayers
        rw [hu]
        simp only
        rw [(ih _).2 hrest]

theorem forgetN_of_zero (x : List Nat) (z : Nat) (n n2 : neuron)
    (h : trainUnit x z n = (n2, Exit.ret none)) (hz : n2.d.isZero = true) :
    forgetN n2 = forgetN n := by
  obtain ⟨_, _, _, hb, hfn, hr, hv, _, _, hw⟩ := trainUnit_ok x z n n2 h
  unfold forgetN
  rw [hb, hfn, hr, hv, hw hz]

theorem forgetN_neurons_of_zero (x : List Nat) (z : Nat) (ns ns1 : List neuron)
    (h : List.Forall₂ (fun n n2 => trainUnit x z n = (n2, Exit.ret none)) ns ns1)
    (hz : ∀ u ∈ ns1, u.d.isZero = true) : ns1.map forgetN = ns.map forgetN := by
  induction h with
  | nil => rfl
  | cons hu _ ih =>
    simp only [List.map_cons]
    rw [forgetN_of_zero x z _ _ hu (hz _ (List.mem_cons_self _ _)),
      ih (fun u hu1 => hz u (List.mem_cons_of_mem _ hu1))]

theorem forgetL_layers_of_zero (x : List Nat) (z : Nat) (ls ls1 : List layer)
    (h : List.Forall₂
      (fun ly ly1 => trainNeurons x z ly.neurons = (ly1.neurons, Exit.ret none)) ls ls1)
    (hz : ∀ u ∈ (ls1.map layer.neurons).flatten, u.d.isZero = true) :
    ls1.map forgetL = ls.map forgetL := by
  induction h with
  | nil => rfl
  | @cons ly ly1 ls ls1 hu _ ih =>
    simp only [List.map_cons, List.flatten_cons, List.mem_append] at hz ⊢
    have h1 : forgetL ly1 = forgetL ly := by
      unfold forgetL
      rw [forgetN_neurons_of_zero x z _ _ ((trainNeurons_ok x z _ _).1 hu)
        (fun u hu1 => hz u (Or.inl hu1))]
    rw [h1, ih (fun u hu1 => hz u (Or.inr hu1))]

/-- A sample application that leaves only zero corrections changes nothing but
the fields it overwrites. -/
theorem applySample_zero (p q : Perceptron) (smp : Sample)
    (h : p.applySample smp = (q, Exit.ret none)) (hz : q.zeroCorrections = true) :
    forget q = forget p := by
  unfold Perceptron.applySample at h
  cases ht : trainLayers (p.bias :: smp.X) smp.Z p.layers with
  | mk ls ex =>
    rw [ht] at h
    simp only [Prod.mk.injEq] at h
    obtain ⟨h1, h2⟩ := h
    subst h1 h2
    have hz1 : ∀ u ∈ (ls.map layer.neurons).flatten, u.d.isZero = true := by
      intro u hu
      have := hz
      unfold Perceptron.zeroCorrections Perceptron.units at this
      rw [List.all_eq_true] at this
      exact this u hu
    unfold forget
    simp only
    rw [forgetL_layers_of_zero _ _ _ _ ((trainLayers_ok _ _ _ _).1 ht) hz1]

theorem trainNeurons_forget (x : List Nat) (z : Nat) (ns ms ns1 : List neuron)
    (hf : ns.map forgetN = ms.map forgetN)
    (h : List.Forall₂ (fun n n2 => trainUnit x z n = (n2, Exit.ret none)) ns ns1) :
    List.Forall₂ (fun n n2 => trainUnit x z n = (n2, Exit.ret none)) ms ns1 := by
  induction h generalizing ms with
  | nil =>
    cases ms with
    | nil => exact List.Forall₂.nil
    | cons m ms => simp at hf
  | cons hu _ ih =>
    cases ms with
    | nil => simp at hf
    | cons m ms =>
      simp only [List.map_cons, List.cons.injEq] at hf
      obtain ⟨hex, heq⟩ := trainUnit_forget x z _ m hf.1
      have hu2 := heq (by rw [hu])
      exact List.Forall₂.cons (hu2.symm.trans hu) (ih ms hf.2)

theorem trainLayers_forget (x : List Nat) (z : Nat) (ls ms ls1 : List layer)
    (hf : ls.map forgetL = ms.map forgetL)
    (h : List.Forall₂
      (fun ly ly1 => trainNeurons x z ly.neurons = (ly1.neurons, Exit.ret none)) ls ls1) :
    List.Forall₂
      (fun ly ly1 => trainNeurons x z ly.neurons = (ly1.neurons, Exit.ret none)) ms ls1 := by
  induction h generalizing ms with
  | nil =>
    cases ms with
    | nil => exact List.Forall₂.nil
    | cons m ms => simp at hf
  | @cons ly ly1 ls ls1 hu _ ih =>
    cases ms with
    | nil => simp at hf
    | cons m ms =>
      simp only [List.map_cons, List.cons.injEq] at hf
      have hn : ly.neurons.map forgetN = m.neurons.map forgetN := by
        have := congrArg layer.neurons hf.1
        exact this
      exact List.Forall₂.cons
        ((trainNeurons_ok x z _ _).2
          (trainNeurons_forget x z _ _ _ hn ((trainNeurons_ok x z _ _).1 hu)))
        (ih ms hf.2)

/-- Two networks that differ only in the fields a sample application
overwrites end alike under a sample application without error. -/
theorem applySample_forget (p p2 q : Perceptron) (smp : Sample) (hf : forget p = forget p2)
    (h : p.applySample smp = (q, Exit.ret none)) : p2.applySample smp = (q, Exit.ret none) := by
  have hb : p.bias = p2.bias := by have := congrArg Perceptron.bias hf; exact this
  have hv : p.verbose = p2.verbose := by have := congrArg Perceptron.verbose hf; exact this
  have hl : p.layers.map forgetL = p2.layers.map forgetL := by
    have := congrArg Perceptron.layers hf; exact this
  unfold Perceptron.applySample at h ⊢
  cases ht : trainLayers (p.bias :: smp.X) smp.Z p.layers with
  | mk ls ex =>
    rw [ht] at h
    simp only [Prod.mk.injEq] at h
    obtain ⟨h1, h2⟩ := h
    subst h2
    have ht2 := (trainLayers_ok _ _ _ _).2
      (trainLayers_forget _ _ _ _ _ hl ((trainLayers_ok _ _ _ _).1 ht))
    rw [← hb, ht2]
    simp only
    rw [← hv, h1]

theorem forget_units (p : Perceptron) : (forget p).units = p.units.map forgetN := by
  unfold forget Perceptron.units
  simp only
  induction p.layers with
  | nil => rfl
  | cons ly ls ih =>
    simp only [List.map_cons, List.flatten_cons, List.map_append]
    rw [ih]
    rfl

theorem forget_weights (p q : Perceptron) (hf : forget p = forget q) :
    p.units.map neuron.w = q.units.map neuron.w := by
  have h1 : ∀ r : Perceptron, r.units.map neuron.w = (forget r).units.map neuron.w := by
    intro r
    rw [forget_units, List.map_map]
    rfl
  rw [h1 p, h1 q, hf]

theorem trainNeurons_units (x : List Nat) (z : Nat) (ns ns1 : List neuron)
    (h : List.Forall₂ (fun n n2 => trainUnit x z n = (n2, Exit.ret none)) ns ns1) :
    ∀ u ∈ ns1, u.z = z ∧ u.d = F32.mul u.r (F32.ofInt u.error) := by
  induction h with
  | nil => simp
  | cons hu _ ih =>
    intro u hu1
    simp only [List.mem_cons] at hu1
    rcases hu1 with hu1 | hu1
    · subst hu1
      obtain ⟨_, _, hz, _, _, _, _, _, hd, _⟩ := trainUnit_ok _ _ _ _ hu
      exact ⟨hz, hd⟩
    · exact ih u hu1

theorem trainLayers_units (x : List Nat) (z : Nat) (ls ls1 : List layer)
    (h : List.Forall₂
      (fun ly ly1 => trainNeurons x z ly.neurons = (ly1.neurons, Exit.ret none)) ls ls1) :
    ∀ u ∈ (ls1.map layer.neurons).flatten, u.z = z ∧ u.d = F32.mul u.r (F32.ofInt u.error) := by
  induction h with
  | nil => simp
  | cons hu _ ih =>
    intro u hu1
    simp only [List.map_cons, List.flatten_cons, List.mem_append] at hu1
    rcases hu1 with hu1 | hu1
    · exact trainNeurons_units x z _ _ ((trainNeurons_ok _ _ _ _).1 hu) u hu1
    · exact ih u hu1

theorem applySample_units (p q : Perceptron) (smp : Sample)
    (h : p.applySample smp = (q, Exit.ret none)) :
    ∀ u ∈ q.units, u.z = smp.Z ∧ u.d = F32.mul u.r (F32.ofInt u.error) := by
  unfold Perceptron.applySample at h
  cases ht : trainLayers (p.bias :: smp.X) smp.Z p.layers with
  | mk ls ex =>
    rw [ht] at h
    simp only [Prod.mk.injEq] at h
    obtain ⟨h1, h2⟩ := h
    subst h1 h2
    exact trainLayers_units _ _ _ _ ((trainLayers_ok _ _ _ _).1 ht)


/-! ## The counter of the training loop -/

theorem wrapInt_range (v : Int) : -2 ^ 63 ≤ wrapInt v ∧ wrapInt v < 2 ^ 63 := by
  unfold wrapInt
  omega

theorem wrapIter_succ (t : Nat) (c : Int) : wrapIter (t + 1) c = wrapInt (wrapIter t c + 1) := by
  induction t generalizing c with
  | zero => rfl
  | succ t ih =>
    show wrapIter (t + 1) (wrapInt (c + 1)) = wrapInt (wrapIter t (wrapInt (c + 1)) + 1)
    exact ih _

theorem wrapIter_range (t : Nat) (c : Int) (hc : -2 ^ 63 ≤ c ∧ c < 2 ^ 63) :
    -2 ^ 63 ≤ wrapIter t c ∧ wrapIter t c < 2 ^ 63 := by
  cases t with
  | zero => exact hc
  | succ t =>
    rw [wrapIter_succ]
    exact wrapInt_range _

theorem dvd_of_tmod_nonneg (c : Int) (n : Nat) (hc : c < 0) (h : 0 ≤ c.tmod n) :
    (n : Int) ∣ c := by
  apply Int.dvd_of_tmod_eq_zero
  cases c with
  | ofNat m => exact absurd hc (by simp)
  | negSucc m =>
    have hle : Int.tmod (Int.negSucc m) (n : Int) ≤ 0 := by
      show -Int.ofNat (Nat.succ m % n) ≤ 0
      have : (0 : Int) ≤ Int.ofNat (Nat.succ m % n) := Int.ofNat_nonneg _
      omega
    omega

theorem residue_reached (k n m : Nat) (hm : m < n) : ∃ t, t < n ∧ (k + t) % n = m := by
  have hk := Nat.div_add_mod k n
  have hr : k % n < n := Nat.mod_lt _ (by omega)
  by_cases hle : k % n ≤ m
  · refine ⟨m - k % n, by omega, ?_⟩
    have : k + (m - k % n) = n * (k / n) + m := by omega
    rw [this, Nat.mul_add_mod, Nat.mod_eq_of_lt hm]
  · refine ⟨n + m - k % n, by omega, ?_⟩
    have : k + (n + m - k % n) = n * (k / n + 1) + m := by
      rw [Nat.mul_add, Nat.mul_one]
      omega
    rw [this, Nat.mul_add_mod, Nat.mod_eq_of_lt hm]

/-- Among `n + 1` consecutive passes that do not panic on their sample index,
every sample index below `n` is used. -/
theorem indices_covered (n : Nat) (hn : 1 ≤ n) (c0 : Int) (hr : -2 ^ 63 ≤ c0 ∧ c0 < 2 ^ 63)
    (hidx : ∀ t, t ≤ n → 0 ≤ (wrapIter t c0).tmod n) (m : Nat) (hm : m < n) :
    ∃ t, t ≤ n ∧ ((wrapIter t c0).tmod n).toNat = m := by
  by_cases h1 : n = 1
  · subst h1
    refine ⟨0, by omega, ?_⟩
    simp only [Nat.cast_one, Int.tmod_one, Int.toNat_zero]
    omega
  · have hA : ∀ t, t + 1 ≤ n → 0 ≤ wrapIter t c0 := by
      intro t ht
      by_contra hneg
      have hlt : wrapIter t c0 < 0 := by omega
      have hrt := wrapIter_range t c0 hr
      have hd1 := dvd_of_tmod_nonneg _ n hlt (hidx t (by omega))
      have hnext : wrapIter (t + 1) c0 = wrapIter t c0 + 1 := by
        rw [wrapIter_succ]
        unfold wrapInt
        omega
      have hone : (n : Int) ∣ 1 := by
        by_cases hz : wrapIter t c0 + 1 < 0
        · have hd2 := dvd_of_tmod_nonneg _ n (by rw [hnext]; exact hz) (hidx (t + 1) ht)
          rw [hnext] at hd2
          have := Int.dvd_sub hd2 hd1
          simpa using this
        · have he : wrapIter t c0 = -1 := by omega
          rw [he] at hd1
          exact (Int.dvd_neg).1 hd1
      have := Int.eq_one_of_dvd_one (by omega) hone
      omega
    have hB : ∀ t, t + 1 ≤ n → wrapIter t c0 = c0 + t := by
      intro t
      induction t with
      | zero => intro _; simp [wrapIter]
      | succ t ih =>
        intro ht
        have h0 := ih (by omega)
        have hpos := hA (t + 1) ht
        have hrt := wrapIter_range t c0 hr
        rw [wrapIter_succ] at hpos ⊢
        rw [h0] at hpos hrt ⊢
        unfold wrapInt at hpos ⊢
        push_cast
        omega
    have hc0 : 0 ≤ c0 := by
      have := hA 0 (by omega)
      simpa [wrapIter] using this
    obtain ⟨t, ht, hres⟩ := residue_reached c0.toNat n m hm
    refine ⟨t, by omega, ?_⟩
    rw [hB t (by omega)]
    have hcast : c0 + (t : Int) = ((c0.toNat + t : Nat) : Int) := by
      push_cast
      rw [Int.toNat_of_nonneg hc0]
    rw [hcast, ← Int.ofNat_tmod, Int.toNat_ofNat, hres]

/-! ## Runs of passes judged stable -/

theorem lastN_zero {α : Type} (l : List α) : lastN 0 l = [] := by
  simp [lastN]

theorem lastN_snoc {α : Type} (k : Nat) (l : List α) (e : α) (hk : k ≤ l.length) :
    lastN (k + 1) (l ++ [e]) = lastN k l ++ [e] := by
  unfold lastN
  have : (l ++ [e]).length - (k + 1) = l.length - k := by
    simp only [List.length_append, List.length_singleton]
    omega
  rw [this, List.drop_append_of_le_length (by omega)]

theorem lastN_length {α : Type} (k : Nat) (l : List α) (hk : k ≤ l.length) :
    (lastN k l).length = k := by
  unfold lastN
  rw [List.length_drop]
  omega

theorem chain_snoc (data : List Sample) (W : List (Int × Perceptron)) (p0 p q : Perceptron)
    (c0 c : Int) (smp : Sample) (hch : Chain data p0 c0 W p c)
    (hidx : 0 ≤ Int.tmod c data.length)
    (hsmp : data[(Int.tmod c data.length).toNat]? = some smp)
    (happ : p.applySample smp = (q, Exit.ret none)) (hst : q.stable = true) :
    Chain data p0 c0 (W ++ [(c, q)]) q (wrapInt (c + 1)) := by
  induction W generalizing p0 c0 with
  | nil =>
    obtain ⟨h1, h2⟩ := hch
    subst h1 h2
    exact ⟨rfl, ⟨smp, hidx, hsmp, happ⟩, hst, rfl, rfl⟩
  | cons e rest ih =>
    obtain ⟨h1, h2, h3, h4⟩ := hch
    exact ⟨h1, h2, h3, ih _ _ h4⟩

theorem chain_stable (data : List Sample) (W : List (Int × Perceptron)) (p0 p1 : Perceptron)
    (c0 c1 : Int) (hch : Chain data p0 c0 W p1 c1) : ∀ e ∈ W, e.2.stable = true := by
  induction W generalizing p0 c0 with
  | nil => simp
  | cons e rest ih =>
    obtain ⟨_, _, h3, h4⟩ := hch
    intro e1 he1
    simp only [List.mem_cons] at he1
    rcases he1 with he1 | he1
    · rw [he1]; exact h3
    · exact ih _ _ h4 e1 he1

theorem chain_last (data : List Sample) (W : List (Int × Perceptron)) (p0 p1 : Perceptron)
    (c0 c1 : Int) (hch : Chain data p0 c0 W p1 c1) (hW : W ≠ []) :
    (W.map Prod.snd).getLast? = some p1 := by
  induction W generalizing p0 c0 with
  | nil => exact absurd rfl hW
  | cons e rest ih =>
    obtain ⟨_, _, _, h4⟩ := hch
    cases rest with
    | nil =>
      obtain ⟨h5, _⟩ := h4
      simp [h5]
    | cons e2 rest2 =>
      have := ih _ _ h4 (by simp)
      simpa [List.getLast?_cons_cons] using this

/-- In a run of passes that all leave zero corrections, every pass could as
well have started from the first network of the run, and every network of the
run differs from it only in the fields a sample application overwrites. -/
theorem chain_zero (data : List Sample) (W : List (Int × Perceptron)) (p0 p1 : Perceptron)
    (c0 c1 : Int) (hch : Chain data p0 c0 W p1 c1)
    (hz : ∀ e ∈ W, e.2.zeroCorrections = true) :
    forget p1 = forget p0 ∧
    (∀ e ∈ W, forget e.2 = forget p0) ∧
    ∀ t, t < W.length → ∃ q smp, q ∈ W.map Prod.snd ∧
      0 ≤ Int.tmod (wrapIter t c0) data.length ∧
      data[(Int.tmod (wrapIter t c0) data.length).toNat]? = some smp ∧
      p0.applySample smp = (q, Exit.ret none) := by
  induction W generalizing p0 c0 with
  | nil =>
    obtain ⟨h1, _⟩ := hch
    subst h1
    exact ⟨rfl, by simp, fun t ht => absurd ht (by simp)⟩
  | cons e rest ih =>
    obtain ⟨_, ⟨smp, hidx, hsmp, happ⟩, _, h4⟩ := hch
    have hfe : forget e.2 = forget p0 :=
      applySample_zero p0 e.2 smp happ (hz e (List.mem_cons_self _ _))
    obtain ⟨hf1, hall, hrest⟩ := ih _ _ h4 (fun e1 he1 => hz e1 (List.mem_cons_of_mem _ he1))
    refine ⟨hf1.trans hfe, ?_, ?_⟩
    · intro e1 he1
      simp only [List.mem_cons] at he1
      rcases he1 with he1 | he1
      · rw [he1]; exact hfe
      · exact (hall e1 he1).trans hfe
    · intro t ht
      cases t with
      | zero =>
        exact ⟨e.2, smp, by simp, hidx, hsmp, happ⟩
      | succ t =>
        obtain ⟨q, smp2, hq, hidx2, hsmp2, happ2⟩ := hrest t (by simpa using ht)
        refine ⟨q, smp2, ?_, hidx2, hsmp2, applySample_forget _ _ _ _ hfe happ2⟩
        simp only [List.map_cons, List.mem_cons]
        exact Or.inr hq

/-! ## The training loop -/

/-- The ways one pass of the training loop can end. -/
theorem loopPass_cases (data : List Sample) (s : LoopState) :
    (∃ p ex, ex ≠ Exit.ret none ∧ loopPass data s = Pass.leave p ex) ∨
    (∃ smp q, 0 ≤ Int.tmod s.i data.length ∧
      data[(Int.tmod s.i data.length).toNat]? = some smp ∧
      s.p.applySample smp = (q, Exit.ret none) ∧
      loopPass data s =
        if q.stable = true then
          if s.howMuchStablesInARow + 1 > data.length then Pass.leave q (Exit.ret none)
          else Pass.again { p := q, i := wrapInt (s.i + 1),
                            howMuchStablesInARow := s.howMuchStablesInARow + 1 }
        else Pass.again { p := q, i := wrapInt (s.i + 1), howMuchStablesInARow := 0 }) := by
  unfold loopPass
  simp only
  by_cases hidx : Int.tmod s.i data.length < 0
  · rw [if_pos hidx]
    exact Or.inl ⟨_, _, by simp, rfl⟩
  · rw [if_neg hidx]
    cases hs : data[(Int.tmod s.i data.length).toNat]? with
    | none => exact Or.inl ⟨_, _, by simp, rfl⟩
    | some smp =>
      simp only
      cases ha : s.p.applySample smp with
      | mk q ex =>
        cases ex with
        | panic => exact Or.inl ⟨_, _, by simp, rfl⟩
        | ret e =>
          cases e with
          | some err => exact Or.inl ⟨_, _, by simp, rfl⟩
          | none => exact Or.inr ⟨smp, q, by omega, rfl, ha, rfl⟩

/-- The streak invariant of the training loop: when the loop leaves with a
`nil` error, the last `n + 1` passes form a run of passes judged stable. -/
theorem trainLoop_window (data : List Sample) (fuel : Nat) (s : LoopState)
    (H : List (Int × Perceptron)) (p1 : Perceptron)
    (hh0 : 0 ≤ s.howMuchStablesInARow) (hhn : s.howMuchStablesInARow ≤ data.length)
    (hlen : s.howMuchStablesInARow.toNat ≤ H.length)
    (hri : -2 ^ 63 ≤ s.i ∧ s.i < 2 ^ 63)
    (hch : ∃ pw cw, (-2 ^ 63 ≤ cw ∧ cw < 2 ^ 63) ∧
      Chain data pw cw (lastN s.howMuchStablesInARow.toNat H) s.p s.i)
    (hret : trainLoop data fuel s = some (p1, Exit.ret none)) :
    data.length + 1 ≤ (H ++ trainPasses data fuel s).length ∧
    ∃ pw cw c1, (-2 ^ 63 ≤ cw ∧ cw < 2 ^ 63) ∧
      Chain data pw cw (lastN (data.length + 1) (H ++ trainPasses data fuel s)) p1 c1 := by
  induction fuel generalizing s H with
  | zero => simp [trainLoop] at hret
  | succ f ih =>
    unfold trainLoop at hret
    unfold trainPasses
    rcases loopPass_cases data s with ⟨p, ex, hne, hl⟩ | ⟨smp, q, hidx, hsmp, happ, hl⟩
    · rw [hl] at hret
      simp only [Option.some.injEq, Prod.mk.injEq] at hret
      exact absurd hret.2 hne
    · obtain ⟨pw, cw, hcw, hchain⟩ := hch
      by_cases hst : q.stable = true
      · rw [if_pos hst] at hl
        by_cases hgt : s.howMuchStablesInARow + 1 > data.length
        · rw [if_pos hgt] at hl
          rw [hl] at hret ⊢
          simp only [Option.some.injEq, Prod.mk.injEq, and_true] at hret
          subst hret
          show data.length + 1 ≤ (H ++ [(s.i, q)]).length ∧
            ∃ pw cw c1, (-2 ^ 63 ≤ cw ∧ cw < 2 ^ 63) ∧
              Chain data pw cw (lastN (data.length + 1) (H ++ [(s.i, q)])) q c1
          have hn : s.howMuchStablesInARow.toNat = data.length := by omega
          rw [hn] at hlen hchain
          refine ⟨by simp only [List.length_append, List.length_singleton]; omega, pw, cw,
            wrapInt (s.i + 1), hcw, ?_⟩
          rw [lastN_snoc _ _ _ hlen]
          exact chain_snoc data _ pw s.p q cw s.i smp hchain hidx hsmp happ hst
        · rw [if_neg hgt] at hl
          rw [hl] at hret ⊢
          simp only at hret ⊢
          have happend : H ++ (s.i, q) :: trainPasses data f
              { p := q, i := wrapInt (s.i + 1),
                howMuchStablesInARow := s.howMuchStablesInARow + 1 }
              = (H ++ [(s.i, q)]) ++ trainPasses data f
              { p := q, i := wrapInt (s.i + 1),
                howMuchStablesInARow := s.howMuchStablesInARow + 1 } := by
            simp
          rw [happend]
          have htn : (s.howMuchStablesInARow + 1).toNat = s.howMuchStablesInARow.toNat + 1 := by
            omega
          apply ih _ (H ++ [(s.i, q)])
          · show 0 ≤ s.howMuchStablesInARow + 1
            omega
          · show s.howMuchStablesInARow + 1 ≤ data.length
            omega
          · show (s.howMuchStablesInARow + 1).toNat ≤ (H ++ [(s.i, q)]).length
            simp only [List.length_append, List.length_singleton]
            omega
          · exact wrapInt_range _
          · refine ⟨pw, cw, hcw, ?_⟩
            show Chain data pw cw (lastN (s.howMuchStablesInARow + 1).toNat (H ++ [(s.i, q)])) q
              (wrapInt (s.i + 1))
            rw [htn, lastN_snoc _ _ _ hlen]
            exact chain_snoc data _ pw s.p q cw s.i smp hchain hidx hsmp happ hst
          · exact hret
      · rw [if_neg hst] at hl
        rw [hl] at hret ⊢
        simp only at hret ⊢
        have happend : H ++ (s.i, q) :: trainPasses data f
            { p := q, i := wrapInt (s.i + 1), howMuchStablesInARow := 0 }
            = (H ++ [(s.i, q)]) ++ trainPasses data f
            { p := q, i := wrapInt (s.i + 1), howMuchStablesInARow := 0 } := by
          simp
        rw [happend]
        apply ih _ (H ++ [(s.i, q)])
        · show (0 : Int) ≤ 0
          omega
        · show (0 : Int) ≤ data.length
          omega
        · show (0 : Int).toNat ≤ (H ++ [(s.i, q)]).length
          simp
        · exact wrapInt_range _
        · refine ⟨q, wrapInt (s.i + 1), wrapInt_range _, ?_⟩
          show Chain data q (wrapInt (s.i + 1)) (lastN (0 : Int).toNat (H ++ [(s.i, q)])) q
            (wrapInt (s.i + 1))
          rw [Int.toNat_zero, lastN_zero]
          exact ⟨rfl, rfl⟩
        · exact hret

theorem Train_loopStart (fuel : Nat) (p p1 : Perceptron) (data : List Sample)
    (ws : WeightInitStrategy) (rnd : RandSource)
    (h : p.Train fuel data ws rnd = some (p1, Exit.ret none)) :
    ∃ s0, p.loopStart data ws rnd = some s0 ∧ s0.i = 0 ∧ s0.howMuchStablesInARow = 0 ∧
      trainLoop data fuel s0 = some (p1, Exit.ret none) := by
  unfold Perceptron.Train at h
  unfold Perceptron.loopStart
  cases data with
  | nil => simp at h
  | cons first rest =>
    simp only at h ⊢
    by_cases hm : first.X.length = 0
    · rw [if_pos hm] at h
      simp at h
    · rw [if_neg hm] at h ⊢
      rcases hinit : initLayers first.X.length ws p.verbose p.layers rnd with ⟨ls, rnd1, ex⟩
      rw [hinit] at h
      cases ex with
      | panic => simp at h
      | ret e =>
        cases e with
        | none => exact ⟨_, rfl, rfl, rfl, h⟩
        | some err => simp at h


/-! ## C2: what a successful `Train` guarantees -/

set_option maxRecDepth 100000 in
/-- Counterexample to C2: with learning rate `0`, `Train` on the one-sample set
`[1] -> 1` returns a `nil` error after two sample applications, and applying
that sample once more to the trained network gives the output `0` in its unit,
not the expected output `1`. -/
theorem zero_rate_not_learned :
    Option.map
      (fun r => (r.2, (r.1.applySample { X := [1], Z := 1 }).2,
        (r.1.applySample { X := [1], Z := 1 }).1.units.map neuron.y))
      ((New 1 1 testFn F32.zero 1).Train 2 oneSample ZeroWeightInit (fun _ => F32.zero))
    = some (Exit.ret none, Exit.ret none, [0]) := by
  rfl

/-- C2 as amended: whenever `Train` returns a `nil` error it has made at least
`n + 1` sample applications (`n` the sample count), the last of which left the
network it returns, and each of the last `n + 1` was judged stable. If moreover
the corrections these `n + 1` applications left in the units are all zero,
then they changed no weight and the returned weights are a fixed point:
applying any sample of the training set once more (bias in front) ends without
error, leaves zero corrections and the same weights, and gives in every unit
whose learning rate is not zero an output equal to the expected output (as
64-bit values). -/
theorem train_success_fixed_point (fuel : Nat) (p p1 : Perceptron) (data : List Sample)
    (ws : WeightInitStrategy) (rnd : RandSource)
    (hret : p.Train fuel data ws rnd = some (p1, Exit.ret none))
    (hzero : ∀ q ∈ lastN (data.length + 1) (p.TrainTrace fuel data ws rnd),
      q.zeroCorrections = true) :
    data.length + 1 ≤ (p.TrainTrace fuel data ws rnd).length ∧
    (p.TrainTrace fuel data ws rnd).getLast? = some p1 ∧
    (∀ q ∈ lastN (data.length + 1) (p.TrainTrace fuel data ws rnd),
      q.stable = true ∧ q.units.map neuron.w = p1.units.map neuron.w) ∧
    ∀ sample ∈ data, ∃ q, p1.applySample sample = (q, Exit.ret none) ∧
      q.zeroCorrections = true ∧ q.units.map neuron.w = p1.units.map neuron.w ∧
      ∀ u ∈ q.units, u.r.isZero = false → u.y % 2 ^ 64 = sample.Z % 2 ^ 64 := by
  obtain ⟨s0, hs0, hi0, hh0, hloop⟩ := Train_loopStart fuel p p1 data ws rnd hret
  have htrace : p.TrainTrace fuel data ws rnd = (trainPasses data fuel s0).map Prod.snd := by
    unfold Perceptron.TrainTrace
    rw [hs0]
  rw [htrace] at hzero ⊢
  obtain ⟨hlen, pw, cw, c1, hcw, hchain⟩ :=
    trainLoop_window data fuel s0 [] p1 (by omega) (by omega) (by rw [hh0]; simp)
      (by rw [hi0]; omega)
      ⟨s0.p, s0.i, by rw [hi0]; omega, by rw [hh0, Int.toNat_zero, lastN_zero]; exact ⟨rfl, rfl⟩⟩
      hloop
  rw [List.nil_append] at hlen hchain
  generalize trainPasses data fuel s0 = T at hlen hchain hzero ⊢
  have hmap : lastN (data.length + 1) (T.map Prod.snd)
      = (lastN (data.length + 1) T).map Prod.snd := by
    unfold lastN
    rw [List.map_drop, List.length_map]
  rw [hmap] at hzero ⊢
  have hWlen : (lastN (data.length + 1) T).length = data.length + 1 := lastN_length _ _ hlen
  generalize hW : lastN (data.length + 1) T = W at hchain hzero hWlen ⊢
  have hzW : ∀ e ∈ W, e.2.zeroCorrections = true :=
    fun e he => hzero e.2 (List.mem_map_of_mem _ he)
  obtain ⟨hf1, hall, hsteps⟩ := chain_zero data W pw p1 cw c1 hchain hzW
  have hstab := chain_stable data W pw p1 cw c1 hchain
  refine ⟨by rw [List.length_map]; exact hlen, ?_, ?_, ?_⟩
  · have hlast := chain_last data W pw p1 cw c1 hchain (by
      intro h0; rw [h0] at hWlen; simp at hWlen)
    rw [← hW] at hlast
    unfold lastN at hlast
    rw [List.map_drop, List.getLast?_drop, if_neg (by rw [List.length_map]; omega)] at hlast
    exact hlast
  · intro q hq
    obtain ⟨e, he, heq⟩ := List.mem_map.1 hq
    subst heq
    exact ⟨hstab e he, forget_weights _ _ ((hall e he).trans hf1.symm)⟩
  · intro sample hsample
    obtain ⟨m, hm⟩ := List.getElem?_of_mem hsample
    have hmlt : m < data.length := by
      by_contra hge
      rw [List.getElem?_eq_none (by omega)] at hm
      cases hm
    have hidx : ∀ t, t ≤ data.length → 0 ≤ (wrapIter t cw).tmod data.length := by
      intro t ht
      obtain ⟨_, _, _, h, _, _⟩ := hsteps t (by omega)
      exact h
    obtain ⟨t, ht, hres⟩ := indices_covered data.length (by omega) cw hcw hidx m hmlt
    obtain ⟨q, smp, hq, _, hsmp, happ⟩ := hsteps t (by omega)
    rw [hres, hm] at hsmp
    injection hsmp with hsmp
    subst hsmp
    have happ1 := applySample_forget pw p1 q sample hf1.symm happ
    obtain ⟨e, he, heq⟩ := List.mem_map.1 hq
    have hzq : q.zeroCorrections = true := by rw [← heq]; exact hzW e he
    have hfq : forget q = forget p1 := by rw [← heq]; exact (hall e he).trans hf1.symm
    refine ⟨q, happ1, hzq, forget_weights _ _ hfq, ?_⟩
    intro u hu hr
    obtain ⟨huz, hud⟩ := applySample_units p1 q sample happ1 u hu
    have hdz : u.d.isZero = true := by
      have := hzq
      unfold Perceptron.zeroCorrections at this
      rw [List.all_eq_true] at this
      exact this u hu
    rw [hud] at hdz
    have herr := mul_ofInt_zero u.r u.error hr hdz
    unfold neuron.error toInt uintSub at herr
    rw [← huz]
    split at herr <;> omega

set_option maxRecDepth 1000000 in
theorem nand_last_corrections :
    (lastN (train_data.length + 1)
      ((New 1 1 testFn learningRate 1).TrainTrace 36 train_data ZeroWeightInit
        (fun _ => F32.zero))).all (fun q => q.zeroCorrections) = true := by
  rfl

/-- Witness of C2 as amended: the NAND run of the test ends after five sample
applications with zero corrections, so its weights are a fixed point. -/
theorem train_success_fixed_point_witness :
    (New 1 1 testFn learningRate 1).Train 36 train_data ZeroWeightInit (fun _ => F32.zero)
      = some (nandTrained, Exit.ret none) ∧
    ∀ sample ∈ train_data, ∃ q, nandTrained.applySample sample = (q, Exit.ret none) ∧
      q.zeroCorrections = true ∧ q.units.map neuron.w = nandTrained.units.map neuron.w ∧
      ∀ u ∈ q.units, u.r.isZero = false → u.y % 2 ^ 64 = sample.Z % 2 ^ 64 :=
  ⟨nand_trained _,
    (train_success_fixed_point 36 (New 1 1 testFn learningRate 1) nandTrained train_data
      ZeroWeightInit (fun _ => F32.zero) (nand_trained _)
      (fun q hq => List.all_eq_true.1 nand_last_corrections q hq)).2.2.2⟩


/-! ## C14: `initWeights` -/

/-- C14: `initWeights(ZeroWeightInit)` ends normally, touches nothing but the
weight vector, and makes it a vector of zeros as long as the input vector,
whatever the weights were before; a second call in a row changes nothing. -/
theorem initWeights_zero (n : neuron) (rnd rnd2 : RandSource) :
    (n.initWeights ZeroWeightInit rnd).1 = { n with w := List.replicate n.x.length F32.zero } ∧
    (n.initWeights ZeroWeightInit rnd).2.2 = Exit.ret none ∧
    (n.initWeights ZeroWeightInit rnd).1.w.length = n.x.length ∧
    (∀ v ∈ (n.initWeights ZeroWeightInit rnd).1.w, v = F32.zero) ∧
    ((n.initWeights ZeroWeightInit rnd).1.initWeights ZeroWeightInit rnd2).1
      = (n.initWeights ZeroWeightInit rnd).1 := by
  refine ⟨rfl, rfl, ?_, ?_, rfl⟩
  · show (List.replicate n.x.length F32.zero).length = n.x.length
    exact List.length_replicate _ _
  · intro v hv
    exact List.eq_of_mem_replicate hv

/-! ## C19: `Process` and the state of the network -/

/-- What `Process` does to the network: nothing when there is no unit, else it
gives the first unit the input and answers with the output of that unit. -/
theorem Process_cases (p : Perceptron) (input : List Nat) :
    (p.units = [] ∧ p.Process input = (p, (0, some Error.errCouldNotProcess))) ∨
    (∃ u others ls1, p.units = u :: others ∧
      p.Process input = ({ p with layers := ls1 }, neuron.process { u with x := input }) ∧
      (ls1.map layer.neurons).flatten = { u with x := input } :: others) := by
  cases hu : p.units with
  | nil =>
    have hnone := processLayers_none input p.layers hu
    refine Or.inl ⟨rfl, ?_⟩
    unfold Perceptron.Process
    rw [hnone]
  | cons u others =>
    obtain ⟨ls1, h1, h2⟩ := processLayers_first input p.layers u others hu
    refine Or.inr ⟨u, others, ls1, rfl, ?_, h2⟩
    unfold Perceptron.Process
    rw [h1]

/-- C19: `Process`, whatever it returns, keeps the bias, the verbose flag and
the shape of the network and leaves every unit as it was, except that the
first unit (in layer-then-unit order) has the input as its input vector: its
weights, learning rate, activation function, expected output, last output and
last correction are unchanged. A second call with the same input returns the
same pair. -/
theorem process_frame (p : Perceptron) (input : List Nat) :
    (p.Process input).1.bias = p.bias ∧ (p.Process input).1.verbose = p.verbose ∧
    (p.Process input).1.units
      = (match p.units with
        | [] => []
        | u :: others => { u with x := input } :: others) ∧
    ((p.Process input).1.Process input).2 = (p.Process input).2 := by
  rcases Process_cases p input with ⟨hu, hP⟩ | ⟨u, others, ls1, hu, hP, h2⟩
  · rw [hP, hu]
    refine ⟨rfl, rfl, rfl, ?_⟩
    show (p.Process input).2 = (0, some Error.errCouldNotProcess)
    rw [hP]
  · rw [hP, hu]
    refine ⟨rfl, rfl, h2, ?_⟩
    rcases Process_cases { p with layers := ls1 } input with ⟨hu2, _⟩ | ⟨u2, o2, ls2, hu2, hP2, _⟩
    · have h3 : (ls1.map layer.neurons).flatten = [] := hu2
      rw [h2] at h3
      cases h3
    · have h3 : (ls1.map layer.neurons).flatten = u2 :: o2 := hu2
      rw [h2] at h3
      injection h3 with h4 _
      show (Perceptron.Process { p with layers := ls1 } input).2
        = neuron.process { u with x := input }
      rw [hP2, ← h4]

/-! ## C15: what `stable` tests -/

theorem stableNeurons_iff (ns : List neuron) :
    stableNeurons ns = true ↔ ∀ u ∈ ns, F32.gt u.d F32.zero = false := by
  induction ns with
  | nil => simp [stableNeurons]
  | cons n ns ih =>
    unfold stableNeurons
    by_cases hg : F32.gt n.d F32.zero = true
    · rw [if_pos hg]
      simp [hg]
    · rw [if_neg hg, ih]
      simp [hg]

/-- What `stable` decides: no unit has a correction greater than zero. -/
theorem stable_iff (p : Perceptron) :
    p.stable = true ↔ ∀ u ∈ p.units, F32.gt u.d F32.zero = false := by
  unfold Perceptron.stable Perceptron.units
  induction p.layers with
  | nil => simp [stableLayers]
  | cons ly ls ih =>
    unfold stableLayers
    by_cases hs : stableNeurons ly.neurons = true
    · rw [if_pos hs, ih]
      simp only [List.map_cons, List.flatten_cons, List.mem_append]
      constructor
      · intro h u hu
        rcases hu with hu | hu
        · exact (stableNeurons_iff _).1 hs u hu
        · exact h u hu
      · intro h u hu
        exact h u (Or.inr hu)
    · rw [if_neg hs]
      simp only [List.map_cons, List.flatten_cons, List.mem_append]
      constructor
      · intro h
        cases h
      · intro h
        exact absurd ((stableNeurons_iff _).2 (fun u hu => h u (Or.inl hu))) hs

set_option maxRecDepth 1000000 in
/-- C15, the code at a failing input: in the NAND run of the test the eighth
sample application leaves the correction `-0.1` in the unit, which is not
zero, and `stable` answers `true` for that network. -/
theorem stable_after_negative_correction :
    Option.map (fun q => (q.units.map neuron.d, q.zeroCorrections, q.stable))
      (((New 1 1 testFn learningRate 1).TrainTrace 8 train_data ZeroWeightInit
        (fun _ => F32.zero)).getLast?)
    = some ([F32.neg learningRate], false, true) := by
  rfl


/-! ## The passes of the training loop, one by one -/

theorem loopAfter_succ (data : List Sample) (k : Nat) (s : LoopState) :
    loopAfter data (k + 1) s =
      match loopAfter data k s with
      | none => none
      | some sk =>
        match loopPass data sk with
        | Pass.again s1 => some s1
        | Pass.leave _ _ => none := by
  induction k generalizing s with
  | zero =>
    show (match loopPass data s with
      | Pass.again s1 => loopAfter data 0 s1
      | Pass.leave _ _ => none) = _
    simp only [loopAfter]
  | succ k ih =>
    show (match loopPass data s with
      | Pass.again s1 => loopAfter data (k + 1) s1
      | Pass.leave _ _ => none) = _
    cases hp : loopPass data s with
    | again s1 =>
      simp only
      rw [ih s1]
      show _ = match (match loopPass data s with
        | Pass.again s1 => loopAfter data k s1
        | Pass.leave _ _ => none) with
        | none => none
        | some sk => _
      rw [hp]
    | leave p ex =>
      simp only
      show none = match (match loopPass data s with
        | Pass.again s1 => loopAfter data k s1
        | Pass.leave _ _ => none) with
        | none => none
        | some sk => _
      rw [hp]

theorem loopAfter_again (data : List Sample) (k : Nat) (s sk s1 : LoopState)
    (hk : loopAfter data k s = some sk) (hp : loopPass data sk = Pass.again s1) :
    loopAfter data (k + 1) s = some s1 := by
  rw [loopAfter_succ, hk]
  simp only
  rw [hp]

theorem loopAfter_prev (data : List Sample) (k : Nat) (s s1 : LoopState)
    (hk : loopAfter data (k + 1) s = some s1) :
    ∃ sk, loopAfter data k s = some sk ∧ loopPass data sk = Pass.again s1 := by
  rw [loopAfter_succ] at hk
  cases h : loopAfter data k s with
  | none => rw [h] at hk; cases hk
  | some sk =>
    rw [h] at hk
    simp only at hk
    cases hp : loopPass data sk with
    | again s2 =>
      rw [hp] at hk
      simp only [Option.some.injEq] at hk
      subst hk
      exact ⟨sk, rfl, hp⟩
    | leave p ex =>
      rw [hp] at hk
      cases hk

theorem loopAfter_le (data : List Sample) (k j : Nat) (s sk : LoopState) (hj : j ≤ k)
    (hk : loopAfter data k s = some sk) : ∃ sj, loopAfter data j s = some sj := by
  induction k generalizing sk with
  | zero =>
    have : j = 0 := by omega
    subst this
    exact ⟨sk, hk⟩
  | succ k ih =>
    by_cases hjk : j = k + 1
    · subst hjk
      exact ⟨sk, hk⟩
    · obtain ⟨s2, h2, _⟩ := loopAfter_prev data k s sk hk
      exact ih s2 (by omega) h2

/-- The loop is still running after `fuel` passes exactly when `fuel` passes
went round again. -/
theorem trainLoop_none_iff (data : List Sample) (fuel : Nat) (s : LoopState) :
    trainLoop data fuel s = none ↔ ∃ sk, loopAfter data fuel s = some sk := by
  induction fuel generalizing s with
  | zero => simp [trainLoop, loopAfter]
  | succ f ih =>
    unfold trainLoop loopAfter
    cases loopPass data s with
    | again s1 => exact ih s1
    | leave p ex => simp

/-- The loop leaves within `fuel` passes exactly when some pass, after passes
that all went round again, leaves. -/
theorem trainLoop_some_iff (data : List Sample) (fuel : Nat) (s : LoopState)
    (r : Perceptron × Exit) :
    trainLoop data fuel s = some r ↔
      ∃ k sk, k < fuel ∧ loopAfter data k s = some sk ∧ loopPass data sk = Pass.leave r.1 r.2 := by
  induction fuel generalizing s with
  | zero => simp [trainLoop]
  | succ f ih =>
    unfold trainLoop
    cases hp : loopPass data s with
    | again s1 =>
      simp only
      rw [ih s1]
      constructor
      · rintro ⟨k, sk, hk, h1, h2⟩
        refine ⟨k + 1, sk, by omega, ?_, h2⟩
        show (match loopPass data s with
          | Pass.again s1 => loopAfter data k s1
          | Pass.leave _ _ => none) = some sk
        rw [hp]
        exact h1
      · rintro ⟨k, sk, hk, h1, h2⟩
        cases k with
        | zero =>
          simp only [loopAfter, Option.some.injEq] at h1
          subst h1
          rw [hp] at h2
          cases h2
        | succ k =>
          refine ⟨k, sk, by omega, ?_, h2⟩
          have h3 : (match loopPass data s with
            | Pass.again s1 => loopAfter data k s1
            | Pass.leave _ _ => none) = some sk := h1
          rw [hp] at h3
          exact h3
    | leave p ex =>
      simp only [Option.some.injEq]
      constructor
      · intro h
        refine ⟨0, s, by omega, rfl, ?_⟩
        rw [hp, ← h]
      · rintro ⟨k, sk, hk, h1, h2⟩
        cases k with
        | zero =>
          simp only [loopAfter, Option.some.injEq] at h1
          subst h1
          rw [hp] at h2
          injection h2 with h3 h4
          rw [h3, h4]
        | succ k =>
          have h3 : (match loopPass data s with
            | Pass.again s1 => loopAfter data k s1
            | Pass.leave _ _ => none) = some sk := h1
          rw [hp] at h3
          cases h3

/-- The first `k` passes of a run that is still going on after them, and the
pass that follows. -/
theorem trainPasses_snoc (data : List Sample) (k : Nat) (s sk : LoopState)
    (hk : loopAfter data k s = some sk) :
    (trainPasses data k s).length = k ∧
    trainPasses data (k + 1) s = trainPasses data k s ++ [(sk.i, (loopPass data sk).net)] := by
  induction k generalizing s with
  | zero =>
    simp only [loopAfter, Option.some.injEq] at hk
    subst hk
    refine ⟨rfl, ?_⟩
    unfold trainPasses
    cases loopPass data s <;> rfl
  | succ k ih =>
    have h1 : (match loopPass data s with
      | Pass.again s1 => loopAfter data k s1
      | Pass.leave _ _ => none) = some sk := hk
    cases hp : loopPass data s with
    | leave p ex => rw [hp] at h1; cases h1
    | again s1 =>
      rw [hp] at h1
      obtain ⟨hlen, hsn⟩ := ih s1 h1
      have e1 : trainPasses data (k + 1) s = (s.i, s1.p) :: trainPasses data k s1 := by
        show (match loopPass data s with
          | Pass.leave p _ => [(s.i, p)]
          | Pass.again s1 => (s.i, s1.p) :: trainPasses data k s1) = _
        rw [hp]
      have e2 : trainPasses data (k + 1 + 1) s = (s.i, s1.p) :: trainPasses data (k + 1) s1 := by
        show (match loopPass data s with
          | Pass.leave p _ => [(s.i, p)]
          | Pass.again s1 => (s.i, s1.p) :: trainPasses data (k + 1) s1) = _
        rw [hp]
      refine ⟨by rw [e1, List.length_cons, hlen], ?_⟩
      rw [e2, e1, hsn, List.cons_append]

/-- A pass ends with the network it started with (when its index panics) or
with what a sample application of a sample of the set makes of it. -/
theorem loopPass_net (data : List Sample) (s : LoopState) :
    (loopPass data s).net = s.p ∨
    ∃ smp, smp ∈ data ∧ (loopPass data s).net = (s.p.applySample smp).1 := by
  unfold loopPass
  simp only
  by_cases hidx : Int.tmod s.i data.length < 0
  · rw [if_pos hidx]
    exact Or.inl rfl
  · rw [if_neg hidx]
    cases hs : data[(Int.tmod s.i data.length).toNat]? with
    | none => exact Or.inl rfl
    | some smp =>
      refine Or.inr ⟨smp, List.getElem?_mem hs, ?_⟩
      simp only
      cases ha : s.p.applySample smp with
      | mk q ex =>
        cases ex with
        | panic => rfl
        | ret e =>
          cases e with
          | some err => rfl
          | none =>
            simp only
            split
            · split <;> rfl
            · rfl


/-! ## What a run of `Train` keeps -/

theorem updateFrom_frame (todo i : Nat) (n : neuron) :
    (neuron.updateFrom todo i n).1.w.length = n.w.length ∧
    (neuron.updateFrom todo i n).1.x = n.x := by
  induction todo generalizing i n with
  | zero => exact ⟨rfl, rfl⟩
  | succ t ih =>
    unfold neuron.updateFrom
    cases hnw : n.newWeight i with
    | none => exact ⟨rfl, rfl⟩
    | some r =>
      cases r with
      | mk wv err =>
        cases err with
        | some e => exact ⟨rfl, rfl⟩
        | none =>
          simp only
          split
          · obtain ⟨h1, h2⟩ := ih (i + 1) { n with w := n.w.set i wv }
            exact ⟨h1.trans (List.length_set _ _ _), h2⟩
          · exact ih (i + 1) n

/-- A sample application on a unit, however it ends, keeps the length of the
weight vector and leaves the presented vector as input vector. -/
theorem trainUnit_frame (x : List Nat) (z : Nat) (n : neuron) :
    (trainUnit x z n).1.w.length = n.w.length ∧ (trainUnit x z n).1.x = x := by
  unfold trainUnit neuron.train
  cases hp : neuron.process { n with x := x, z := z } with
  | mk out err =>
    cases err with
    | some e => exact ⟨rfl, rfl⟩
    | none =>
      simp only
      unfold neuron.updateWeights
      exact updateFrom_frame _ _ _

theorem trainNeurons_forall (Q : neuron → Prop) (x : List Nat) (z : Nat)
    (hQ : ∀ n, Q n → Q (trainUnit x z n).1) (ns : List neuron) (h : ∀ u ∈ ns, Q u) :
    ∀ u ∈ (trainNeurons x z ns).1, Q u := by
  induction ns with
  | nil => simp [trainNeurons]
  | cons n ns ih =>
    have hn := hQ n (h n (List.mem_cons_self _ _))
    have hrest := ih (fun u hu => h u (List.mem_cons_of_mem _ hu))
    unfold trainNeurons
    cases hu : trainUnit x z n with
    | mk n2 ex =>
      rw [hu] at hn
      cases hr : trainNeurons x z ns with
      | mk ns1 ex1 =>
        rw [hr] at hrest
        have hcont : ∀ u ∈ n2 :: ns1, Q u := by
          intro u hu1
          simp only [List.mem_cons] at hu1
          rcases hu1 with hu1 | hu1
          · rw [hu1]; exact hn
          · exact hrest u hu1
        have hstop : ∀ u ∈ n2 :: ns, Q u := by
          intro u hu1
          simp only [List.mem_cons] at hu1
          rcases hu1 with hu1 | hu1
          · rw [hu1]; exact hn
          · exact h u (List.mem_cons_of_mem _ hu1)
        cases ex with
        | panic => exact hstop
        | ret e =>
          cases e with
          | some err => exact hstop
          | none => exact hcont

theorem trainLayers_forall (Q : neuron → Prop) (x : List Nat) (z : Nat)
    (hQ : ∀ n, Q n → Q (trainUnit x z n).1) (ls : List layer)
    (h : ∀ u ∈ (ls.map layer.neurons).flatten, Q u) :
    ∀ u ∈ ((trainLayers x z ls).1.map layer.neurons).flatten, Q u := by
  induction ls with
  | nil => simp [trainLayers]
  | cons ly ls ih =>
    simp only [List.map_cons, List.flatten_cons, List.mem_append] at h
    have hn := trainNeurons_forall Q x z hQ ly.neurons (fun u hu => h u (Or.inl hu))
    have hrest := ih (fun u hu => h u (Or.inr hu))
    unfold trainLayers
    cases hu : trainNeurons x z ly.neurons with
    | mk ns1 ex =>
      rw [hu] at hn
      cases hr : trainLayers x z ls with
      | mk ls1 ex1 =>
        rw [hr] at hrest
        have hcont : ∀ u ∈ (List.map layer.neurons ({ neurons := ns1 } :: ls1)).flatten, Q u := by
          intro u hu1
          simp only [List.map_cons, List.flatten_cons, List.mem_append] at hu1
          rcases hu1 with hu1 | hu1
          · exact hn u hu1
          · exact hrest u hu1
        have hstop : ∀ u ∈ (List.map layer.neurons ({ neurons := ns1 } :: ls)).flatten, Q u := by
          intro u hu1
          simp only [List.map_cons, List.flatten_cons, List.mem_append] at hu1
          rcases hu1 with hu1 | hu1
          · exact hn u hu1
          · exact h u (Or.inr hu1)
        cases ex with
        | panic => exact hstop
        | ret e =>
          cases e with
          | some err => exact hstop
          | none => exact hcont

/-- A property of units that one sample application on a unit keeps is kept
by a sample application on the network, however it ends. -/
theorem applySample_forall (Q : neuron → Prop) (p : Perceptron) (smp : Sample)
    (hQ : ∀ n, Q n → Q (trainUnit (p.bias :: smp.X) smp.Z n).1) (h : ∀ u ∈ p.units, Q u) :
    ∀ u ∈ (p.applySample smp).1.units, Q u := by
  have := trainLayers_forall Q (p.bias :: smp.X) smp.Z hQ p.layers h
  unfold Perceptron.applySample
  cases ht : trainLayers (p.bias :: smp.X) smp.Z p.layers with
  | mk ls ex =>
    rw [ht] at this
    exact this

theorem applySample_bias (p : Perceptron) (smp : Sample) :
    (p.applySample smp).1.bias = p.bias := by
  unfold Perceptron.applySample
  cases trainLayers (p.bias :: smp.X) smp.Z p.layers
  rfl

/-- A property of networks that every sample application of a sample of the
set keeps holds at the end of every pass of the loop and of the network the
loop leaves. -/
theorem trainLoop_forall (R : Perceptron → Prop) (data : List Sample)
    (hR : ∀ q smp, smp ∈ data → R q → R (q.applySample smp).1) (fuel : Nat) (s : LoopState)
    (hs : R s.p) :
    (∀ e ∈ trainPasses data fuel s, R e.2) ∧
    (∀ p1 ex, trainLoop data fuel s = some (p1, ex) → R p1) := by
  induction fuel generalizing s with
  | zero => simp [trainPasses, trainLoop]
  | succ f ih =>
    have hnet : R (loopPass data s).net := by
      rcases loopPass_net data s with h | ⟨smp, hsmp, h⟩
      · rw [h]; exact hs
      · rw [h]; exact hR _ _ hsmp hs
    unfold trainPasses trainLoop
    cases hp : loopPass data s with
    | again s1 =>
      rw [hp] at hnet
      obtain ⟨h1, h2⟩ := ih s1 hnet
      refine ⟨?_, h2⟩
      intro e he
      simp only [List.mem_cons] at he
      rcases he with he | he
      · rw [he]; exact hnet
      · exact h1 e he
    | leave p ex =>
      rw [hp] at hnet
      refine ⟨?_, ?_⟩
      · intro e he
        simp only [List.mem_singleton] at he
        rw [he]; exact hnet
      · intro p1 ex1 h
        simp only [Option.some.injEq, Prod.mk.injEq] at h
        rw [← h.1]; exact hnet

/-! ## The allocation loop of `Train` -/

theorem initNeurons_zero (m : Nat) (v : Bool) (ns : List neuron) (rnd : RandSource) :
    initNeurons m ZeroWeightInit v ns rnd = (ns.map (zeroInitN m v), rnd, Exit.ret none) := by
  induction ns with
  | nil => rfl
  | cons n ns ih =>
    unfold initNeurons
    have h1 : neuron.initWeights { n with x := List.replicate (m + 1) 0 } ZeroWeightInit rnd
        = ({ n with x := List.replicate (m + 1) 0,
                    w := List.replicate (List.replicate (m + 1) 0).length F32.zero },
           rnd, Exit.ret none) := rfl
    rw [h1]
    simp only
    rw [ih]
    simp only [List.length_replicate, List.map_cons, zeroInitN]

theorem initLayers_zero (m : Nat) (v : Bool) (ls : List layer) (rnd : RandSource) :
    initLayers m ZeroWeightInit v ls rnd = (ls.map (zeroInitL m v), rnd, Exit.ret none) := by
  induction ls with
  | nil => rfl
  | cons ly ls ih =>
    unfold initLayers
    rw [initNeurons_zero]
    simp only
    rw [ih]
    simp only [List.map_cons, zeroInitL]

/-- The loop variables with which `Train` with `ZeroWeightInit` enters its loop. -/
theorem loopStart_zero (p : Perceptron) (first : Sample) (rest : List Sample)
    (rnd : RandSource) (hm : first.X.length ≠ 0) :
    p.loopStart (first :: rest) ZeroWeightInit rnd = some (zeroStart p first.X.length) := by
  unfold Perceptron.loopStart
  simp only
  rw [if_neg hm, initLayers_zero]
  rfl

/-- How `Train` relates to its loop. -/
theorem Train_eq_loop (fuel : Nat) (p : Perceptron) (data : List Sample)
    (ws : WeightInitStrategy) (rnd : RandSource) (s0 : LoopState)
    (hs : p.loopStart data ws rnd = some s0) :
    p.Train fuel data ws rnd = trainLoop data fuel s0 := by
  unfold Perceptron.loopStart at hs
  unfold Perceptron.Train
  cases data with
  | nil => simp at hs
  | cons first rest =>
    simp only at hs ⊢
    by_cases hm : first.X.length = 0
    · rw [if_pos hm] at hs
      cases hs
    · rw [if_neg hm] at hs ⊢
      rcases hinit : initLayers first.X.length ws p.verbose p.layers rnd with ⟨ls, rnd1, ex⟩
      rw [hinit] at hs
      cases ex with
      | panic => simp at hs
      | ret e =>
        cases e with
        | some err => simp at hs
        | none =>
          simp only [Option.some.injEq] at hs
          rw [← hs]


/-! ## C12, C11: the lengths of the vectors -/

theorem units_zeroInit (m : Nat) (v : Bool) (ls : List layer) :
    ((ls.map (zeroInitL m v)).map layer.neurons).flatten
      = ((ls.map layer.neurons).flatten).map (zeroInitN m v) := by
  induction ls with
  | nil => rfl
  | cons ly ls ih =>
    simp only [List.map_cons, List.flatten_cons, List.map_append]
    rw [ih]
    rfl

/-- C12: for a sample list whose first sample has `m > 0` features, `Train`
with `ZeroWeightInit` enters its loop with a weight vector of length `m + 1` in
every unit; that is the length of every weight vector at the end of every pass
of the loop, and in the network `Train` leaves, however the call ends. -/
theorem weight_length_fixed (fuel : Nat) (p : Perceptron) (first : Sample)
    (rest : List Sample) (rnd : RandSource) (hm : 0 < first.X.length) :
    (∃ s0, p.loopStart (first :: rest) ZeroWeightInit rnd = some s0 ∧
      ∀ u ∈ s0.p.units, u.w.length = first.X.length + 1) ∧
    (∀ q ∈ p.TrainTrace fuel (first :: rest) ZeroWeightInit rnd,
      ∀ u ∈ q.units, u.w.length = first.X.length + 1) ∧
    (∀ p1 ex, p.Train fuel (first :: rest) ZeroWeightInit rnd = some (p1, ex) →
      ∀ u ∈ p1.units, u.w.length = first.X.length + 1) := by
  have hs := loopStart_zero p first rest rnd (by omega)
  generalize hs0 : zeroStart p first.X.length = s0 at hs
  have h0 : ∀ u ∈ s0.p.units, u.w.length = first.X.length + 1 := by
    intro u hu
    rw [← hs0] at hu
    have hu2 : u ∈ ((p.layers.map (zeroInitL first.X.length p.verbose)).map
        layer.neurons).flatten := hu
    rw [units_zeroInit] at hu2
    obtain ⟨n, _, hn⟩ := List.mem_map.1 hu2
    rw [← hn]
    exact List.length_replicate _ _
  have hloop := trainLoop_forall (fun q => ∀ u ∈ q.units, u.w.length = first.X.length + 1)
    (first :: rest)
    (fun q smp _ hq => applySample_forall (fun u => u.w.length = first.X.length + 1) q smp
      (fun n hn => (trainUnit_frame _ _ n).1.trans hn) hq)
    fuel s0 h0
  refine ⟨⟨s0, hs, h0⟩, ?_, ?_⟩
  · intro q hq
    unfold Perceptron.TrainTrace at hq
    rw [hs] at hq
    obtain ⟨e, he, heq⟩ := List.mem_map.1 hq
    rw [← heq]
    exact hloop.1 e he
  · intro p1 ex h
    rw [Train_eq_loop fuel p _ _ rnd s0 hs] at h
    exact hloop.2 p1 ex h

/-- Witness of C12: the NAND samples have two features. -/
theorem weight_length_fixed_witness :
    0 < ({ X := [0, 0], Z := 1 } : Sample).X.length ∧
    ∀ p1 ex, (New 1 1 testFn learningRate 1).Train 36
        ({ X := [0, 0], Z := 1 } :: train_data.tail) ZeroWeightInit (fun _ => F32.zero)
        = some (p1, ex) →
      ∀ u ∈ p1.units, u.w.length = 2 + 1 :=
  ⟨by decide,
    (weight_length_fixed 36 (New 1 1 testFn learningRate 1) { X := [0, 0], Z := 1 }
      train_data.tail (fun _ => F32.zero) (by decide)).2.2⟩

theorem initWeights_lengths (n : neuron) (ws : WeightInitStrategy) (rnd : RandSource)
    (hx : n.x.length ≠ 0) :
    (n.initWeights ws rnd).1.x = n.x ∧ (n.initWeights ws rnd).1.w.length = n.x.length := by
  unfold neuron.initWeights
  simp only
  by_cases h0 : ws = ZeroWeightInit
  · rw [if_pos h0]
    exact ⟨rfl, List.length_replicate _ _⟩
  · rw [if_neg h0]
    by_cases h1 : ws = RandomWeightInit
    · rw [if_pos h1]
      refine ⟨rfl, ?_⟩
      simp
    · rw [if_neg h1, if_neg hx]
      exact ⟨rfl, List.length_replicate _ _⟩

theorem initNeurons_lengths (m : Nat) (ws : WeightInitStrategy) (v : Bool) (ns : List neuron)
    (rnd : RandSource) :
    (∀ u ∈ (initNeurons m ws v ns rnd).1,
      (u.w.length = m + 1 ∧ u.x.length = m + 1) ∨ u ∈ ns) ∧
    ((initNeurons m ws v ns rnd).2.2 = Exit.ret none →
      ∀ u ∈ (initNeurons m ws v ns rnd).1, u.w.length = m + 1 ∧ u.x.length = m + 1) := by
  induction ns generalizing rnd with
  | nil => simp [initNeurons]
  | cons n ns ih =>
    have hlen := initWeights_lengths { n with x := List.replicate (m + 1) 0 } ws rnd
      (by simp)
    unfold initNeurons
    rcases hi : neuron.initWeights { n with x := List.replicate (m + 1) 0 } ws rnd
      with ⟨n1, rnd1, ex⟩
    rw [hi] at hlen
    have hn1 : n1.w.length = m + 1 ∧ n1.x.length = m + 1 := by
      obtain ⟨h1, h2⟩ := hlen
      simp only at h1 h2
      rw [h1]
      simp only [List.length_replicate] at h2 ⊢
      exact ⟨h2, trivial⟩
    have hstop : (∀ u ∈ n1 :: ns, (u.w.length = m + 1 ∧ u.x.length = m + 1) ∨ u ∈ n :: ns) := by
      intro u hu
      simp only [List.mem_cons] at hu
      rcases hu with hu | hu
      · rw [hu]; exact Or.inl hn1
      · exact Or.inr (List.mem_cons_of_mem _ hu)
    cases ex with
    | panic => exact ⟨hstop, fun h => by cases h⟩
    | ret e =>
      cases e with
      | some err => exact ⟨hstop, fun h => by cases h⟩
      | none =>
        simp only
        obtain ⟨ih1, ih2⟩ := ih rnd1
        rcases hr : initNeurons m ws v ns rnd1 with ⟨ns1, rnd2, ex1⟩
        rw [hr] at ih1 ih2
        simp only at ih1 ih2 ⊢
        constructor
        · intro u hu
          simp only [List.mem_cons] at hu
          rcases hu with hu | hu
          · rw [hu]; exact Or.inl hn1
          · rcases ih1 u hu with h | h
            · exact Or.inl h
            · exact Or.inr (List.mem_cons_of_mem _ h)
        · intro hex u hu
          simp only [List.mem_cons] at hu
          rcases hu with hu | hu
          · rw [hu]; exact hn1
          · exact ih2 hex u hu

theorem initLayers_lengths (m : Nat) (ws : WeightInitStrategy) (v : Bool) (ls : List layer)
    (rnd : RandSource) :
    (∀ u ∈ ((initLayers m ws v ls rnd).1.map layer.neurons).flatten,
      (u.w.length = m + 1 ∧ u.x.length = m + 1) ∨ u ∈ (ls.map layer.neurons).flatten) ∧
    ((initLayers m ws v ls rnd).2.2 = Exit.ret none →
      ∀ u ∈ ((initLayers m ws v ls rnd).1.map layer.neurons).flatten,
        u.w.length = m + 1 ∧ u.x.length = m + 1) := by
  induction ls generalizing rnd with
  | nil => simp [initLayers]
  | cons ly ls ih =>
    obtain ⟨hn1, hn2⟩ := initNeurons_lengths m ws v ly.neurons rnd
    unfold initLayers
    rcases hi : initNeurons m ws v ly.neurons rnd with ⟨ns1, rnd1, ex⟩
    rw [hi] at hn1 hn2
    simp only at hn1 hn2
    have hstop : ∀ u ∈ (List.map layer.neurons ({ neurons := ns1 } :: ls)).flatten,
        (u.w.length = m + 1 ∧ u.x.length = m + 1) ∨
          u ∈ (List.map layer.neurons (ly :: ls)).flatten := by
      intro u hu
      simp only [List.map_cons, List.flatten_cons, List.mem_append] at hu ⊢
      rcases hu with hu | hu
      · rcases hn1 u hu with h | h
        · exact Or.inl h
        · exact Or.inr (Or.inl h)
      · exact Or.inr (Or.inr hu)
    cases ex with
    | panic => exact ⟨hstop, fun h => by cases h⟩
    | ret e =>
      cases e with
      | some err => exact ⟨hstop, fun h => by cases h⟩
      | none =>
        simp only
        obtain ⟨ih1, ih2⟩ := ih rnd1
        rcases hr : initLayers m ws v ls rnd1 with ⟨ls1, rnd2, ex1⟩
        rw [hr] at ih1 ih2
        simp only at ih1 ih2 ⊢
        constructor
        · intro u hu
          simp only [List.map_cons, List.flatten_cons, List.mem_append] at hu ⊢
          rcases hu with hu | hu
          · exact Or.inl (hn2 rfl u hu)
          · rcases ih1 u hu with h | h
            · exact Or.inl h
            · exact Or.inr (Or.inr h)
        · intro hex u hu
          simp only [List.map_cons, List.flatten_cons, List.mem_append] at hu
          rcases hu with hu | hu
          · exact hn2 rfl u hu
          · exact ih2 hex u hu


set_option maxRecDepth 100000 in
/-- Counterexample to C11: the network the NAND run of the test leaves has
been initialized by `Train`; after `Process` on the one-entry input `[1]` its
unit has a weight vector of length 3 and an input vector of length 1. -/
theorem process_breaks_lengths :
    (nandTrained.Process [1]).1.units.map (fun u => (u.w.length, u.x.length)) = [(3, 1)] := by
  rfl

/-- C11 as amended: on a network whose units all have weight and input vectors
of equal length, `Train` on a sample list whose samples all have the same
number of features keeps that property at the end of every pass of its loop
and in the network it leaves, however the call ends; `Process` keeps it when
the input is as long as the weight vector of the first unit. In general
`Process` changes no weight-vector length: it makes the presented vector the
input vector of the first unit, whatever its length. -/
theorem lengths_agree_preserved (p : Perceptron)
    (hp : ∀ u ∈ p.units, u.w.length = u.x.length) :
    (∀ fuel data ws rnd, (∀ s ∈ data, ∀ t ∈ data, s.X.length = t.X.length) →
      (∀ q ∈ p.TrainTrace fuel data ws rnd, ∀ u ∈ q.units, u.w.length = u.x.length) ∧
      (∀ p1 ex, p.Train fuel data ws rnd = some (p1, ex) →
        ∀ u ∈ p1.units, u.w.length = u.x.length)) ∧
    (∀ input, (∀ u others, p.units = u :: others → input.length = u.w.length) →
      ∀ u ∈ (p.Process input).1.units, u.w.length = u.x.length) ∧
    (∀ input, (p.Process input).1.units.map (fun u => u.w.length)
      = p.units.map (fun u => u.w.length)) := by
  refine ⟨?_, ?_, ?_⟩
  · intro fuel data ws rnd huni
    cases data with
    | nil =>
      refine ⟨?_, ?_⟩
      · intro q hq
        simp [Perceptron.TrainTrace, Perceptron.loopStart] at hq
      · intro p1 ex h
        simp only [Perceptron.Train, Option.some.injEq, Prod.mk.injEq] at h
        rw [← h.1]
        exact hp
    | cons first rest =>
      by_cases hm : first.X.length = 0
      · refine ⟨?_, ?_⟩
        · intro q hq
          simp [Perceptron.TrainTrace, Perceptron.loopStart, hm] at hq
        · intro p1 ex h
          simp only [Perceptron.Train, hm, if_true, Option.some.injEq, Prod.mk.injEq] at h
          rw [← h.1]
          exact hp
      · obtain ⟨hi1, hi2⟩ := initLayers_lengths first.X.length ws p.verbose p.layers rnd
        rcases hinit : initLayers first.X.length ws p.verbose p.layers rnd with ⟨ls, rnd1, ex0⟩
        rw [hinit] at hi1 hi2
        simp only at hi1 hi2
        have hloop : ∀ s0 : LoopState,
            (∀ u ∈ s0.p.units, u.w.length = first.X.length + 1 ∧
              u.x.length = first.X.length + 1) → s0.p.bias = p.bias →
            (∀ e ∈ trainPasses (first :: rest) fuel s0,
              ∀ u ∈ e.2.units, u.w.length = u.x.length) ∧
            (∀ p1 ex, trainLoop (first :: rest) fuel s0 = some (p1, ex) →
              ∀ u ∈ p1.units, u.w.length = u.x.length) := by
          intro s0 h0 hb
          have := trainLoop_forall
            (fun q => ∀ u ∈ q.units, u.w.length = first.X.length + 1 ∧
              u.x.length = first.X.length + 1)
            (first :: rest)
            (fun q smp hsmp hq => applySample_forall
              (fun u => u.w.length = first.X.length + 1 ∧ u.x.length = first.X.length + 1)
              q smp
              (fun n hn => by
                obtain ⟨h1, h2⟩ := trainUnit_frame (q.bias :: smp.X) smp.Z n
                refine ⟨h1.trans hn.1, ?_⟩
                rw [h2, List.length_cons, huni smp hsmp first (List.mem_cons_self _ _)])
              hq)
            fuel s0 h0
          exact ⟨fun e he u hu => by
              obtain ⟨h1, h2⟩ := this.1 e he u hu
              rw [h1, h2],
            fun p1 ex h u hu => by
              obtain ⟨h1, h2⟩ := this.2 p1 ex h u hu
              rw [h1, h2]⟩
        cases ex0 with
        | panic =>
          refine ⟨?_, ?_⟩
          · intro q hq
            simp [Perceptron.TrainTrace, Perceptron.loopStart, hm, hinit] at hq
          · intro p1 ex h
            simp only [Perceptron.Train, hm, if_false, hinit, Option.some.injEq,
              Prod.mk.injEq] at h
            rw [← h.1]
            intro u hu
            rcases hi1 u hu with h1 | h1
            · rw [h1.1, h1.2]
            · exact hp u h1
        | ret e0 =>
          cases e0 with
          | some err =>
            refine ⟨?_, ?_⟩
            · intro q hq
              simp [Perceptron.TrainTrace, Perceptron.loopStart, hm, hinit] at hq
            · intro p1 ex h
              simp only [Perceptron.Train, hm, if_false, hinit, Option.some.injEq,
                Prod.mk.injEq] at h
              rw [← h.1]
              intro u hu
              rcases hi1 u hu with h1 | h1
              · rw [h1.1, h1.2]
              · exact hp u h1
          | none =>
            have hs : p.loopStart (first :: rest) ws rnd
                = some { p := { p with layers := ls }, i := 0, howMuchStablesInARow := 0 } := by
              simp [Perceptron.loopStart, hm, hinit]
            obtain ⟨hl1, hl2⟩ := hloop
              { p := { p with layers := ls }, i := 0, howMuchStablesInARow := 0 }
              (hi2 rfl) rfl
            refine ⟨?_, ?_⟩
            · intro q hq
              unfold Perceptron.TrainTrace at hq
              rw [hs] at hq
              obtain ⟨e, he, heq⟩ := List.mem_map.1 hq
              rw [← heq]
              exact hl1 e he
            · intro p1 ex h
              rw [Train_eq_loop fuel p _ ws rnd _ hs] at h
              exact hl2 p1 ex h
  · intro input hin
    rcases Process_cases p input with ⟨hu, hP⟩ | ⟨u, others, ls1, hu, hP, h2⟩
    · rw [hP]
      exact hp
    · rw [hP]
      intro v hv
      have hv2 : v ∈ ({ u with x := input } : neuron) :: others := by
        rw [← h2]; exact hv
      simp only [List.mem_cons] at hv2
      rcases hv2 with hv2 | hv2
      · rw [hv2]
        exact (hin u others hu).symm
      · exact hp v (by rw [hu]; exact List.mem_cons_of_mem _ hv2)
  · intro input
    rcases Process_cases p input with ⟨hu, hP⟩ | ⟨u, others, ls1, hu, hP, h2⟩
    · rw [hP]
    · rw [hP, hu]
      show ((ls1.map layer.neurons).flatten).map (fun u => u.w.length) = _
      rw [h2]
      rfl

/-- Witness of C11 as amended: the network the NAND run of the test leaves. -/
theorem lengths_agree_preserved_witness :
    nandTrained.units.map (fun u => (u.w.length, u.x.length)) = [(3, 3)] ∧
    ∀ u ∈ (nandTrained.Process [1, 0, 1]).1.units, u.w.length = u.x.length :=
  ⟨rfl,
    (lengths_agree_preserved nandTrained (by
      intro u hu
      have hu2 : u ∈ [nandTrainedUnit] := hu
      simp only [List.mem_singleton] at hu2
      rw [hu2]
      rfl)).2.1 [1, 0, 1] (by
      intro u others hu
      have hu2 : [nandTrainedUnit] = u :: others := hu
      injection hu2 with h1 _
      rw [← h1]
      rfl)⟩


/-! ## C16: the streak of stable passes -/

theorem trailingStable_snoc (l : List Perceptron) (q : Perceptron) :
    trailingStable (l ++ [q]) = if q.stable = true then trailingStable l + 1 else 0 := by
  unfold trailingStable
  rw [List.reverse_append, List.reverse_singleton, List.singleton_append, List.takeWhile_cons]
  by_cases h : q.stable = true
  · simp only [h, if_true, List.length_cons]
  · simp only [h, if_false, List.length_nil]
    rfl

theorem trailingStable_le (l : List Perceptron) : trailingStable l ≤ l.length := by
  unfold trailingStable
  have := (List.takeWhile_sublist (fun q : Perceptron => q.stable) (l := l.reverse)).length_le
  rw [List.length_reverse] at this
  exact this

theorem wrapIter_small (k : Nat) (hk : k < 2 ^ 63) : wrapIter k 0 = (k : Int) := by
  induction k with
  | zero => rfl
  | succ k ih =>
    rw [wrapIter_succ, ih (by omega)]
    unfold wrapInt
    push_cast
    omega

theorem loopStart_vars (p : Perceptron) (data : List Sample) (ws : WeightInitStrategy)
    (rnd : RandSource) (s0 : LoopState) (hs : p.loopStart data ws rnd = some s0) :
    s0.i = 0 ∧ s0.howMuchStablesInARow = 0 := by
  unfold Perceptron.loopStart at hs
  cases data with
  | nil => simp at hs
  | cons first rest =>
    simp only at hs
    by_cases hm : first.X.length = 0
    · rw [if_pos hm] at hs
      cases hs
    · rw [if_neg hm] at hs
      rcases hinit : initLayers first.X.length ws p.verbose p.layers rnd with ⟨ls, rnd1, ex⟩
      rw [hinit] at hs
      cases ex with
      | panic => simp at hs
      | ret e =>
        cases e with
        | some err => simp at hs
        | none =>
          simp only [Option.some.injEq] at hs
          rw [← hs]
          exact ⟨rfl, rfl⟩

/-- Once a pass has left the loop, more fuel adds no pass. -/
theorem trainPasses_done (data : List Sample) (k : Nat) (s sk : LoopState) (p1 : Perceptron)
    (ex : Exit) (hk : loopAfter data k s = some sk) (hp : loopPass data sk = Pass.leave p1 ex)
    (fuel : Nat) (hf : k < fuel) :
    trainPasses data fuel s = trainPasses data (k + 1) s := by
  induction k generalizing s fuel with
  | zero =>
    simp only [loopAfter, Option.some.injEq] at hk
    subst hk
    cases fuel with
    | zero => omega
    | succ f =>
      unfold trainPasses
      rw [hp]
  | succ k ih =>
    have h1 : (match loopPass data s with
      | Pass.again s1 => loopAfter data k s1
      | Pass.leave _ _ => none) = some sk := hk
    cases hq : loopPass data s with
    | leave p ex => rw [hq] at h1; cases h1
    | again s1 =>
      rw [hq] at h1
      cases fuel with
      | zero => omega
      | succ f =>
        have e1 : trainPasses data (f + 1) s = (s.i, s1.p) :: trainPasses data f s1 := by
          show (match loopPass data s with
            | Pass.leave p _ => [(s.i, p)]
            | Pass.again s1 => (s.i, s1.p) :: trainPasses data f s1) = _
          rw [hq]
        have e2 : trainPasses data (k + 1 + 1) s = (s.i, s1.p) :: trainPasses data (k + 1) s1 := by
          show (match loopPass data s with
            | Pass.leave p _ => [(s.i, p)]
            | Pass.again s1 => (s.i, s1.p) :: trainPasses data (k + 1) s1) = _
          rw [hq]
        rw [e1, e2, ih s1 h1 f (by omega)]

/-- The first `j` passes of a run are the run with fuel `j`. -/
theorem trainPasses_take (data : List Sample) (fuel j : Nat) (s : LoopState) (hj : j ≤ fuel) :
    (trainPasses data fuel s).take j = trainPasses data j s := by
  induction fuel generalizing s j with
  | zero =>
    have : j = 0 := by omega
    subst this
    rfl
  | succ f ih =>
    cases j with
    | zero => simp [trainPasses]
    | succ j =>
      unfold trainPasses
      cases loopPass data s with
      | again s1 =>
        simp only [List.take_succ_cons]
        rw [ih j s1 (by omega)]
      | leave p ex =>
        simp only [List.take_succ_cons, List.take_nil]

/-- The loop variables after `k` passes that went round again: the counter has
been incremented `k` times and the streak is the run of stable passes the
trajectory ends with, which is at most the number of samples. -/
theorem loopAfter_vars (data : List Sample) (k : Nat) (s0 sk : LoopState)
    (h0 : s0.i = 0 ∧ s0.howMuchStablesInARow = 0) (hk : loopAfter data k s0 = some sk) :
    sk.i = wrapIter k 0 ∧
    sk.howMuchStablesInARow = (trailingStable ((trainPasses data k s0).map Prod.snd) : Int) ∧
    trailingStable ((trainPasses data k s0).map Prod.snd) ≤ data.length := by
  induction k generalizing sk with
  | zero =>
    simp only [loopAfter, Option.some.injEq] at hk
    subst hk
    refine ⟨h0.1, ?_, ?_⟩
    · rw [h0.2]; rfl
    · exact Nat.zero_le _
  | succ k ih =>
    obtain ⟨sj, hj, hp⟩ := loopAfter_prev data k s0 sk hk
    obtain ⟨hi, hst, hle⟩ := ih sj hj
    obtain ⟨_, hsn⟩ := trainPasses_snoc data k s0 sj hj
    rw [hsn, hp, List.map_append, List.map_singleton, trailingStable_snoc]
    show sk.i = _ ∧ sk.howMuchStablesInARow = ((if sk.p.stable = true then _ else 0 : Nat) : Int) ∧
      (if sk.p.stable = true then _ else 0) ≤ data.length
    rcases loopPass_cases data sj with ⟨q, ex, hne, hl⟩ | ⟨smp, q, hidx, hsmp, happ, hl⟩
    · rw [hl] at hp
      cases hp
    · rw [hp] at hl
      by_cases hq : q.stable = true
      · rw [if_pos hq] at hl
        by_cases hgt : sj.howMuchStablesInARow + 1 > data.length
        · rw [if_pos hgt] at hl
          cases hl
        · rw [if_neg hgt] at hl
          injection hl with hl
          subst hl
          simp only
          rw [wrapIter_succ, hi]
          refine ⟨rfl, ?_, ?_⟩
          · rw [hst]
            simp [hq]
          · rw [hst] at hgt
            simp only [hq, if_true]
            omega
      · rw [if_neg hq] at hl
        injection hl with hl
        subst hl
        simp only
        rw [wrapIter_succ, hi]
        refine ⟨rfl, ?_, ?_⟩
        · simp [hq]
        · simp [hq]


/-- A pass leaves `Train` with a `nil` error exactly when its sample
application gives no error, the network is judged stable and the streak
thereby exceeds the number of samples. -/
theorem loopPass_leave_ok (data : List Sample) (s : LoopState) (p1 : Perceptron) :
    loopPass data s = Pass.leave p1 (Exit.ret none) ↔
      ∃ smp, 0 ≤ Int.tmod s.i data.length ∧
        data[(Int.tmod s.i data.length).toNat]? = some smp ∧
        s.p.applySample smp = (p1, Exit.ret none) ∧ p1.stable = true ∧
        s.howMuchStablesInARow + 1 > data.length := by
  constructor
  · intro hp
    rcases loopPass_cases data s with ⟨q, ex, hne, hl⟩ | ⟨smp, q, hidx, hsmp, happ, hl⟩
    · rw [hl] at hp
      injection hp with h1 h2
      exact absurd h2 hne
    · rw [hp] at hl
      by_cases hq : q.stable = true
      · rw [if_pos hq] at hl
        by_cases hgt : s.howMuchStablesInARow + 1 > data.length
        · rw [if_pos hgt] at hl
          injection hl with h1 h2
          subst h1
          exact ⟨smp, hidx, hsmp, happ, hq, hgt⟩
        · rw [if_neg hgt] at hl
          cases hl
      · rw [if_neg hq] at hl
        cases hl
  · rintro ⟨smp, hidx, hsmp, happ, hq, hgt⟩
    unfold loopPass
    simp only
    rw [if_neg (by omega), hsmp]
    simp only
    rw [happ]
    simp only
    rw [if_pos hq, if_pos hgt]

/-- A pass that goes round again has applied the sample its counter selects
without error, and the network was judged not stable or the streak does not
yet exceed the number of samples. -/
theorem loopPass_again_ok (data : List Sample) (s s1 : LoopState)
    (hp : loopPass data s = Pass.again s1) :
    ∃ smp, 0 ≤ Int.tmod s.i data.length ∧
      data[(Int.tmod s.i data.length).toNat]? = some smp ∧
      s.p.applySample smp = (s1.p, Exit.ret none) ∧
      (s1.p.stable = false ∨ s.howMuchStablesInARow + 1 ≤ data.length) := by
  rcases loopPass_cases data s with ⟨q, ex, hne, hl⟩ | ⟨smp, q, hidx, hsmp, happ, hl⟩
  · rw [hl] at hp
    cases hp
  · rw [hp] at hl
    by_cases hq : q.stable = true
    · rw [if_pos hq] at hl
      by_cases hgt : s.howMuchStablesInARow + 1 > data.length
      · rw [if_pos hgt] at hl
        cases hl
      · rw [if_neg hgt] at hl
        injection hl with hl
        subst hl
        exact ⟨smp, hidx, hsmp, happ, Or.inr (by omega)⟩
    · rw [if_neg hq] at hl
      injection hl with hl
      subst hl
      exact ⟨smp, hidx, hsmp, happ, Or.inl (by simpa using hq)⟩

/-- C16: the streak threshold. In a call of `Train` that enters its loop on
`n` samples, after any number `k` of passes that went round again the streak
variable is the length of the run of stable networks the trajectory ends with
(so a pass judged not stable puts it to 0) and is at most `n`; pass `k` applies
the sample at the index its counter selects, which is `k mod n` for
`k < 2^63`; it leaves with success exactly when that application gives no
error, its network is judged stable and the `n` passes before it were judged
stable. So a call that returns success has made at least `n + 1` passes, its
trajectory ends with a run of exactly `n + 1` stable networks, and no proper
prefix of the trajectory ends with a run of more than `n`. -/
theorem streak_threshold (p : Perceptron) (data : List Sample) (ws : WeightInitStrategy)
    (rnd : RandSource) (s0 : LoopState) (hs : p.loopStart data ws rnd = some s0) :
    (∀ k sk, loopAfter data k s0 = some sk →
      sk.i = wrapIter k 0 ∧
      sk.howMuchStablesInARow = (trailingStable (p.TrainTrace k data ws rnd) : Int) ∧
      trailingStable (p.TrainTrace k data ws rnd) ≤ data.length ∧
      (∀ s1, loopPass data sk = Pass.again s1 →
        ∃ smp, 0 ≤ Int.tmod (wrapIter k 0) data.length ∧
          data[(Int.tmod (wrapIter k 0) data.length).toNat]? = some smp ∧
          sk.p.applySample smp = (s1.p, Exit.ret none) ∧
          (s1.p.stable = false ∨ trailingStable (p.TrainTrace k data ws rnd) < data.length)) ∧
      (∀ p1, loopPass data sk = Pass.leave p1 (Exit.ret none) ↔
        ∃ smp, 0 ≤ Int.tmod (wrapIter k 0) data.length ∧
          data[(Int.tmod (wrapIter k 0) data.length).toNat]? = some smp ∧
          sk.p.applySample smp = (p1, Exit.ret none) ∧ p1.stable = true ∧
          trailingStable (p.TrainTrace k data ws rnd) = data.length)) ∧
    (∀ k, k < 2 ^ 63 →
      Int.tmod (wrapIter k 0) data.length = ((k % data.length : Nat) : Int)) ∧
    (∀ fuel p1, p.Train fuel data ws rnd = some (p1, Exit.ret none) ↔
      ∃ k sk, k < fuel ∧ loopAfter data k s0 = some sk ∧
        loopPass data sk = Pass.leave p1 (Exit.ret none)) ∧
    (∀ fuel p1, p.Train fuel data ws rnd = some (p1, Exit.ret none) →
      data.length + 1 ≤ (p.TrainTrace fuel data ws rnd).length ∧
      (p.TrainTrace fuel data ws rnd).length ≤ fuel ∧
      (p.TrainTrace fuel data ws rnd).getLast? = some p1 ∧
      trailingStable (p.TrainTrace fuel data ws rnd) = data.length + 1 ∧
      ∀ j, j < (p.TrainTrace fuel data ws rnd).length →
        trailingStable ((p.TrainTrace fuel data ws rnd).take j) ≤ data.length) := by
  have hT : ∀ k, p.TrainTrace k data ws rnd = (trainPasses data k s0).map Prod.snd := by
    intro k
    unfold Perceptron.TrainTrace
    rw [hs]
  have h0 := loopStart_vars p data ws rnd s0 hs
  refine ⟨?_, ?_, ?_, ?_⟩
  · intro k sk hk
    obtain ⟨hi, hst, hle⟩ := loopAfter_vars data k s0 sk h0 hk
    rw [hT k, ← hi]
    refine ⟨rfl, hst, hle, ?_, ?_⟩
    · intro s1 hp
      obtain ⟨smp, hidx, hsmp, happ, hor⟩ := loopPass_again_ok data sk s1 hp
      refine ⟨smp, hidx, hsmp, happ, ?_⟩
      rcases hor with hor | hor
      · exact Or.inl hor
      · exact Or.inr (by rw [hst] at hor; omega)
    · intro p1
      rw [loopPass_leave_ok]
      constructor
      · rintro ⟨smp, hidx, hsmp, happ, hq, hgt⟩
        exact ⟨smp, hidx, hsmp, happ, hq, by rw [hst] at hgt; omega⟩
      · rintro ⟨smp, hidx, hsmp, happ, hq, hn⟩
        exact ⟨smp, hidx, hsmp, happ, hq, by rw [hst, hn]; omega⟩
  · intro k hk
    rw [wrapIter_small k hk]
    exact (Int.ofNat_tmod k data.length).symm
  · intro fuel p1
    rw [Train_eq_loop fuel p data ws rnd s0 hs]
    exact trainLoop_some_iff data fuel s0 (p1, Exit.ret none)
  · intro fuel p1 h
    rw [Train_eq_loop fuel p data ws rnd s0 hs] at h
    obtain ⟨k, sk, hkf, hk, hp⟩ := (trainLoop_some_iff data fuel s0 (p1, Exit.ret none)).1 h
    obtain ⟨hi, hst, hle⟩ := loopAfter_vars data k s0 sk h0 hk
    obtain ⟨smp, hidx, hsmp, happ, hq, hgt⟩ := (loopPass_leave_ok data sk p1).1 hp
    obtain ⟨hlen, hsn⟩ := trainPasses_snoc data k s0 sk hk
    have hdone := trainPasses_done data k s0 sk p1 (Exit.ret none) hk hp fuel hkf
    have hnet : (loopPass data sk).net = p1 := by rw [hp]; rfl
    have hTf : p.TrainTrace fuel data ws rnd
        = (trainPasses data k s0).map Prod.snd ++ [p1] := by
      rw [hT fuel, hdone, hsn, hnet, List.map_append, List.map_singleton]
    have hn : trailingStable ((trainPasses data k s0).map Prod.snd) = data.length := by
      rw [hst] at hgt
      omega
    have hlen2 : ((trainPasses data k s0).map Prod.snd).length = k := by
      rw [List.length_map, hlen]
    have hkn := trailingStable_le ((trainPasses data k s0).map Prod.snd)
    rw [hlen2, hn] at hkn
    refine ⟨?_, ?_, ?_, ?_, ?_⟩
    · rw [hTf, List.length_append, hlen2, List.length_singleton]
      omega
    · rw [hTf, List.length_append, hlen2, List.length_singleton]
      omega
    · rw [hTf]
      simp
    · rw [hTf, trailingStable_snoc, if_pos hq, hn]
    · intro j hj
      rw [hTf, List.length_append, hlen2, List.length_singleton] at hj
      rw [hT fuel, ← List.map_take, trainPasses_take data fuel j s0 (by omega)]
      obtain ⟨sj, hsj⟩ := loopAfter_le data k j s0 sk (by omega) hk
      exact (loopAfter_vars data j s0 sj h0 hsj).2.2

/-- Witness of C16: the NAND run of the test makes at least five passes. -/
theorem streak_threshold_witness :
    train_data.length + 1 ≤ ((New 1 1 testFn learningRate 1).TrainTrace 36 train_data
      ZeroWeightInit (fun _ => F32.zero)).length :=
  ((streak_threshold (New 1 1 testFn learningRate 1) train_data ZeroWeightInit
    (fun _ => F32.zero) (zeroStart (New 1 1 testFn learningRate 1) 2)
    (loopStart_zero (New 1 1 testFn learningRate 1) { X := [0, 0], Z := 1 } train_data.tail
      (fun _ => F32.zero) (by decide))).2.2.2 36 nandTrained
    (nand_trained (fun _ => F32.zero))).1


/-! ## Units that agree in what a sample application reads -/

theorem newWeight_congr (n m : neuron) (i : Nat) (hx : n.x = m.x) (hw : n.w = m.w)
    (hd : n.d = m.d) : n.newWeight i = m.newWeight i := by
  unfold neuron.newWeight
  rw [hx, hw, hd]

/-- The loop of `updateWeights` reads the input vector, the weights and the
correction only. -/
theorem updateFrom_congr (todo i : Nat) (n m : neuron) (hx : n.x = m.x) (hw : n.w = m.w)
    (hd : n.d = m.d) :
    (neuron.updateFrom todo i n).1.w = (neuron.updateFrom todo i m).1.w ∧
    (neuron.updateFrom todo i n).2 = (neuron.updateFrom todo i m).2 := by
  induction todo generalizing i n m with
  | zero => exact ⟨hw, rfl⟩
  | succ t ih =>
    unfold neuron.updateFrom
    rw [newWeight_congr n m i hx hw hd]
    cases hnw : m.newWeight i with
    | none => exact ⟨hw, rfl⟩
    | some r =>
      cases r with
      | mk wv err =>
        cases err with
        | some e => exact ⟨hw, rfl⟩
        | none =>
          simp only
          rw [hw]
          by_cases hc : F32.ne (m.w.getD i F32.zero) wv = true
          · rw [if_pos hc, if_pos hc]
            exact ih (i + 1) _ _ hx rfl hd
          · rw [if_neg hc, if_neg hc]
            exact ih (i + 1) n m hx hw hd

/-- A sample application on a unit never panics: it ends normally when the
presented vector is not longer than the weight vector, and with
`errOutOfBounds` and the weights untouched when it is. -/
theorem trainUnit_total (x : List Nat) (z : Nat) (n : neuron) :
    (x.length ≤ n.w.length ∧ ∃ n2, trainUnit x z n = (n2, Exit.ret none) ∧ n2.x = x ∧ n2.z = z ∧
      n2.fn = n.fn ∧ n2.r = n.r ∧ n2.w.length = n.w.length ∧
      n2.y = n.fn (weightedSum x n.w) ∧
      n2.d = F32.mul n.r (F32.ofInt (toInt (uintSub z (n.fn (weightedSum x n.w)))))) ∨
    (n.w.length < x.length ∧
      trainUnit x z n = ({ n with x := x, z := z, y := 0 }, Exit.ret (some Error.errOutOfBounds))) := by
  by_cases hlen : x.length ≤ n.w.length
  · left
    refine ⟨hlen, ?_⟩
    have hp := process_short_or_equal { n with x := x, z := z } hlen
    obtain ⟨n3, h3, hx3, hz3, hb3, hfn3, hr3, hy3, hv3, hlen3, hd3, _⟩ :=
      updateWeights_ok { n with x := x, z := z, y := n.fn (weightedSum x n.w) } hlen
    refine ⟨n3, ?_, hx3, hz3, hfn3, hr3, hlen3, hy3, hd3⟩
    unfold trainUnit neuron.train
    rw [hp]
    exact h3
  · right
    refine ⟨by omega, ?_⟩
    have hp := process_long { n with x := x, z := z } (by show n.w.length < x.length; omega)
    unfold trainUnit neuron.train
    rw [hp]

/-- Two units with the same weights, activation function and learning rate
answer a sample application in the same way. -/
theorem trainUnit_conf (x : List Nat) (z : Nat) (n m : neuron) (hw : n.w = m.w)
    (hfn : n.fn = m.fn) (hr : n.r = m.r) :
    (trainUnit x z n).2 = (trainUnit x z m).2 ∧
    (trainUnit x z n).1.w = (trainUnit x z m).1.w ∧
    (trainUnit x z n).1.fn = n.fn ∧ (trainUnit x z n).1.r = n.r ∧
    ((trainUnit x z n).2 = Exit.ret none →
      (trainUnit x z n).1.y = (trainUnit x z m).1.y ∧
      (trainUnit x z n).1.d = (trainUnit x z m).1.d) ∧
    ((trainUnit x z n).2 ≠ Exit.ret none → (trainUnit x z n).1.w = n.w) := by
  rcases trainUnit_total x z n with ⟨hlen, n2, hn2, _, _, hfn2, hr2, _, hy2, hd2⟩ | ⟨hlen, hn2⟩
  · rcases trainUnit_total x z m with ⟨_, m2, hm2, _, _, _, _, _, hym, hdm⟩ | ⟨hlen2, _⟩
    · have hwe : (trainUnit x z n).1.w = (trainUnit x z m).1.w := by
        have hpn := process_short_or_equal { n with x := x, z := z } hlen
        have hpm := process_short_or_equal { m with x := x, z := z }
          (by show x.length ≤ m.w.length; rw [← hw]; exact hlen)
        unfold trainUnit neuron.train
        rw [hpn, hpm]
        simp only
        unfold neuron.updateWeights
        have key : ∀ a b : neuron, a.x = b.x → a.w = b.w → a.d = b.d →
            (neuron.updateFrom x.length 0 a).1.w = (neuron.updateFrom x.length 0 b).1.w :=
          fun a b h1 h2 h3 => (updateFrom_congr _ _ a b h1 h2 h3).1
        apply key
        · rfl
        · exact hw
        · show F32.mul n.r (F32.ofInt (toInt (uintSub z (n.fn (weightedSum x n.w)))))
            = F32.mul m.r (F32.ofInt (toInt (uintSub z (m.fn (weightedSum x m.w)))))
          rw [hr, hfn, hw]
      rw [hn2, hm2] at hwe ⊢
      refine ⟨rfl, hwe, hfn2, hr2, ?_, ?_⟩
      · intro _
        refine ⟨?_, ?_⟩
        · show n2.y = m2.y
          rw [hy2, hym, hfn, hw]
        · show n2.d = m2.d
          rw [hd2, hdm, hr, hfn, hw]
      · intro h
        exact absurd rfl h
    · rw [hw] at hlen
      omega
  · rcases trainUnit_total x z m with ⟨hlen2, _⟩ | ⟨_, hm2⟩
    · rw [hw] at hlen
      omega
    · rw [hn2, hm2]
      refine ⟨rfl, hw, rfl, rfl, ?_, ?_⟩
      · intro h
        cases h
      · intro _
        rfl


/-! ## The training loop on the units in layer-then-unit order -/

theorem trainNeurons_cons_ok (x : List Nat) (z : Nat) (n n2 : neuron) (ns : List neuron)
    (hu : trainUnit x z n = (n2, Exit.ret none)) :
    trainNeurons x z (n :: ns) = (n2 :: (trainNeurons x z ns).1, (trainNeurons x z ns).2) := by
  show (match trainUnit x z n with
    | (n2, Exit.ret none) =>
      match trainNeurons x z ns with
      | (ns1, ex) => (n2 :: ns1, ex)
    | (n2, ex) => (n2 :: ns, ex)) = _
  rw [hu]

theorem trainNeurons_cons_fail (x : List Nat) (z : Nat) (n n2 : neuron) (ns : List neuron)
    (ex : Exit) (hu : trainUnit x z n = (n2, ex)) (hex : ex ≠ Exit.ret none) :
    trainNeurons x z (n :: ns) = (n2 :: ns, ex) := by
  show (match trainUnit x z n with
    | (n2, Exit.ret none) =>
      match trainNeurons x z ns with
      | (ns1, ex) => (n2 :: ns1, ex)
    | (n2, ex) => (n2 :: ns, ex)) = _
  rw [hu]
  cases ex with
  | panic => rfl
  | ret e =>
    cases e with
    | some err => rfl
    | none => exact absurd rfl hex

theorem trainNeurons_append (x : List Nat) (z : Nat) (as bs : List neuron) :
    ((trainNeurons x z as).2 = Exit.ret none →
      trainNeurons x z (as ++ bs)
        = ((trainNeurons x z as).1 ++ (trainNeurons x z bs).1, (trainNeurons x z bs).2)) ∧
    ((trainNeurons x z as).2 ≠ Exit.ret none →
      trainNeurons x z (as ++ bs) = ((trainNeurons x z as).1 ++ bs, (trainNeurons x z as).2)) := by
  induction as with
  | nil =>
    refine ⟨fun _ => rfl, fun h => absurd rfl h⟩
  | cons n ns ih =>
    cases hu : trainUnit x z n with
    | mk n2 ex =>
      by_cases hex : ex = Exit.ret none
      · subst hex
        rw [List.cons_append, trainNeurons_cons_ok x z n n2 _ hu,
          trainNeurons_cons_ok x z n n2 _ hu]
        refine ⟨fun h => ?_, fun h => ?_⟩
        · rw [ih.1 h]
          rfl
        · rw [ih.2 h]
          rfl
      · rw [List.cons_append, trainNeurons_cons_fail x z n n2 _ ex hu hex,
          trainNeurons_cons_fail x z n n2 _ ex hu hex]
        refine ⟨fun h => absurd h hex, fun _ => rfl⟩

/-- The training loop over the layers does to the units, taken in
layer-then-unit order, what the loop over one layer does to its units. -/
theorem trainLayers_flat (x : List Nat) (z : Nat) (ls : List layer) :
    ((trainLayers x z ls).1.map layer.neurons).flatten
      = (trainNeurons x z (ls.map layer.neurons).flatten).1 ∧
    (trainLayers x z ls).2 = (trainNeurons x z (ls.map layer.neurons).flatten).2 := by
  induction ls with
  | nil => exact ⟨rfl, rfl⟩
  | cons ly ls ih =>
    obtain ⟨happ1, happ2⟩ := trainNeurons_append x z ly.neurons (ls.map layer.neurons).flatten
    simp only [List.map_cons, List.flatten_cons]
    unfold trainLayers
    cases hn : trainNeurons x z ly.neurons with
    | mk ns1 ex =>
      rw [hn] at happ1 happ2
      cases hr : trainLayers x z ls with
      | mk ls1 ex1 =>
        rw [hr] at ih
        have hcont : ex = Exit.ret none →
            ((List.map layer.neurons ({ neurons := ns1 } :: ls1)).flatten
              = (trainNeurons x z (ly.neurons ++ (ls.map layer.neurons).flatten)).1 ∧
            ex1 = (trainNeurons x z (ly.neurons ++ (ls.map layer.neurons).flatten)).2) := by
          intro h
          rw [happ1 h]
          simp only [List.map_cons, List.flatten_cons]
          exact ⟨by rw [ih.1], ih.2⟩
        have hstop : ex ≠ Exit.ret none →
            ((List.map layer.neurons ({ neurons := ns1 } :: ls)).flatten
              = (trainNeurons x z (ly.neurons ++ (ls.map layer.neurons).flatten)).1 ∧
            ex = (trainNeurons x z (ly.neurons ++ (ls.map layer.neurons).flatten)).2) := by
          intro h
          rw [happ2 h]
          exact ⟨rfl, rfl⟩
        cases ex with
        | panic => exact hstop (by simp)
        | ret e =>
          cases e with
          | some err => exact hstop (by simp)
          | none => exact hcont rfl

/-- A sample application, seen on the units in layer-then-unit order. -/
theorem applySample_flat (p : Perceptron) (smp : Sample) :
    (p.applySample smp).1.units = (trainNeurons (p.bias :: smp.X) smp.Z p.units).1 ∧
    (p.applySample smp).2 = (trainNeurons (p.bias :: smp.X) smp.Z p.units).2 := by
  have := trainLayers_flat (p.bias :: smp.X) smp.Z p.layers
  unfold Perceptron.applySample
  cases ht : trainLayers (p.bias :: smp.X) smp.Z p.layers with
  | mk ls ex =>
    rw [ht] at this
    exact this

/-- What the training loop over a list of units with one weight vector, one
activation function and one learning rate does: what it does to a single such
unit, to every unit when that ends normally and to the first unit when not. -/
theorem trainNeurons_uniform (x : List Nat) (z : Nat) (w : List F32) (f : ActivationFunc)
    (r : F32) (ns : List neuron) (h : Uniform w f r ns) :
    (ns ≠ [] → (trainNeurons x z ns).2 = (trainUnit x z (probe w f r)).2) ∧
    Uniform (trainUnit x z (probe w f r)).1.w f r (trainNeurons x z ns).1 ∧
    (trainNeurons x z ns).1.length = ns.length ∧
    ((trainUnit x z (probe w f r)).2 = Exit.ret none →
      (trainNeurons x z ns).2 = Exit.ret none ∧
      ∀ u ∈ (trainNeurons x z ns).1,
        u.y = (trainUnit x z (probe w f r)).1.y ∧ u.d = (trainUnit x z (probe w f r)).1.d) := by
  induction ns with
  | nil =>
    refine ⟨fun h => absurd rfl h, ?_, rfl, fun _ => ⟨rfl, ?_⟩⟩
    · intro u hu
      cases hu
    · intro u hu
      cases hu
  | cons n ns ih =>
    obtain ⟨hnw, hnf, hnr⟩ := h n (List.mem_cons_self _ _)
    obtain ⟨_, ihU, ihlen, ihok⟩ := ih (fun u hu => h u (List.mem_cons_of_mem _ hu))
    obtain ⟨cex, cw, cfn, cr, cok, _⟩ := trainUnit_conf x z n (probe w f r) hnw hnf hnr
    obtain ⟨_, _, _, _, _, pfail⟩ := trainUnit_conf x z (probe w f r) (probe w f r) rfl rfl rfl
    cases hu : trainUnit x z n with
    | mk n2 ex =>
      rw [hu] at cex cw cfn cr cok
      simp only at cex cw cfn cr cok
      by_cases hex : ex = Exit.ret none
      · subst hex
        rw [trainNeurons_cons_ok x z n n2 ns hu]
        simp only
        obtain ⟨hrest, hyd⟩ := ihok cex.symm
        refine ⟨fun _ => by rw [hrest]; exact cex, ?_, by rw [List.length_cons, ihlen,
          List.length_cons], fun _ => ⟨hrest, ?_⟩⟩
        · intro u hu1
          simp only [List.mem_cons] at hu1
          rcases hu1 with hu1 | hu1
          · rw [hu1]
            exact ⟨cw, cfn.trans hnf, cr.trans hnr⟩
          · exact ihU u hu1
        · intro u hu1
          simp only [List.mem_cons] at hu1
          rcases hu1 with hu1 | hu1
          · rw [hu1]
            exact cok rfl
          · exact hyd u hu1
      · rw [trainNeurons_cons_fail x z n n2 ns ex hu hex]
        simp only
        have hpw : (trainUnit x z (probe w f r)).1.w = w := pfail (by rw [← cex]; exact hex)
        refine ⟨fun _ => cex, ?_, by rw [List.length_cons, List.length_cons], ?_⟩
        · intro u hu1
          simp only [List.mem_cons] at hu1
          rcases hu1 with hu1 | hu1
          · rw [hu1]
            exact ⟨cw, cfn.trans hnf, cr.trans hnr⟩
          · rw [hpw]
            exact h u (List.mem_cons_of_mem _ hu1)
        · intro hok
          rw [← cex] at hok
          exact absurd hok hex


/-! ## Networks in step -/

theorem applySample_length (p : Perceptron) (smp : Sample) :
    (p.applySample smp).1.units.length = p.units.length := by
  rw [(applySample_flat p smp).1]
  generalize p.units = ns
  induction ns with
  | nil => rfl
  | cons n ns ih =>
    cases hu : trainUnit (p.bias :: smp.X) smp.Z n with
    | mk n2 ex =>
      by_cases hex : ex = Exit.ret none
      · subst hex
        rw [trainNeurons_cons_ok _ _ n n2 ns hu]
        simp only [List.length_cons, ih]
      · rw [trainNeurons_cons_fail _ _ n n2 ns ex hu hex]
        rfl

/-- A sample application keeps two networks in step: it ends in the same way
on both, and when it ends normally all the units of both hold one output and
one correction. -/
theorem applySample_instep (f : ActivationFunc) (r : F32) (p q : Perceptron) (smp : Sample)
    (h : InStep f r p q) :
    (p.applySample smp).2 = (q.applySample smp).2 ∧
    InStep f r (p.applySample smp).1 (q.applySample smp).1 ∧
    ((p.applySample smp).2 = Exit.ret none →
      SameOut (p.applySample smp).1 (q.applySample smp).1) := by
  obtain ⟨hb, hemp, w, hp, hq⟩ := h
  obtain ⟨fp1, fp2⟩ := applySample_flat p smp
  obtain ⟨fq1, fq2⟩ := applySample_flat q smp
  obtain ⟨pex, pU, plen, pok⟩ := trainNeurons_uniform (p.bias :: smp.X) smp.Z w f r p.units hp
  obtain ⟨qex, qU, qlen, qok⟩ := trainNeurons_uniform (p.bias :: smp.X) smp.Z w f r q.units
    hq
  rw [← hb] at fq1 fq2
  have hbias : (p.applySample smp).1.bias = (q.applySample smp).1.bias := by
    rw [applySample_bias, applySample_bias, hb]
  have hemp1 : (p.applySample smp).1.units = [] ↔ (q.applySample smp).1.units = [] := by
    rw [← List.length_eq_zero, ← List.length_eq_zero, applySample_length, applySample_length,
      List.length_eq_zero, List.length_eq_zero]
    exact hemp
  by_cases hpe : p.units = []
  · have hqe := hemp.1 hpe
    have e1 : (p.applySample smp).2 = Exit.ret none := by rw [fp2, hpe]; rfl
    have e2 : (q.applySample smp).2 = Exit.ret none := by rw [fq2, hqe]; rfl
    have u1 : (p.applySample smp).1.units = [] := by rw [fp1, hpe]; rfl
    have u2 : (q.applySample smp).1.units = [] := by rw [fq1, hqe]; rfl
    refine ⟨by rw [e1, e2], ⟨hbias, hemp1, w, ?_, ?_⟩, fun _ => ⟨0, F32.zero, ?_, ?_⟩⟩
    · rw [u1]; intro u hu; cases hu
    · rw [u2]; intro u hu; cases hu
    · rw [u1]; intro u hu; cases hu
    · rw [u2]; intro u hu; cases hu
  · have hqe : q.units ≠ [] := fun hh => hpe (hemp.2 hh)
    refine ⟨by rw [fp2, fq2, pex hpe, qex hqe],
      ⟨hbias, hemp1, (trainUnit (p.bias :: smp.X) smp.Z (probe w f r)).1.w, ?_, ?_⟩, ?_⟩
    · rw [fp1]; exact pU
    · rw [fq1]; exact qU
    · intro hok
      rw [fp2, pex hpe] at hok
      refine ⟨(trainUnit (p.bias :: smp.X) smp.Z (probe w f r)).1.y,
        (trainUnit (p.bias :: smp.X) smp.Z (probe w f r)).1.d, ?_, ?_⟩
      · rw [fp1]; exact (pok hok).2
      · rw [fq1]; exact (qok hok).2

/-- Networks whose units all hold one correction are judged alike by `stable`. -/
theorem stable_sameOut (p q : Perceptron) (h : SameOut p q)
    (hemp : p.units = [] ↔ q.units = []) : p.stable = q.stable := by
  obtain ⟨y, d, hp, hq⟩ := h
  rw [Bool.eq_iff_iff, stable_iff, stable_iff]
  by_cases hpe : p.units = []
  · have hqe := hemp.1 hpe
    rw [hpe, hqe]
  · have hqe : q.units ≠ [] := fun hh => hpe (hemp.2 hh)
    obtain ⟨u0, hu0⟩ := List.exists_mem_of_ne_nil _ hpe
    obtain ⟨v0, hv0⟩ := List.exists_mem_of_ne_nil _ hqe
    constructor
    · intro hall v hv
      rw [(hq v hv).2, ← (hp u0 hu0).2]
      exact hall u0 hu0
    · intro hall u hu
      rw [(hp u hu).2, ← (hq v0 hv0).2]
      exact hall v0 hv0

/-- A pass whose counter selects no sample panics. -/
theorem loopPass_index_panic (data : List Sample) (s : LoopState)
    (h : Int.tmod s.i data.length < 0 ∨ data[(Int.tmod s.i data.length).toNat]? = none) :
    loopPass data s = Pass.leave s.p Exit.panic := by
  unfold loopPass
  simp only
  by_cases hidx : Int.tmod s.i data.length < 0
  · rw [if_pos hidx]
  · rw [if_neg hidx]
    rcases h with h | h
    · exact absurd h hidx
    · rw [h]

/-- A pass in terms of the result of its sample application. -/
theorem loopPass_apply (data : List Sample) (s : LoopState) (smp : Sample) (p1 : Perceptron)
    (e : Exit) (hidx : 0 ≤ Int.tmod s.i data.length)
    (hsmp : data[(Int.tmod s.i data.length).toNat]? = some smp)
    (happ : s.p.applySample smp = (p1, e)) :
    (e ≠ Exit.ret none → loopPass data s = Pass.leave p1 e) ∧
    (e = Exit.ret none → p1.stable = false →
      loopPass data s
        = Pass.again { p := p1, i := wrapInt (s.i + 1), howMuchStablesInARow := 0 }) ∧
    (e = Exit.ret none → p1.stable = true → s.howMuchStablesInARow + 1 ≤ data.length →
      loopPass data s = Pass.again
        { p := p1, i := wrapInt (s.i + 1), howMuchStablesInARow := s.howMuchStablesInARow + 1 }) ∧
    (e = Exit.ret none → p1.stable = true → s.howMuchStablesInARow + 1 > data.length →
      loopPass data s = Pass.leave p1 (Exit.ret none)) := by
  have hform : loopPass data s =
      match (p1, e) with
      | (p, Exit.ret none) =>
        if p.stable then
          if s.howMuchStablesInARow + 1 > data.length then Pass.leave p (Exit.ret none)
          else Pass.again
            { p := p, i := wrapInt (s.i + 1), howMuchStablesInARow := s.howMuchStablesInARow + 1 }
        else Pass.again { p := p, i := wrapInt (s.i + 1), howMuchStablesInARow := 0 }
      | (p, ex) => Pass.leave p ex := by
    unfold loopPass
    simp only
    rw [if_neg (by omega), hsmp]
    simp only
    rw [happ]
  rw [hform]
  refine ⟨?_, ?_, ?_, ?_⟩
  · intro he
    cases e with
    | panic => rfl
    | ret err =>
      cases err with
      | some e1 => rfl
      | none => exact absurd rfl he
  · intro he hst
    subst he
    simp only
    rw [if_neg (by rw [hst]; simp)]
  · intro he hst hle
    subst he
    simp only
    rw [if_pos hst, if_neg (by omega)]
  · intro he hst hgt
    subst he
    simp only
    rw [if_pos hst, if_pos hgt]


theorem trainLoop_again (data : List Sample) (fuel : Nat) (s s1 : LoopState)
    (hp : loopPass data s = Pass.again s1) :
    trainLoop data (fuel + 1) s = trainLoop data fuel s1 ∧
    trainPasses data (fuel + 1) s = (s.i, s1.p) :: trainPasses data fuel s1 := by
  constructor
  · show (match loopPass data s with
      | Pass.leave p ex => some (p, ex)
      | Pass.again s1 => trainLoop data fuel s1) = _
    rw [hp]
  · show (match loopPass data s with
      | Pass.leave p _ => [(s.i, p)]
      | Pass.again s1 => (s.i, s1.p) :: trainPasses data fuel s1) = _
    rw [hp]

theorem trainLoop_leave (data : List Sample) (fuel : Nat) (s : LoopState) (p : Perceptron)
    (e : Exit) (hp : loopPass data s = Pass.leave p e) :
    trainLoop data (fuel + 1) s = some (p, e) ∧
    trainPasses data (fuel + 1) s = [(s.i, p)] := by
  constructor
  · show (match loopPass data s with
      | Pass.leave p ex => some (p, ex)
      | Pass.again s1 => trainLoop data fuel s1) = _
    rw [hp]
  · show (match loopPass data s with
      | Pass.leave p _ => [(s.i, p)]
      | Pass.again s1 => (s.i, s1.p) :: trainPasses data fuel s1) = _
    rw [hp]

/-- One pass of the loop keeps two runs in step: both go round again, with
the same counter and streak, or both leave in the same way. -/
theorem loopPass_instep (f : ActivationFunc) (r : F32) (data : List Sample) (s t : LoopState)
    (hi : s.i = t.i) (hh : s.howMuchStablesInARow = t.howMuchStablesInARow)
    (h : InStep f r s.p t.p) :
    (∃ s1 t1, loopPass data s = Pass.again s1 ∧ loopPass data t = Pass.again t1 ∧
      s1.i = t1.i ∧ s1.howMuchStablesInARow = t1.howMuchStablesInARow ∧
      InStep f r s1.p t1.p ∧ SameOut s1.p t1.p) ∨
    (∃ p1 q1 e, loopPass data s = Pass.leave p1 e ∧ loopPass data t = Pass.leave q1 e ∧
      InStep f r p1 q1 ∧ (e = Exit.ret none → SameOut p1 q1)) := by
  by_cases hidx : Int.tmod s.i data.length < 0
  · have hidx2 : Int.tmod t.i data.length < 0 := by rw [← hi]; exact hidx
    exact Or.inr ⟨s.p, t.p, Exit.panic, loopPass_index_panic data s (Or.inl hidx),
      loopPass_index_panic data t (Or.inl hidx2), h, fun hc => by cases hc⟩
  · cases hsmp : data[(Int.tmod s.i data.length).toNat]? with
    | none =>
      have hsmp2 : data[(Int.tmod t.i data.length).toNat]? = none := by rw [← hi]; exact hsmp
      exact Or.inr ⟨s.p, t.p, Exit.panic, loopPass_index_panic data s (Or.inr hsmp),
        loopPass_index_panic data t (Or.inr hsmp2), h, fun hc => by cases hc⟩
    | some smp =>
      have hidx2 : 0 ≤ Int.tmod t.i data.length := by rw [← hi]; omega
      have hsmp2 : data[(Int.tmod t.i data.length).toNat]? = some smp := by
        rw [← hi]; exact hsmp
      obtain ⟨hex, hin, hout⟩ := applySample_instep f r s.p t.p smp h
      cases hps : s.p.applySample smp with
      | mk p1 e =>
        cases hpt : t.p.applySample smp with
        | mk q1 e2 =>
          rw [hps, hpt] at hex hin hout
          simp only at hex hin hout
          subst hex
          obtain ⟨a1, a2, a3, a4⟩ := loopPass_apply data s smp p1 e (by omega) hsmp hps
          obtain ⟨b1, b2, b3, b4⟩ := loopPass_apply data t smp q1 e hidx2 hsmp2 hpt
          by_cases he : e = Exit.ret none
          · have hso := hout he
            have hst := stable_sameOut p1 q1 hso hin.2.1
            cases hq : p1.stable with
            | false =>
              refine Or.inl ⟨_, _, a2 he hq, b2 he (by rw [← hst]; exact hq), ?_, rfl, hin, hso⟩
              show wrapInt (s.i + 1) = wrapInt (t.i + 1)
              rw [hi]
            | true =>
              by_cases hgt : s.howMuchStablesInARow + 1 > data.length
              · refine Or.inr ⟨p1, q1, e, ?_, ?_, hin, fun _ => hso⟩
                · rw [a4 he hq hgt, he]
                · rw [b4 he (by rw [← hst]; exact hq) (by rw [← hh]; exact hgt), he]
              · refine Or.inl ⟨_, _, a3 he hq (by omega),
                  b3 he (by rw [← hst]; exact hq) (by rw [← hh]; omega), ?_, ?_, hin, hso⟩
                · show wrapInt (s.i + 1) = wrapInt (t.i + 1)
                  rw [hi]
                · show s.howMuchStablesInARow + 1 = t.howMuchStablesInARow + 1
                  rw [hh]
          · exact Or.inr ⟨p1, q1, e, a1 he, b1 he, hin, fun hc => absurd hc he⟩

/-- Two runs of the training loop that start in step stay in step: they end in
the same way after the same number of passes, and at the end of every pass the
two networks are in step. -/
theorem trainLoop_instep (f : ActivationFunc) (r : F32) (data : List Sample) (fuel : Nat)
    (s t : LoopState) (hi : s.i = t.i)
    (hh : s.howMuchStablesInARow = t.howMuchStablesInARow) (h : InStep f r s.p t.p) :
    (trainLoop data fuel s).map Prod.snd = (trainLoop data fuel t).map Prod.snd ∧
    List.Forall₂ (fun a b => InStep f r a.2 b.2) (trainPasses data fuel s)
      (trainPasses data fuel t) ∧
    (∀ p1 q1 e1 e2, trainLoop data fuel s = some (p1, e1) →
      trainLoop data fuel t = some (q1, e2) →
      InStep f r p1 q1 ∧ (e1 = Exit.ret none → SameOut p1 q1)) ∧
    ((∀ p1 e, trainLoop data fuel s = some (p1, e) → e = Exit.ret none) →
      List.Forall₂ (fun a b => SameOut a.2 b.2) (trainPasses data fuel s)
        (trainPasses data fuel t)) := by
  induction fuel generalizing s t with
  | zero =>
    refine ⟨rfl, List.Forall₂.nil, ?_, fun _ => List.Forall₂.nil⟩
    intro p1 q1 e1 e2 h1
    cases h1
  | succ k ih =>
    rcases loopPass_instep f r data s t hi hh h with
      ⟨s1, t1, hs1, ht1, hi1, hh1, hin1, hso1⟩ | ⟨p1, q1, e, hs1, ht1, hin1, hso1⟩
    · obtain ⟨es1, es2⟩ := trainLoop_again data k s s1 hs1
      obtain ⟨et1, et2⟩ := trainLoop_again data k t t1 ht1
      obtain ⟨i1, i2, i3, i4⟩ := ih s1 t1 hi1 hh1 hin1
      rw [es1, es2, et1, et2]
      exact ⟨i1, List.Forall₂.cons hin1 i2, i3, fun hok => List.Forall₂.cons hso1 (i4 hok)⟩
    · obtain ⟨es1, es2⟩ := trainLoop_leave data k s p1 e hs1
      obtain ⟨et1, et2⟩ := trainLoop_leave data k t q1 e ht1
      rw [es1, es2, et1, et2]
      refine ⟨rfl, List.Forall₂.cons hin1 List.Forall₂.nil, ?_, ?_⟩
      · intro p2 q2 e1 e2 h1 h2
        simp only [Option.some.injEq, Prod.mk.injEq] at h1 h2
        rw [← h1.1, ← h2.1, ← h1.2]
        exact ⟨hin1, hso1⟩
      · intro hok
        exact List.Forall₂.cons (hso1 (hok p1 e rfl)) List.Forall₂.nil


/-! ## Runs of `Train` with `ZeroWeightInit` -/

theorem zeroStart_units (p : Perceptron) (m : Nat) :
    (zeroStart p m).p.units = p.units.map (zeroInitN m p.verbose) :=
  units_zeroInit m p.verbose p.layers

/-- What `Train` with `ZeroWeightInit` is on a sample list whose first sample
has features: its loop, entered with fresh vectors. -/
theorem Train_zero (fuel : Nat) (p : Perceptron) (first : Sample) (rest : List Sample)
    (rnd : RandSource) (hm : first.X.length ≠ 0) :
    p.Train fuel (first :: rest) ZeroWeightInit rnd
      = trainLoop (first :: rest) fuel (zeroStart p first.X.length) ∧
    p.TrainTrace fuel (first :: rest) ZeroWeightInit rnd
      = (trainPasses (first :: rest) fuel (zeroStart p first.X.length)).map Prod.snd := by
  have hs := loopStart_zero p first rest rnd hm
  refine ⟨Train_eq_loop fuel p _ _ rnd _ hs, ?_⟩
  unfold Perceptron.TrainTrace
  rw [hs]

/-- What `Train` is on a sample list without samples or whose first sample
has no features. -/
theorem Train_early (fuel : Nat) (p : Perceptron) (data : List Sample)
    (ws : WeightInitStrategy) (rnd : RandSource)
    (h : data = [] ∨ ∃ first rest, data = first :: rest ∧ first.X.length = 0) :
    (∃ e, p.Train fuel data ws rnd = some (p, Exit.ret (some e)) ∧
      ∀ (q : Perceptron) (rnd2 : RandSource),
        q.Train fuel data ws rnd2 = some (q, Exit.ret (some e))) ∧
    p.TrainTrace fuel data ws rnd = [] := by
  rcases h with h | ⟨first, rest, h, hm⟩
  · subst h
    exact ⟨⟨Error.errNoSamples, rfl, fun _ _ => rfl⟩, rfl⟩
  · subst h
    refine ⟨⟨Error.errNoIterationData, ?_, fun q rnd2 => ?_⟩, ?_⟩
    · simp only [Perceptron.Train, hm, if_true]
    · simp only [Perceptron.Train, hm, if_true]
    · simp only [Perceptron.TrainTrace, Perceptron.loopStart, hm, if_true]

/-- Two networks with the same bias whose units share one activation function
and one learning rate enter the loop of `Train` with `ZeroWeightInit` in step. -/
theorem zeroStart_instep (f : ActivationFunc) (r : F32) (p q : Perceptron) (m : Nat)
    (hbias : p.bias = q.bias) (hemp : p.units = [] ↔ q.units = [])
    (hp : ∀ u ∈ p.units, u.fn = f ∧ u.r = r) (hq : ∀ u ∈ q.units, u.fn = f ∧ u.r = r) :
    InStep f r (zeroStart p m).p (zeroStart q m).p := by
  refine ⟨hbias, ?_, List.replicate (m + 1) F32.zero, ?_, ?_⟩
  · rw [zeroStart_units, zeroStart_units, List.map_eq_nil_iff, List.map_eq_nil_iff]
    exact hemp
  · intro u hu
    rw [zeroStart_units] at hu
    obtain ⟨n, hn, hnu⟩ := List.mem_map.1 hu
    rw [← hnu]
    exact ⟨rfl, hp n hn⟩
  · intro u hu
    rw [zeroStart_units] at hu
    obtain ⟨n, hn, hnu⟩ := List.mem_map.1 hu
    rw [← hnu]
    exact ⟨rfl, hq n hn⟩

/-- The loop of `Train` keeps the number of units. -/
theorem trainLoop_length (data : List Sample) (fuel : Nat) (s : LoopState) :
    (∀ e ∈ trainPasses data fuel s, e.2.units.length = s.p.units.length) ∧
    (∀ p1 ex, trainLoop data fuel s = some (p1, ex) → p1.units.length = s.p.units.length) :=
  trainLoop_forall (fun q => q.units.length = s.p.units.length) data
    (fun q smp _ hq => (applySample_length q smp).trans hq) fuel s rfl

theorem uniform_weights (w : List F32) (f : ActivationFunc) (r : F32) (l : List neuron)
    (h : Uniform w f r l) : l.map neuron.w = List.replicate l.length w := by
  induction l with
  | nil => rfl
  | cons n ns ih =>
    rw [List.map_cons, List.length_cons, List.replicate_succ,
      ih (fun u hu => h u (List.mem_cons_of_mem _ hu)), (h n (List.mem_cons_self _ _)).1]

theorem units_length_shape (p : Perceptron) :
    p.units.length = (p.layers.map (fun ly => ly.neurons.length)).sum := by
  unfold Perceptron.units
  induction p.layers with
  | nil => rfl
  | cons ly ls ih =>
    simp only [List.map_cons, List.flatten_cons, List.length_append, List.sum_cons]
    rw [ih]

theorem forall₂_map_eq {α β γ : Type} (R : α → β → Prop) (P : α → Prop) (Q : β → Prop)
    (g : α → γ) (k : β → γ) (l1 : List α) (l2 : List β) (h : List.Forall₂ R l1 l2)
    (hP : ∀ a ∈ l1, P a) (hQ : ∀ b ∈ l2, Q b) (hg : ∀ a b, R a b → P a → Q b → g a = k b) :
    l1.map g = l2.map k := by
  induction h with
  | nil => rfl
  | @cons a b l1 l2 hab _ ih =>
    rw [List.map_cons, List.map_cons,
      hg a b hab (hP a (List.mem_cons_self _ _)) (hQ b (List.mem_cons_self _ _)),
      ih (fun a ha => hP a (List.mem_cons_of_mem _ ha))
        (fun b hb => hQ b (List.mem_cons_of_mem _ hb))]

theorem forall₂_imp_mem {α β : Type} (R S : α → β → Prop) (P : α → Prop) (Q : β → Prop)
    (l1 : List α) (l2 : List β) (h : List.Forall₂ R l1 l2)
    (hP : ∀ a ∈ l1, P a) (hQ : ∀ b ∈ l2, Q b) (hg : ∀ a b, R a b → P a → Q b → S a b) :
    List.Forall₂ S l1 l2 := by
  induction h with
  | nil => exact List.Forall₂.nil
  | @cons a b l1 l2 hab _ ih =>
    exact List.Forall₂.cons
      (hg a b hab (hP a (List.mem_cons_self _ _)) (hQ b (List.mem_cons_self _ _)))
      (ih (fun a ha => hP a (List.mem_cons_of_mem _ ha))
        (fun b hb => hQ b (List.mem_cons_of_mem _ hb)))


/-! ## C13: `Train` with `ZeroWeightInit` does not depend on earlier state -/

/-- C13: two networks with the same number of units in each layer, the same
bias and one activation function and one learning rate for all their units,
whatever else their units hold, behave alike under `Train` with
`ZeroWeightInit` on the same sample list: with the same fuel both calls are
still running or both have ended in the same way, the weight vectors of the
units at the end of every pass are the same, and so is the number of passes. -/
theorem zero_init_deterministic (f : ActivationFunc) (r : F32) (p q : Perceptron)
    (hshape : p.layers.map (fun ly => ly.neurons.length)
      = q.layers.map (fun ly => ly.neurons.length))
    (hbias : p.bias = q.bias)
    (hp : ∀ u ∈ p.units, u.fn = f ∧ u.r = r) (hq : ∀ u ∈ q.units, u.fn = f ∧ u.r = r)
    (fuel : Nat) (data : List Sample) (rnd rnd2 : RandSource) :
    (p.Train fuel data ZeroWeightInit rnd).map Prod.snd
      = (q.Train fuel data ZeroWeightInit rnd2).map Prod.snd ∧
    (p.TrainTrace fuel data ZeroWeightInit rnd).map (fun a => a.units.map neuron.w)
      = (q.TrainTrace fuel data ZeroWeightInit rnd2).map (fun a => a.units.map neuron.w) ∧
    (p.TrainTrace fuel data ZeroWeightInit rnd).length
      = (q.TrainTrace fuel data ZeroWeightInit rnd2).length := by
  have hlen : p.units.length = q.units.length := by
    rw [units_length_shape, units_length_shape, hshape]
  have hemp : p.units = [] ↔ q.units = [] := by
    rw [← List.length_eq_zero, ← List.length_eq_zero, hlen]
  by_cases hd : data = [] ∨ ∃ first rest, data = first :: rest ∧ first.X.length = 0
  · obtain ⟨⟨e, he1, he2⟩, ht⟩ := Train_early fuel p data ZeroWeightInit rnd hd
    obtain ⟨_, ht2⟩ := Train_early fuel q data ZeroWeightInit rnd2 hd
    rw [he1, he2 q rnd2, ht, ht2]
    exact ⟨rfl, rfl, rfl⟩
  · cases data with
    | nil => exact absurd (Or.inl rfl) hd
    | cons first rest =>
      have hm : first.X.length ≠ 0 := fun h0 => hd (Or.inr ⟨first, rest, rfl, h0⟩)
      obtain ⟨tp1, tp2⟩ := Train_zero fuel p first rest rnd hm
      obtain ⟨tq1, tq2⟩ := Train_zero fuel q first rest rnd2 hm
      obtain ⟨i1, i2, _, _⟩ := trainLoop_instep f r (first :: rest) fuel
        (zeroStart p first.X.length) (zeroStart q first.X.length) rfl rfl
        (zeroStart_instep f r p q first.X.length hbias hemp hp hq)
      obtain ⟨lp, _⟩ := trainLoop_length (first :: rest) fuel (zeroStart p first.X.length)
      obtain ⟨lq, _⟩ := trainLoop_length (first :: rest) fuel (zeroStart q first.X.length)
      rw [zeroStart_units, List.length_map] at lp lq
      rw [tp1, tp2, tq1, tq2]
      refine ⟨i1, ?_, ?_⟩
      · rw [List.map_map, List.map_map]
        refine forall₂_map_eq _ _ _ _ _ _ _ i2 lp lq ?_
        intro a b hab ha hb
        obtain ⟨_, _, w, hwa, hwb⟩ := hab
        show a.2.units.map neuron.w = b.2.units.map neuron.w
        rw [uniform_weights w f r _ hwa, uniform_weights w f r _ hwb, ha, hb, hlen]
      · rw [List.length_map, List.length_map]
        exact i2.length_eq

/-- Witness of C13: a fresh network and the network the NAND run of the test
has left behind. -/
theorem zero_init_deterministic_witness :
    ((New 1 1 testFn learningRate 1).Train 36 train_data ZeroWeightInit
        (fun _ => F32.zero)).map Prod.snd
      = (nandTrained.Train 36 train_data ZeroWeightInit (fun _ => F32.zero)).map Prod.snd :=
  (zero_init_deterministic testFn learningRate (New 1 1 testFn learningRate 1) nandTrained
    rfl rfl
    (by
      intro u hu
      have hu2 : u ∈ [newNeuron testFn learningRate] := hu
      simp only [List.mem_singleton] at hu2
      rw [hu2]
      simp only [newNeuron, and_self])
    (by
      intro u hu
      have hu2 : u ∈ [nandTrainedUnit] := hu
      simp only [List.mem_singleton] at hu2
      rw [hu2]
      simp only [nandTrainedUnit, and_self])
    36 train_data (fun _ => F32.zero) (fun _ => F32.zero)).1


/-! ## C17: every unit is trained like a single unit -/

theorem forall₂_both {α β : Type} (R S : α → β → Prop) (l1 : List α) (l2 : List β)
    (h : List.Forall₂ R l1 l2) (h2 : List.Forall₂ S l1 l2) :
    List.Forall₂ (fun a b => R a b ∧ S a b) l1 l2 := by
  induction h with
  | nil => exact List.Forall₂.nil
  | @cons a b l1 l2 hab _ ih =>
    cases h2 with
    | cons hso hrest => exact List.Forall₂.cons ⟨hab, hso⟩ (ih hrest)

/-- What being in step with a network of one unit means for the units. -/
theorem instep_single (f : ActivationFunc) (r : F32) (a b : Perceptron) (h : InStep f r a b)
    (hb : b.units.length = 1) :
    ∃ v, b.units = [v] ∧ a.units ≠ [] ∧ ∀ u ∈ a.units, u.w = v.w ∧ u.fn = v.fn := by
  obtain ⟨_, hemp, w, hwa, hwb⟩ := h
  obtain ⟨v, hv⟩ := List.length_eq_one.1 hb
  have hvm : v ∈ b.units := by rw [hv]; exact List.mem_singleton_self v
  obtain ⟨hvw, hvf, _⟩ := hwb v hvm
  refine ⟨v, hv, ?_, ?_⟩
  · intro ha
    have := hemp.1 ha
    rw [hv] at this
    cases this
  · intro u hu
    obtain ⟨huw, huf, _⟩ := hwa u hu
    exact ⟨huw.trans hvw.symm, huf.trans hvf.symm⟩

theorem sameOut_single (a b : Perceptron) (v : neuron) (h : SameOut a b) (hv : b.units = [v]) :
    ∀ u ∈ a.units, u.y = v.y ∧ u.d = v.d := by
  obtain ⟨y, d, ha, hb⟩ := h
  have hvm : v ∈ b.units := by rw [hv]; exact List.mem_singleton_self v
  intro u hu
  exact ⟨(ha u hu).1.trans (hb v hvm).1.symm, (ha u hu).2.trans (hb v hvm).2.symm⟩

set_option maxRecDepth 100000 in
/-- Counterexample to C17: a network without units. `Train` with
`ZeroWeightInit` on the NAND samples returns success on it as on the network
of one layer and one unit, but `Process` on the input `[1, 1, 1]` then answers
with an error, where the network of one unit answers `0` without error. -/
theorem no_unit_process_differs :
    (New 0 0 testFn learningRate 1).Train 36 train_data ZeroWeightInit (fun _ => F32.zero)
      = some (New 0 0 testFn learningRate 1, Exit.ret none) ∧
    (New 1 1 testFn learningRate 1).Train 36 train_data ZeroWeightInit (fun _ => F32.zero)
      = some (nandTrained, Exit.ret none) ∧
    ((New 0 0 testFn learningRate 1).Process [1, 1, 1]).2
      = (0, some Error.errCouldNotProcess) ∧
    (nandTrained.Process [1, 1, 1]).2 = (0, none) :=
  ⟨by rfl, nand_trained _, by rfl, by rfl⟩

/-- C17 as amended: let all the units of a network with at least one unit
share one activation function and one learning rate, and let `Train` with
`ZeroWeightInit` run on it and on the network of one layer and one unit with
the same activation function, learning rate and bias, on a sample list whose
first sample has features. With the same fuel both calls are still running or
both have ended in the same way; at the end of every pass every unit has the
weight vector of the single unit, and, in a run that does not end with an
error, its last output and last correction; the network a call leaves has in
every unit the weights of the single unit (and after success its output and
correction), and `Process` returns on it what it returns on the network of one
unit. -/
theorem broadcast_training (f : ActivationFunc) (r : F32) (p : Perceptron)
    (hp : ∀ u ∈ p.units, u.fn = f ∧ u.r = r) (hne : p.units ≠ [])
    (fuel : Nat) (first : Sample) (rest : List Sample) (rnd rnd2 : RandSource)
    (hm : first.X.length ≠ 0) :
    (p.Train fuel (first :: rest) ZeroWeightInit rnd).map Prod.snd
      = ((New 1 1 f r p.bias).Train fuel (first :: rest) ZeroWeightInit rnd2).map Prod.snd ∧
    List.Forall₂ (fun a b => ∃ v, b.units = [v] ∧ ∀ u ∈ a.units, u.w = v.w)
      (p.TrainTrace fuel (first :: rest) ZeroWeightInit rnd)
      ((New 1 1 f r p.bias).TrainTrace fuel (first :: rest) ZeroWeightInit rnd2) ∧
    ((∀ p1 e, p.Train fuel (first :: rest) ZeroWeightInit rnd = some (p1, e) →
        e = Exit.ret none) →
      List.Forall₂
        (fun a b => ∃ v, b.units = [v] ∧ ∀ u ∈ a.units, u.w = v.w ∧ u.y = v.y ∧ u.d = v.d)
        (p.TrainTrace fuel (first :: rest) ZeroWeightInit rnd)
        ((New 1 1 f r p.bias).TrainTrace fuel (first :: rest) ZeroWeightInit rnd2)) ∧
    (∀ p1 q1 e1 e2, p.Train fuel (first :: rest) ZeroWeightInit rnd = some (p1, e1) →
      (New 1 1 f r p.bias).Train fuel (first :: rest) ZeroWeightInit rnd2 = some (q1, e2) →
      (∃ v, q1.units = [v] ∧
        ∀ u ∈ p1.units, u.w = v.w ∧ (e1 = Exit.ret none → u.y = v.y ∧ u.d = v.d)) ∧
      ∀ input, (p1.Process input).2 = (q1.Process input).2) := by
  have hq : ∀ u ∈ (New 1 1 f r p.bias).units, u.fn = f ∧ u.r = r := by
    intro u hu
    have hu2 : u ∈ [newNeuron f r] := hu
    simp only [List.mem_singleton] at hu2
    rw [hu2]
    exact ⟨rfl, rfl⟩
  have hemp : p.units = [] ↔ (New 1 1 f r p.bias).units = [] := by
    constructor
    · intro h0
      exact absurd h0 hne
    · intro h0
      have h1 : [newNeuron f r] = [] := h0
      cases h1
  obtain ⟨tp1, tp2⟩ := Train_zero fuel p first rest rnd hm
  obtain ⟨tq1, tq2⟩ := Train_zero fuel (New 1 1 f r p.bias) first rest rnd2 hm
  obtain ⟨i1, i2, i3, i4⟩ := trainLoop_instep f r (first :: rest) fuel
    (zeroStart p first.X.length) (zeroStart (New 1 1 f r p.bias) first.X.length) rfl rfl
    (zeroStart_instep f r p (New 1 1 f r p.bias) first.X.length rfl hemp hp hq)
  obtain ⟨lq1, lq2⟩ := trainLoop_length (first :: rest) fuel
    (zeroStart (New 1 1 f r p.bias) first.X.length)
  have hone : (zeroStart (New 1 1 f r p.bias) first.X.length).p.units.length = 1 := by
    rw [zeroStart_units, List.length_map]
    rfl
  rw [hone] at lq1 lq2
  rw [tp1, tp2, tq1, tq2]
  refine ⟨i1, ?_, ?_, ?_⟩
  · rw [List.forall₂_map_left_iff, List.forall₂_map_right_iff]
    refine forall₂_imp_mem _ _ (fun _ => True) (fun b => b.2.units.length = 1) _ _ i2
      (fun _ _ => trivial) lq1 ?_
    intro a b hab _ hb
    obtain ⟨v, hv, _, hall⟩ := instep_single f r a.2 b.2 hab hb
    exact ⟨v, hv, fun u hu => (hall u hu).1⟩
  · intro hok
    rw [List.forall₂_map_left_iff, List.forall₂_map_right_iff]
    have hboth := forall₂_both _ _ _ _ i2 (i4 hok)
    refine forall₂_imp_mem _ _ (fun _ => True) (fun b => b.2.units.length = 1) _ _ hboth
      (fun _ _ => trivial) lq1 ?_
    intro a b hab _ hb
    obtain ⟨v, hv, _, hall⟩ := instep_single f r a.2 b.2 hab.1 hb
    have hyd := sameOut_single a.2 b.2 v hab.2 hv
    exact ⟨v, hv, fun u hu => ⟨(hall u hu).1, hyd u hu⟩⟩
  · intro p1 q1 e1 e2 h1 h2
    obtain ⟨hin, hso⟩ := i3 p1 q1 e1 e2 h1 h2
    obtain ⟨v, hv, hpne, hall⟩ := instep_single f r p1 q1 hin (lq2 q1 e2 h2)
    refine ⟨⟨v, hv, fun u hu => ⟨(hall u hu).1, fun he => sameOut_single p1 q1 v (hso he) hv u hu⟩⟩,
      ?_⟩
    intro input
    rcases Process_cases p1 input with ⟨h0, _⟩ | ⟨u, others, ls1, hu, hP, _⟩
    · exact absurd h0 hpne
    · rcases Process_cases q1 input with ⟨h0, _⟩ | ⟨v2, others2, ls2, hv2, hQ, _⟩
      · rw [hv] at h0
        cases h0
      · rw [hP, hQ]
        have hvv : v2 = v := by
          rw [hv] at hv2
          injection hv2 with h3 _
          exact h3.symm
        subst hvv
        have hum : u ∈ p1.units := by rw [hu]; exact List.mem_cons_self _ _
        exact process_congr _ _ rfl (hall u hum).1 (hall u hum).2

/-- Witness of C17 as amended: a layer of two units on the NAND samples. -/
theorem broadcast_training_witness :
    ((New 1 2 testFn learningRate 1).Train 36 train_data ZeroWeightInit
        (fun _ => F32.zero)).map Prod.snd
      = ((New 1 1 testFn learningRate 1).Train 36 train_data ZeroWeightInit
        (fun _ => F32.zero)).map Prod.snd :=
  (broadcast_training testFn learningRate (New 1 2 testFn learningRate 1)
    (by
      intro u hu
      have hu2 : u ∈ [newNeuron testFn learningRate, newNeuron testFn learningRate] := hu
      simp only [List.mem_cons, List.mem_singleton, List.not_mem_nil, or_false, or_self] at hu2
      rw [hu2]
      simp only [newNeuron, and_self])
    (by
      intro h0
      have h1 : [newNeuron testFn learningRate, newNeuron testFn learningRate] = [] := h0
      cases h1)
    36 { X := [0, 0], Z := 1 } train_data.tail (fun _ => F32.zero) (fun _ => F32.zero)
    (by decide)).1


/-! ## C18: runs of `Train` that do not end -/

set_option maxRecDepth 100000 in
/-- The correction for an expected output 1 and an output 0 at the learning
rate of the test is greater than zero. -/
theorem correction_one_pos :
    F32.gt (F32.mul learningRate (F32.ofInt (toInt (uintSub 1 0)))) F32.zero = true := by
  rfl

set_option maxRecDepth 1000000 in
/-- The first 30 passes of the XOR run, evaluated. -/
theorem xor_base :
    loopAfter xor_data 30 (zeroStart (New 1 1 testFn learningRate 1) 2)
      = some { p := (xorCycle 0).1, i := 30, howMuchStablesInARow := 0 } := by
  rfl

set_option maxRecDepth 1000000 in
/-- The four sample applications of the cycle of the XOR run, evaluated. -/
theorem xor_cycle_apply :
    ((xorCycle 0).1.applySample { X := [1, 0], Z := 1 } = ((xorCycle 1).1, Exit.ret none) ∧
      (xorCycle 1).1.stable = false) ∧
    ((xorCycle 1).1.applySample { X := [1, 1], Z := 0 } = ((xorCycle 2).1, Exit.ret none) ∧
      (xorCycle 2).1.stable = true) ∧
    ((xorCycle 2).1.applySample { X := [0, 0], Z := 0 } = ((xorCycle 3).1, Exit.ret none) ∧
      (xorCycle 3).1.stable = true) ∧
    ((xorCycle 3).1.applySample { X := [0, 1], Z := 1 } = ((xorCycle 0).1, Exit.ret none) ∧
      (xorCycle 0).1.stable = false) := by
  exact ⟨⟨rfl, rfl⟩, ⟨rfl, rfl⟩, ⟨rfl, rfl⟩, ⟨rfl, rfl⟩⟩


/-- One pass of the XOR run from a state of the cycle: it goes round again
into the next state of the cycle. -/
theorem xor_pass (k : Nat) (i : Int) (h30 : 30 ≤ k)
    (hk : Int.tmod i 4 = ((k % 4 : Nat) : Int)) :
    loopPass xor_data
        { p := (xorCycle ((k - 30) % 4)).1, i := i,
          howMuchStablesInARow := (xorCycle ((k - 30) % 4)).2 }
      = Pass.again
        { p := (xorCycle ((k + 1 - 30) % 4)).1, i := wrapInt (i + 1),
          howMuchStablesInARow := (xorCycle ((k + 1 - 30) % 4)).2 } := by
  obtain ⟨⟨a0, s0⟩, ⟨a1, s1⟩, ⟨a2, s2⟩, ⟨a3, s3⟩⟩ := xor_cycle_apply
  have hl : (xor_data.length : Int) = 4 := rfl
  have step : ∀ (c c1 idx : Nat) (smp : Sample), (k - 30) % 4 = c → (k + 1 - 30) % 4 = c1 →
      k % 4 = idx → xor_data[idx]? = some smp →
      (xorCycle c).1.applySample smp = ((xorCycle c1).1, Exit.ret none) →
      (((xorCycle c1).1.stable = false ∧ (xorCycle c1).2 = 0) ∨
        ((xorCycle c1).1.stable = true ∧ (xorCycle c).2 + 1 ≤ 4 ∧
          (xorCycle c1).2 = (xorCycle c).2 + 1)) →
      loopPass xor_data
        { p := (xorCycle ((k - 30) % 4)).1, i := i,
          howMuchStablesInARow := (xorCycle ((k - 30) % 4)).2 }
      = Pass.again
        { p := (xorCycle ((k + 1 - 30) % 4)).1, i := wrapInt (i + 1),
          howMuchStablesInARow := (xorCycle ((k + 1 - 30) % 4)).2 } := by
    intro c c1 idx smp e0 e1 e2 hsmp happ hor
    rw [e0, e1]
    have hi1 : (0 : Int) ≤ Int.tmod i (xor_data.length : Int) := by
      rw [hl, hk]
      exact Int.ofNat_nonneg _
    have hi2 : xor_data[(Int.tmod i (xor_data.length : Int)).toNat]? = some smp := by
      rw [hl, hk, Int.toNat_ofNat, e2]
      exact hsmp
    obtain ⟨_, b2, b3, _⟩ := loopPass_apply xor_data
      { p := (xorCycle c).1, i := i, howMuchStablesInARow := (xorCycle c).2 } smp
      (xorCycle c1).1 (Exit.ret none) hi1 hi2 happ
    rcases hor with ⟨hst, hz⟩ | ⟨hst, hle, hz⟩
    · rw [b2 rfl hst, hz]
    · rw [b3 rfl hst hle, hz]
  have hc : (k - 30) % 4 < 4 := Nat.mod_lt _ (by omega)
  rcases Nat.lt_or_ge ((k - 30) % 4) 2 with hlo | hhi
  · rcases Nat.lt_or_ge ((k - 30) % 4) 1 with h0 | h1
    · exact step 0 1 2 { X := [1, 0], Z := 1 } (by omega) (by omega) (by omega) rfl a0
        (Or.inl ⟨s0, rfl⟩)
    · exact step 1 2 3 { X := [1, 1], Z := 0 } (by omega) (by omega) (by omega) rfl a1
        (Or.inr ⟨s1, by decide, rfl⟩)
  · rcases Nat.lt_or_ge ((k - 30) % 4) 3 with h2 | h3
    · exact step 2 3 0 { X := [0, 0], Z := 0 } (by omega) (by omega) (by omega) rfl a2
        (Or.inr ⟨s2, by decide, rfl⟩)
    · exact step 3 0 1 { X := [0, 1], Z := 1 } (by omega) (by omega) (by omega) rfl a3
        (Or.inl ⟨s3, rfl⟩)

/-- The XOR run from its 30th pass on, as long as the 64-bit counter has not
wrapped: after `k` passes the loop is in the state of the cycle that `k`
selects. -/
theorem xor_run (k : Nat) (h30 : 30 ≤ k) (hk : k ≤ 2 ^ 63) :
    loopAfter xor_data k (zeroStart (New 1 1 testFn learningRate 1) 2)
      = some { p := (xorCycle ((k - 30) % 4)).1, i := wrapIter k 0,
               howMuchStablesInARow := (xorCycle ((k - 30) % 4)).2 } := by
  induction k with
  | zero => omega
  | succ k ih =>
    by_cases hb : k + 1 = 30
    · have hk30 : k = 29 := by omega
      subst hk30
      have e0 : (29 + 1 - 30) % 4 = 0 := rfl
      rw [xor_base, e0, wrapIter_small (29 + 1) (by norm_num)]
      rfl
    · have hstep := xor_pass k (wrapIter k 0) (by omega)
        (by rw [wrapIter_small k (by omega)]; exact (Int.ofNat_tmod k 4).symm)
      rw [loopAfter_again xor_data k _ _ _ (ih (by omega) (by omega)) hstep, wrapIter_succ]

/-- One pass of the loop on the one-sample set for a unit that never fires:
the sample application gives no error and a correction greater than zero, so
the pass goes round again. -/
theorem never_pass (s : LoopState)
    (h : (∃ u, s.p.units = [u] ∧ u.fn = neverFires ∧ u.r = learningRate ∧ u.w.length = 2) ∧
      s.p.bias = 1) :
    ∃ s1, loopPass oneSample s = Pass.again s1 ∧
      (∃ u, s1.p.units = [u] ∧ u.fn = neverFires ∧ u.r = learningRate ∧ u.w.length = 2) ∧
      s1.p.bias = 1 := by
  obtain ⟨⟨u, hu, hfn, hr, hw⟩, hb⟩ := h
  have hl : (oneSample.length : Int) = 1 := rfl
  have hidx : Int.tmod s.i (oneSample.length : Int) = 0 := by rw [hl, Int.tmod_one]
  obtain ⟨fl1, fl2⟩ := applySample_flat s.p { X := [1], Z := 1 }
  rw [hu, hb] at fl1 fl2
  rcases trainUnit_total [1, 1] 1 u with ⟨_, n2, hn2, _, _, hfn2, hr2, hw2, hy2, hd2⟩ | ⟨hlt, _⟩
  · rw [trainNeurons_cons_ok [1, 1] 1 u n2 [] hn2] at fl1 fl2
    have hy0 : u.fn (weightedSum [1, 1] u.w) = 0 := by rw [hfn]; rfl
    rw [hy0, hr] at hd2
    have hunits : (s.p.applySample { X := [1], Z := 1 }).1.units = [n2] := fl1
    have hexit : (s.p.applySample { X := [1], Z := 1 }).2 = Exit.ret none := fl2
    have hst : (s.p.applySample { X := [1], Z := 1 }).1.stable = false := by
      rw [← Bool.not_eq_true, stable_iff, hunits]
      intro hall
      have := hall n2 (List.mem_singleton_self n2)
      rw [hd2, correction_one_pos] at this
      cases this
    refine ⟨_, (loopPass_apply oneSample s { X := [1], Z := 1 } _ _ (by rw [hidx])
      (by rw [hidx]; rfl) (Prod.ext rfl rfl)).2.1 hexit hst, ⟨n2, hunits, ?_, ?_, ?_⟩, ?_⟩
    · rw [hfn2, hfn]
    · rw [hr2, hr]
    · rw [hw2, hw]
    · show (s.p.applySample { X := [1], Z := 1 }).1.bias = 1
      rw [applySample_bias, hb]
  · rw [hw] at hlt
    simp at hlt

theorem never_run (k : Nat) :
    ∃ sk, loopAfter oneSample k (zeroStart (New 1 1 neverFires learningRate 1) 1) = some sk ∧
      (∃ u, sk.p.units = [u] ∧ u.fn = neverFires ∧ u.r = learningRate ∧ u.w.length = 2) ∧
      sk.p.bias = 1 := by
  induction k with
  | zero =>
    refine ⟨_, rfl, ⟨zeroInitN 1 false (newNeuron neverFires learningRate), rfl, ?_, ?_, ?_⟩,
      rfl⟩
    · simp only [zeroInitN, newNeuron]
    · simp only [zeroInitN, newNeuron]
    · simp only [zeroInitN, List.length_replicate]
  | succ k ih =>
    obtain ⟨sk, hk, hinv⟩ := ih
    obtain ⟨s1, hp, hinv1⟩ := never_pass sk hinv
    exact ⟨s1, loopAfter_again oneSample k _ sk s1 hk hp, hinv1⟩

/-- C18: there are runs of `Train` that never return. On the network of one
layer and one unit whose activation function never fires, with learning rate
`0.1` and bias 1, `Train` with `ZeroWeightInit` on the one sample `[1] -> 1` is
still running after any number of passes: every pass applies the sample
without error and is judged not stable. On the network of the test (threshold
`0.5`, learning rate `0.1`, bias 1), `Train` with `ZeroWeightInit` on the XOR
truth table is still running after any number of passes up to `2^63`, the
number of increments after which the 64-bit counter of the loop wraps; in both
runs the trajectory has one entry per unit of fuel. -/
theorem train_never_returns :
    (∀ fuel rnd,
      (New 1 1 neverFires learningRate 1).Train fuel oneSample ZeroWeightInit rnd = none ∧
      ((New 1 1 neverFires learningRate 1).TrainTrace fuel oneSample ZeroWeightInit
        rnd).length = fuel) ∧
    (∀ fuel rnd, fuel ≤ 2 ^ 63 →
      (New 1 1 testFn learningRate 1).Train fuel xor_data ZeroWeightInit rnd = none ∧
      ((New 1 1 testFn learningRate 1).TrainTrace fuel xor_data ZeroWeightInit
        rnd).length = fuel) := by
  refine ⟨?_, ?_⟩
  · intro fuel rnd
    obtain ⟨t1, t2⟩ := Train_zero fuel (New 1 1 neverFires learningRate 1) { X := [1], Z := 1 }
      [] rnd (by decide)
    obtain ⟨sk, hk, _⟩ := never_run fuel
    refine ⟨t1.trans ((trainLoop_none_iff _ _ _).2 ⟨sk, hk⟩), ?_⟩
    refine (congrArg List.length t2).trans ?_
    rw [List.length_map]
    exact (trainPasses_snoc _ fuel _ sk hk).1
  · intro fuel rnd hf
    obtain ⟨t1, t2⟩ := Train_zero fuel (New 1 1 testFn learningRate 1) { X := [0, 0], Z := 0 }
      xor_data.tail rnd (by decide)
    have hex : ∃ sk, loopAfter xor_data fuel (zeroStart (New 1 1 testFn learningRate 1) 2)
        = some sk := by
      by_cases h30 : 30 ≤ fuel
      · exact ⟨_, xor_run fuel h30 hf⟩
      · exact loopAfter_le xor_data 30 fuel _ _ (by omega) xor_base
    obtain ⟨sk, hk⟩ := hex
    refine ⟨t1.trans ((trainLoop_none_iff _ _ _).2 ⟨sk, hk⟩), ?_⟩
    refine (congrArg List.length t2).trans ?_
    rw [List.length_map]
    exact (trainPasses_snoc _ fuel _ sk hk).1

/-- Witness of C18: the XOR run is still going on after 1000 passes. -/
theorem train_never_returns_witness :
    (New 1 1 testFn learningRate 1).Train 1000 xor_data ZeroWeightInit (fun _ => F32.zero)
      = none :=
  (train_never_returns.2 1000 (fun _ => F32.zero) (by norm_num)).1


end perceptron
